import Mathlib

/-!
# bcslib: the indexed binary heap (`bcslib/data_structs/binary_heap.h`)

A shallow embedding of `bcs::consecutive_binary_tree` and `bcs::binary_heap`, and a
verification of the heap's invariants on it.

Conventions of the embedding.

* `size_type` values are natural numbers; the operations that can leave the range of a
  64-bit `size_type` (`id - 1`, `id << 1`, `id + 1`) are reduced modulo `SIZE_MOD`.
* A `std::vector` is a `List`.  Reading or writing outside the vector, `front()`/`back()`
  of an empty vector and `pop_back()` of an empty vector are undefined in C++; here they
  give `none`, and every operation of the heap is a function into `Option`.
* The two `while` loops (`bubble_up`, `bubble_down`) are recursions on a step budget that
  the caller sets to `size() + 1`; a loop that outlives its budget gives `none`.
* The heap holds a reference to the caller's element container; here the container is the
  field `m_elements` of the heap state.
-/

set_option autoImplicit false

namespace bcs

/-- The modulus of the 64-bit `size_type`. -/
def SIZE_MOD : Nat := 18446744073709551616

/-- Writing `v[i] = a` on a vector: out of range is undefined. -/
def vec_set {α : Type} (v : List α) (i : Nat) (a : α) : Option (List α) :=
  if i < v.length then some (v.set i a) else none

/-- The struct `consecutive_binary_tree<T>::handle`. -/
structure handle where
  id : Nat
deriving DecidableEq, Repr

namespace handle

/-- The default constructor `handle() : id(0)`. -/
def nil : handle := ⟨0⟩

/-- The C++ `index()`: `id - 1` in `size_type` arithmetic. -/
def index (h : handle) : Nat := (h.id + (SIZE_MOD - 1)) % SIZE_MOD

/-- The C++ `is_nil()`: `id == 0`. -/
def is_nil (h : handle) : Bool := h.id == 0

/-- The C++ `non_nil()`: `id > 0`. -/
def non_nil (h : handle) : Bool := decide (h.id > 0)

end handle

/-- The class `consecutive_binary_tree<T>`: the vector `m_nodes`. -/
structure consecutive_binary_tree (T : Type) where
  m_nodes : List T
deriving Repr

namespace consecutive_binary_tree

variable {T : Type}

/-- The C++ `size()`. -/
def size (t : consecutive_binary_tree T) : Nat := t.m_nodes.length

/-- The C++ `empty()`. -/
def empty (t : consecutive_binary_tree T) : Bool := t.m_nodes.isEmpty

/-- The C++ `push(e)`: `m_nodes.push_back(e)`. -/
def push (t : consecutive_binary_tree T) (e : T) : consecutive_binary_tree T :=
  ⟨t.m_nodes ++ [e]⟩

/-- The C++ `pop()`: `m_nodes.pop_back()`. -/
def pop (t : consecutive_binary_tree T) : Option (consecutive_binary_tree T) :=
  match t.m_nodes with
  | [] => none
  | x :: xs => some ⟨(x :: xs).dropLast⟩

/-- The C++ `root_value()` read: `m_nodes.front()`. -/
def root_value (t : consecutive_binary_tree T) : Option T := t.m_nodes.head?

/-- The C++ `root_value() = x`: a write through the reference `m_nodes.front()`. -/
def set_root_value (t : consecutive_binary_tree T) (x : T) :
    Option (consecutive_binary_tree T) :=
  match t.m_nodes with
  | [] => none
  | _ :: xs => some ⟨x :: xs⟩

/-- The C++ `back_value()` read: `m_nodes.back()`. -/
def back_value (t : consecutive_binary_tree T) : Option T := t.m_nodes.getLast?

/-- The C++ `operator()(node)` read: `m_nodes[node.index()]`. -/
def get (t : consecutive_binary_tree T) (node : handle) : Option T :=
  t.m_nodes[node.index]?

/-- The C++ `operator()(node) = x`: a write to `m_nodes[node.index()]`. -/
def set (t : consecutive_binary_tree T) (node : handle) (x : T) :
    Option (consecutive_binary_tree T) :=
  (vec_set t.m_nodes node.index x).map fun l => ⟨l⟩

/-- The C++ `root()`. -/
def root (_t : consecutive_binary_tree T) : handle := ⟨1⟩

/-- The C++ `back()`. -/
def back (t : consecutive_binary_tree T) : handle := ⟨t.size⟩

/-- The C++ `last_parent()`: `size() >> 1`. -/
def last_parent (t : consecutive_binary_tree T) : handle := ⟨t.size / 2⟩

/-- The C++ `parent(v)`: `v.id >> 1`. -/
def parent (_t : consecutive_binary_tree T) (v : handle) : handle := ⟨v.id / 2⟩

/-- The C++ `left_child(v)`. -/
def left_child (t : consecutive_binary_tree T) (v : handle) : handle :=
  let id := (v.id * 2) % SIZE_MOD
  if id ≤ t.size then ⟨id⟩ else ⟨0⟩

/-- The C++ `right_child(v)`. -/
def right_child (t : consecutive_binary_tree T) (v : handle) : handle :=
  let id := (v.id * 2) % SIZE_MOD
  if id < t.size then ⟨(id + 1) % SIZE_MOD⟩ else ⟨0⟩

/-- The C++ `get_children(v, lc, rc)`: the pair `(lc, rc)`. -/
def get_children (t : consecutive_binary_tree T) (v : handle) : handle × handle :=
  let id := (v.id * 2) % SIZE_MOD
  let s := t.size
  if id > s then (⟨0⟩, ⟨0⟩)
  else if id = s then (⟨id⟩, ⟨0⟩)
  else (⟨id⟩, ⟨(id + 1) % SIZE_MOD⟩)

/-- The C++ `is_non_root(v)`: `v.id > 1`. -/
def is_non_root (_t : consecutive_binary_tree T) (v : handle) : Bool := decide (v.id > 1)

end consecutive_binary_tree

/-- The class `binary_heap<T, Container, Compare>`. -/
structure binary_heap (T : Type) where
  m_elements : List T
  m_btree : consecutive_binary_tree Nat
  m_node_map : List handle
  m_compare : T → T → Bool

namespace binary_heap

variable {T : Type}

/-- The C++ `init_node_map()`: one nil handle per element. -/
def init_node_map (n : Nat) : List handle := List.replicate n handle.nil

/-- The constructor `binary_heap(elements, compare)`. -/
def new (elements : List T) (compare : T → T → Bool) : binary_heap T :=
  { m_elements := elements
    m_btree := ⟨[]⟩
    m_node_map := init_node_map elements.length
    m_compare := compare }

/-- The C++ `size()`. -/
def size (h : binary_heap T) : Nat := h.m_btree.size

/-- The C++ `empty()`. -/
def empty (h : binary_heap T) : Bool := h.m_btree.empty

/-- The C++ `root()`: `m_elements[m_btree.root_value()]`. -/
def root (h : binary_heap T) : Option T :=
  h.m_btree.root_value.bind fun i => h.m_elements[i]?

/-- The C++ `get_by_node(u)`: `m_elements[m_btree(u)]`. -/
def get_by_node (h : binary_heap T) (u : handle) : Option T :=
  (h.m_btree.get u).bind fun i => h.m_elements[i]?

/-- The C++ `compare(x, y)`. -/
def compare (h : binary_heap T) (x y : T) : Bool := h.m_compare x y

/-- The C++ `node(idx)`: `m_node_map[idx]`. -/
def node (h : binary_heap T) (idx : Nat) : Option handle := h.m_node_map[idx]?

/-- The C++ `in_heap(idx)`: `m_node_map[idx].non_nil()`. -/
def in_heap (h : binary_heap T) (idx : Nat) : Option Bool :=
  (h.m_node_map[idx]?).map handle.non_nil

/-- The C++ `swap(u, v)`: exchanges two slots and the two node-map entries; returns `v`. -/
def swap (h : binary_heap T) (u v : handle) : Option (binary_heap T × handle) :=
  (h.m_btree.get u).bind fun ui =>
  (h.m_btree.get v).bind fun vi =>
  (vec_set h.m_node_map ui v).bind fun nm1 =>
  (vec_set nm1 vi u).bind fun nm2 =>
  (h.m_btree.set u vi).bind fun t1 =>
  (t1.set v ui).bind fun t2 =>
  some ({ h with m_btree := t2, m_node_map := nm2 }, v)

/-- The loop of `bubble_up(u, e)`; the first argument bounds the number of iterations. -/
def bubble_up_loop (e : T) : Nat → binary_heap T → handle → Option (binary_heap T)
  | 0, _, _ => none
  | fuel + 1, h, u =>
    if h.m_btree.is_non_root u then
      let p := h.m_btree.parent u
      (h.get_by_node p).bind fun pe =>
      if h.compare e pe then
        (h.swap u p).bind fun r => bubble_up_loop e fuel r.1 r.2
      else some h
    else some h

/-- The C++ `bubble_up(u, e)`. -/
def bubble_up (h : binary_heap T) (u : handle) (e : T) : Option (binary_heap T) :=
  bubble_up_loop e (h.size + 1) h u

/-- The loop of `bubble_down(u, e)`; `last_nl` is read once before the loop, the first
argument bounds the number of iterations. -/
def bubble_down_loop (e : T) (last_nl : handle) :
    Nat → binary_heap T → handle → Option (binary_heap T)
  | 0, _, _ => none
  | fuel + 1, h, u =>
    if u.id ≤ last_nl.id then
      let c := h.m_btree.get_children u
      if c.2.non_nil then
        (h.get_by_node c.1).bind fun le =>
        (h.get_by_node c.2).bind fun re =>
        if h.compare le re then
          if h.compare le e then
            (h.swap u c.1).bind fun r => bubble_down_loop e last_nl fuel r.1 r.2
          else some h
        else
          if h.compare re e then
            (h.swap u c.2).bind fun r => bubble_down_loop e last_nl fuel r.1 r.2
          else some h
      else if c.1.non_nil then
        (h.get_by_node c.1).bind fun le =>
        if h.compare le e then
          (h.swap u c.1).bind fun r => bubble_down_loop e last_nl fuel r.1 r.2
        else some h
      else some h
    else some h

/-- The C++ `bubble_down(u, e)`. -/
def bubble_down (h : binary_heap T) (u : handle) (e : T) : Option (binary_heap T) :=
  bubble_down_loop e h.m_btree.last_parent (h.size + 1) h u

/-- The C++ `update_up(idx)`: `bubble_up(m_node_map[idx], m_elements[idx])`. -/
def update_up (h : binary_heap T) (idx : Nat) : Option (binary_heap T) :=
  (h.m_node_map[idx]?).bind fun u =>
  (h.m_elements[idx]?).bind fun e =>
  h.bubble_up u e

/-- The C++ `update_down(idx)`: `bubble_down(m_node_map[idx], m_elements[idx])`. -/
def update_down (h : binary_heap T) (idx : Nat) : Option (binary_heap T) :=
  (h.m_node_map[idx]?).bind fun u =>
  (h.m_elements[idx]?).bind fun e =>
  h.bubble_down u e

/-- The C++ `enroll(idx)`. -/
def enroll (h : binary_heap T) (idx : Nat) : Option (binary_heap T) :=
  let t := h.m_btree.push idx
  let last_node := t.back
  (vec_set h.m_node_map idx last_node).bind fun nm =>
  let h1 : binary_heap T := { h with m_btree := t, m_node_map := nm }
  if t.size > 1 then
    (h1.m_elements[idx]?).bind fun e => h1.bubble_up last_node e
  else some h1

/-- The C++ `pop_root()`. -/
def pop_root (h : binary_heap T) : Option (binary_heap T) :=
  let n := h.m_btree.size
  if n > 0 then
    (h.m_btree.root_value).bind fun r =>
    (vec_set h.m_node_map r handle.nil).bind fun nm =>
    if n > 1 then
      (h.m_btree.back_value).bind fun i =>
      (h.m_btree.set_root_value i).bind fun t1 =>
      (vec_set nm i t1.root).bind fun nm2 =>
      (t1.pop).bind fun t2 =>
      let h2 : binary_heap T := { h with m_btree := t2, m_node_map := nm2 }
      (h2.m_elements[i]?).bind fun e =>
      h2.bubble_down t2.root e
    else
      (h.m_btree.pop).bind fun t2 =>
      some { h with m_btree := t2, m_node_map := nm }
  else some h

/-- One round of the first loop of `make_heap`: `m_btree.push(i); m_node_map[i] = m_btree.back()`. -/
def push_node (h : binary_heap T) (i : Nat) : Option (binary_heap T) :=
  let t := h.m_btree.push i
  (vec_set h.m_node_map i t.back).map fun nm =>
  { h with m_btree := t, m_node_map := nm }

/-- The loop of `do_make_heap()`: `for (id = last_nonleaf_id; id > 0; --id)`. -/
def do_make_heap_loop : Nat → binary_heap T → Option (binary_heap T)
  | 0, h => some h
  | id + 1, h =>
    (h.get_by_node ⟨id + 1⟩).bind fun e =>
    (h.bubble_down ⟨id + 1⟩ e).bind fun h1 =>
    do_make_heap_loop id h1

/-- The C++ `do_make_heap()`. -/
def do_make_heap (h : binary_heap T) : Option (binary_heap T) :=
  if h.m_btree.size > 1 then
    do_make_heap_loop h.m_btree.last_parent.id h
  else some h

/-- The C++ `make_heap(first, last)` over the ids of an input range. -/
def make_heap_range (h : binary_heap T) (ids : List Nat) : Option (binary_heap T) :=
  (ids.foldlM push_node h).bind do_make_heap

/-- The C++ `make_heap(n)`: the ids `0, ..., n - 1`. -/
def make_heap (h : binary_heap T) (n : Nat) : Option (binary_heap T) :=
  ((List.range n).foldlM push_node h).bind do_make_heap

/-- The constructor `binary_heap(elements, do_makeheap, compare)`. -/
def new_make (elements : List T) (do_makeheap : Bool) (compare : T → T → Bool) :
    Option (binary_heap T) :=
  if do_makeheap then (new elements compare).make_heap elements.length
  else some (new elements compare)

end binary_heap

/-- The free function `update_element(container, heap, idx, v)`, for a heap bound to
`container`. -/
def update_element {T : Type} (h : binary_heap T) (idx : Nat) (v : T) :
    Option (binary_heap T) :=
  (h.m_elements[idx]?).bind fun v0 =>
  (vec_set h.m_elements idx v).bind fun els =>
  let h1 : binary_heap T := { h with m_elements := els }
  if h1.compare v v0 then h1.update_up idx else h1.update_down idx

/-! ## Definitions of the verification -/

namespace binary_heap

variable {T : Type}

/-- A well-formed heap.  The node map has one entry per element, and the number of elements
is a `size_type` value.  The bijection between ids and handles holds: the id in the slot at
position `i + 1` has the handle `i + 1` in the node map, and an id below `N` that is in no
slot has a nil entry. -/
structure WF (h : binary_heap T) : Prop where
  nm_len : h.m_node_map.length = h.m_elements.length
  rep : h.m_elements.length < SIZE_MOD
  slot_node : ∀ i e, h.m_btree.m_nodes[i]? = some e →
    h.m_node_map[e]? = some (handle.mk (i + 1))
  absent : ∀ e, e < h.m_elements.length → e ∉ h.m_btree.m_nodes →
    h.m_node_map[e]? = some handle.nil

/-- The state after `swap(u, v)` when slot `u` holds `ui` and slot `v` holds `vi`. -/
def swapped (h : binary_heap T) (u v ui vi : Nat) : binary_heap T :=
  { h with
    m_btree := ⟨(h.m_btree.m_nodes.set (u - 1) vi).set (v - 1) ui⟩
    m_node_map := (h.m_node_map.set ui ⟨v⟩).set vi ⟨u⟩ }

/-- The value stored at slot position `s` (1-based): `get_by_node(handle(s))`. -/
def key (h : binary_heap T) (s : Nat) : Option T := h.get_by_node ⟨s⟩

/-- The comparator is a strict weak ordering: a strict partial order whose incomparability
relation is transitive. -/
structure StrictWeakOrder (cmp : T → T → Bool) : Prop where
  irrefl : ∀ a, cmp a a = false
  trans : ∀ a b c, cmp a b = true → cmp b c = true → cmp a c = true
  incomp_trans : ∀ a b c, cmp a b = false → cmp b a = false → cmp b c = false →
    cmp c b = false → cmp a c = false ∧ cmp c a = false

/-- The first value is not strictly better than the second, for two values that were read. -/
def NLt (cmp : T → T → Bool) (a b : Option T) : Prop :=
  ∀ x y, a = some x → b = some y → cmp x y = false

/-- Two states over the same elements and comparator whose slot sequences are permutations
of each other. -/
structure Same (h h' : binary_heap T) : Prop where
  elements : h'.m_elements = h.m_elements
  compare : h'.m_compare = h.m_compare
  perm : h'.m_btree.m_nodes.Perm h.m_btree.m_nodes

/-- Heap order on every edge: no slot is strictly better than its parent slot. -/
def OrdAll (h : binary_heap T) : Prop :=
  ∀ s, 2 ≤ s → s ≤ h.size → NLt h.m_compare (key h s) (key h (s / 2))

/-- Heap order on the edges below the positions `k, k + 1, ...`. -/
def OrdFrom (h : binary_heap T) (k : Nat) : Prop :=
  ∀ s, 2 ≤ s → s ≤ h.size → k ≤ s / 2 → NLt h.m_compare (key h s) (key h (s / 2))

/-- The state during `bubble_up` at position `u`: every edge is in order except the one
above `u`, and the children of `u` are in order with the parent of `u`. -/
def UpInv (h : binary_heap T) (u : Nat) : Prop :=
  (∀ s, 2 ≤ s → s ≤ h.size → s ≠ u → NLt h.m_compare (key h s) (key h (s / 2))) ∧
  (∀ c, 2 ≤ u → c ≤ h.size → c / 2 = u → NLt h.m_compare (key h c) (key h (u / 2)))

/-- The state during `bubble_down` at position `u`, for the edges below `k, k + 1, ...`:
every such edge is in order except those below `u`, and the children of `u` are in order
with the parent of `u`. -/
def DownInv (h : binary_heap T) (u k : Nat) : Prop :=
  k ≤ u ∧
  (∀ s, 2 ≤ s → s ≤ h.size → k ≤ s / 2 → s / 2 ≠ u →
    NLt h.m_compare (key h s) (key h (s / 2))) ∧
  (∀ c, 2 ≤ u → k ≤ u / 2 → c ≤ h.size → c / 2 = u →
    NLt h.m_compare (key h c) (key h (u / 2)))

/-- The state after `m_btree.push(idx); m_node_map[idx] = m_btree.back()`. -/
def pushed (h : binary_heap T) (idx : Nat) : binary_heap T :=
  { h with
    m_btree := ⟨h.m_btree.m_nodes ++ [idx]⟩
    m_node_map := h.m_node_map.set idx ⟨h.size + 1⟩ }

/-- The state of `pop_root()` before its `bubble_down`: the root id `r` detached, the last
id `l` moved to the root slot, the last slot removed. -/
def moved (h : binary_heap T) (r l : Nat) (mid : List Nat) : binary_heap T :=
  { h with
    m_btree := ⟨l :: mid⟩
    m_node_map := (h.m_node_map.set r handle.nil).set l ⟨1⟩ }

/-- The state after `pop_root()` on a heap with the single id `r`. -/
def emptied (h : binary_heap T) (r : Nat) : binary_heap T :=
  { h with
    m_btree := ⟨[]⟩
    m_node_map := h.m_node_map.set r handle.nil }

/-- Heap order as the specification states it: for every slot position `s` with
`2 <= s <= size()`, `compare(elements[slot[s]], elements[slot[s / 2]])` is false. -/
def heap_order (h : binary_heap T) : Prop :=
  ∀ s, 2 ≤ s → s ≤ h.size →
    ∃ x y, h.get_by_node ⟨s⟩ = some x ∧ h.get_by_node ⟨s / 2⟩ = some y ∧ h.compare x y = false

/-- A call of one of the four mutating operations of the public interface. -/
inductive Call where
  | enroll (id : Nat)
  | pop_root
  | update_up (id : Nat)
  | update_down (id : Nat)
deriving DecidableEq, Repr

/-- The effect of a call. -/
def Call.exec (h : binary_heap T) : Call → Option (binary_heap T)
  | .enroll id => h.enroll id
  | .pop_root => h.pop_root
  | .update_up id => h.update_up id
  | .update_down id => h.update_down id

/-- The precondition of a call: `enroll(id)` for an absent `id < N`, `update_up(id)` and
`update_down(id)` for an id in the heap. -/
def Call.pre (h : binary_heap T) : Call → Bool
  | .enroll id => decide (id < h.m_elements.length) && (h.in_heap id == some false)
  | .pop_root => true
  | .update_up id => h.in_heap id == some true
  | .update_down id => h.in_heap id == some true

/-- The precondition of a call when `pop_root()` is moreover only called on a non-empty heap. -/
def Call.pre_nonempty (h : binary_heap T) (c : Call) : Bool :=
  Call.pre h c && (c != Call.pop_root || decide (0 < h.size))

/-- Running a sequence of calls, the first call of the list first. -/
def run : binary_heap T → List Call → Option (binary_heap T)
  | h, [] => some h
  | h, c :: cs => (c.exec h).bind fun h1 => run h1 cs

/-- Every call of the sequence is made in a state that satisfies its precondition `P`. -/
def valid_calls (P : binary_heap T → Call → Bool) : binary_heap T → List Call → Bool
  | _, [] => true
  | h, c :: cs =>
    P h c && (match c.exec h with
      | some h1 => valid_calls P h1 cs
      | none => true)

/-- The number of `enroll` calls in a sequence. -/
def num_enroll (cs : List Call) : Nat :=
  cs.countP fun c => match c with
    | .enroll _ => true
    | _ => false

/-- The number of `pop_root` calls in a sequence. -/
def num_pop (cs : List Call) : Nat :=
  cs.countP fun c => c == Call.pop_root

/-- Slot position `s` (1-based) holds the id `e`. -/
def slot_holds (h : binary_heap T) (s e : Nat) : Prop :=
  1 ≤ s ∧ s ≤ h.size ∧ h.m_btree.get ⟨s⟩ = some e

/-- The bijection between ids and handles, as the specification states it. -/
structure bijection (h : binary_heap T) : Prop where
  slot_node : ∀ s e, slot_holds h s e → h.node e = some ⟨s⟩
  absent_nil : ∀ e, e < h.m_elements.length → (∀ s, ¬ slot_holds h s e) →
    h.node e = some handle.nil
  slot_unique : ∀ s t e, slot_holds h s e → slot_holds h t e → s = t
  node_slot : ∀ e, h.in_heap e = some true →
    ∃ u, h.node e = some u ∧ h.m_btree.get u = some e

/-- The comparator `std::less` on natural numbers: `a < b`. -/
def less (a b : Nat) : Bool := decide (a < b)

/-- The heap over `[5, 3, 8, 1, 9]` with the ids 3, 1 and 0 in its slots. -/
def example_heap : binary_heap Nat :=
  { m_elements := [5, 3, 8, 1, 9]
    m_btree := ⟨[3, 0, 1]⟩
    m_node_map := [⟨2⟩, ⟨3⟩, ⟨0⟩, ⟨1⟩, ⟨0⟩]
    m_compare := less }

/-- The test of the heapsort property: `n` rounds, each reading the id in the root slot and
`root()` and then calling `pop_root()`; the result lists the ids and values read. -/
def drain : Nat → binary_heap T → Option (List (Nat × T) × binary_heap T)
  | 0, h => some ([], h)
  | n + 1, h =>
    (h.m_btree.root_value).bind fun i =>
    (h.root).bind fun r =>
    (h.pop_root).bind fun h1 =>
    (drain n h1).map fun p => ((i, r) :: p.1, p.2)

/-- The heap `h` bound to the elements `E'` that equal the elements of `h` except that
`E'[id] = v`. -/
def with_value (h : binary_heap T) (id : Nat) (v : T) : binary_heap T :=
  { h with m_elements := h.m_elements.set id v }

/-- The child handles as the specification states them: `left_child(h)` is the handle
`2 * h.id` if that index is at most the size and nil otherwise, `right_child(h)` is the
handle `2 * h.id + 1` if `2 * h.id` is below the size and nil otherwise, and a non-nil child
handle lies in `1..n`. -/
def child_spec {A : Type} (t : consecutive_binary_tree A) (h : handle) : Prop :=
  t.left_child h = (if 2 * h.id ≤ t.size then ⟨2 * h.id⟩ else handle.nil) ∧
  t.right_child h = (if 2 * h.id < t.size then ⟨2 * h.id + 1⟩ else handle.nil) ∧
  ((t.left_child h).non_nil = true →
    1 ≤ (t.left_child h).id ∧ (t.left_child h).id ≤ t.size) ∧
  ((t.right_child h).non_nil = true →
    1 ≤ (t.right_child h).id ∧ (t.right_child h).id ≤ t.size)

/-- The result of `get_children` as the specification states it: the pair of the
single-child queries; nil/nil when `h` is a leaf, `(2h, nil)` when only the left child
exists, `(2h, 2h + 1)` otherwise; and for `h.id >= 1` the right child is not non-nil while
the left child is nil. -/
def children_spec {A : Type} (t : consecutive_binary_tree A) (h : handle) : Prop :=
  t.get_children h = (t.left_child h, t.right_child h) ∧
  (t.size < 2 * h.id → t.get_children h = (handle.nil, handle.nil)) ∧
  (2 * h.id = t.size → t.get_children h = (⟨2 * h.id⟩, handle.nil)) ∧
  (2 * h.id < t.size → t.get_children h = (⟨2 * h.id⟩, ⟨2 * h.id + 1⟩)) ∧
  (1 ≤ h.id → (t.get_children h).2.non_nil = true → (t.get_children h).1.non_nil = true)

/-- A state whose accesses by valid handles are in range, without the bijection: the node
map has one entry per element, the size is at most `2^64`, and every id in a slot has a
non-nil node-map entry. -/
structure Loose (h : binary_heap T) : Prop where
  nm_len : h.m_node_map.length = h.m_elements.length
  size_le : h.size ≤ SIZE_MOD
  slot_nn : ∀ e ∈ h.m_btree.m_nodes, ∃ k, h.m_node_map[e]? = some (handle.mk (k + 1))

/-- The state of `enroll(idx)` after its first statement, `m_btree.push(idx)`. -/
def enroll_appended (h : binary_heap T) (idx : Nat) : binary_heap T :=
  { h with m_btree := h.m_btree.push idx }

/-- The statements of `enroll(idx)` after `m_btree.push(idx)`, on the state `h1` that the
push left: the node-map write and the conditional `bubble_up`. -/
def enroll_attach (h1 : binary_heap T) (idx : Nat) : Option (binary_heap T) :=
  let last_node := h1.m_btree.back
  (vec_set h1.m_node_map idx last_node).bind fun nm =>
  let h2 : binary_heap T := { h1 with m_node_map := nm }
  if h1.m_btree.size > 1 then
    (h2.m_elements[idx]?).bind fun e => h2.bubble_up last_node e
  else some h2

/-- The loop of `bubble_up(u, e)` with a counter of the calls of `swap`. -/
def bubble_up_count (e : T) : Nat → binary_heap T → handle → Option (binary_heap T × Nat)
  | 0, _, _ => none
  | fuel + 1, h, u =>
    if h.m_btree.is_non_root u then
      let p := h.m_btree.parent u
      (h.get_by_node p).bind fun pe =>
      if h.compare e pe then
        (h.swap u p).bind fun r =>
          (bubble_up_count e fuel r.1 r.2).map fun q => (q.1, q.2 + 1)
      else some (h, 0)
    else some (h, 0)

/-- The loop of `bubble_down(u, e)` with a counter of the calls of `swap`. -/
def bubble_down_count (e : T) (last_nl : handle) :
    Nat → binary_heap T → handle → Option (binary_heap T × Nat)
  | 0, _, _ => none
  | fuel + 1, h, u =>
    if u.id ≤ last_nl.id then
      let c := h.m_btree.get_children u
      if c.2.non_nil then
        (h.get_by_node c.1).bind fun le =>
        (h.get_by_node c.2).bind fun re =>
        if h.compare le re then
          if h.compare le e then
            (h.swap u c.1).bind fun r =>
              (bubble_down_count e last_nl fuel r.1 r.2).map fun q => (q.1, q.2 + 1)
          else some (h, 0)
        else
          if h.compare re e then
            (h.swap u c.2).bind fun r =>
              (bubble_down_count e last_nl fuel r.1 r.2).map fun q => (q.1, q.2 + 1)
          else some (h, 0)
      else if c.1.non_nil then
        (h.get_by_node c.1).bind fun le =>
        if h.compare le e then
          (h.swap u c.1).bind fun r =>
            (bubble_down_count e last_nl fuel r.1 r.2).map fun q => (q.1, q.2 + 1)
        else some (h, 0)
      else some (h, 0)
    else some (h, 0)

/-- The call `bubble_up(u, e)` with its number of swaps. -/
def bubble_up_swaps (h : binary_heap T) (u : handle) (e : T) :
    Option (binary_heap T × Nat) :=
  bubble_up_count e (h.size + 1) h u

/-- The call `bubble_down(u, e)` with its number of swaps. -/
def bubble_down_swaps (h : binary_heap T) (u : handle) (e : T) :
    Option (binary_heap T × Nat) :=
  bubble_down_count e h.m_btree.last_parent (h.size + 1) h u

/-- The call `update_up(idx)` with its number of swaps. -/
def update_up_swaps (h : binary_heap T) (idx : Nat) : Option (binary_heap T × Nat) :=
  (h.m_node_map[idx]?).bind fun u =>
  (h.m_elements[idx]?).bind fun e =>
  h.bubble_up_swaps u e

/-- The call `update_down(idx)` with its number of swaps. -/
def update_down_swaps (h : binary_heap T) (idx : Nat) : Option (binary_heap T × Nat) :=
  (h.m_node_map[idx]?).bind fun u =>
  (h.m_elements[idx]?).bind fun e =>
  h.bubble_down_swaps u e

/-- The call `enroll(idx)` with its number of swaps. -/
def enroll_swaps (h : binary_heap T) (idx : Nat) : Option (binary_heap T × Nat) :=
  let t := h.m_btree.push idx
  let last_node := t.back
  (vec_set h.m_node_map idx last_node).bind fun nm =>
  let h1 : binary_heap T := { h with m_btree := t, m_node_map := nm }
  if t.size > 1 then
    (h1.m_elements[idx]?).bind fun e => h1.bubble_up_swaps last_node e
  else some (h1, 0)

/-- The call `pop_root()` with its number of swaps. -/
def pop_root_swaps (h : binary_heap T) : Option (binary_heap T × Nat) :=
  let n := h.m_btree.size
  if n > 0 then
    (h.m_btree.root_value).bind fun r =>
    (vec_set h.m_node_map r handle.nil).bind fun nm =>
    if n > 1 then
      (h.m_btree.back_value).bind fun i =>
      (h.m_btree.set_root_value i).bind fun t1 =>
      (vec_set nm i t1.root).bind fun nm2 =>
      (t1.pop).bind fun t2 =>
      let h2 : binary_heap T := { h with m_btree := t2, m_node_map := nm2 }
      (h2.m_elements[i]?).bind fun e =>
      h2.bubble_down_swaps t2.root e
    else
      (h.m_btree.pop).bind fun t2 =>
      some ({ h with m_btree := t2, m_node_map := nm }, 0)
  else some (h, 0)

/-- The loop of `do_make_heap()` with the number of swaps of each `bubble_down` pass, the
pass of the first handle first. -/
def do_make_heap_loop_count : Nat → binary_heap T → Option (binary_heap T × List Nat)
  | 0, h => some (h, [])
  | id + 1, h =>
    (h.get_by_node ⟨id + 1⟩).bind fun e =>
    (h.bubble_down_swaps ⟨id + 1⟩ e).bind fun r =>
    (do_make_heap_loop_count id r.1).map fun q => (q.1, r.2 :: q.2)

/-- The call `do_make_heap()` with the number of swaps of each of its passes. -/
def do_make_heap_swaps (h : binary_heap T) : Option (binary_heap T × List Nat) :=
  if h.m_btree.size > 1 then
    do_make_heap_loop_count h.m_btree.last_parent.id h
  else some (h, [])

/-- The call `make_heap(n)` with the number of swaps of each pass of `do_make_heap()`. -/
def make_heap_swaps (h : binary_heap T) (n : Nat) : Option (binary_heap T × List Nat) :=
  ((List.range n).foldlM push_node h).bind do_make_heap_swaps

/-- The product order on pairs of natural numbers: the first pair is strictly better when
both of its components are smaller.  A strict partial order that is not a strict weak
ordering. -/
def pair_less (a b : Nat × Nat) : Bool := decide (a.1 < b.1 ∧ a.2 < b.2)

/-- Three elements for `pair_less`: the second is strictly better than the first, and the
third is incomparable with both. -/
def pair_elements : List (Nat × Nat) := [(1, 1), (0, 0), (0, 2)]

/-- The forward half of "parent inverts the child maps" as the specification states it:
every non-nil handle `c` returned by `left_child(h)`, `right_child(h)` or `get_children(h)`
has `parent(c) == h` and `is_non_root(c)`. -/
def parent_inverts {A : Type} (t : consecutive_binary_tree A) (h : handle) : Prop :=
  ∀ c : handle, (c = t.left_child h ∨ c = t.right_child h ∨ c = (t.get_children h).1 ∨
      c = (t.get_children h).2) →
    c.non_nil = true → t.parent c = h ∧ t.is_non_root c = true

/-- The converse half as the specification states it: `parent(c)` is a valid handle in
`1..last_parent()` and `c` is one of its two children. -/
def child_of_parent {A : Type} (t : consecutive_binary_tree A) (c : handle) : Prop :=
  1 ≤ (t.parent c).id ∧ (t.parent c).id ≤ t.last_parent.id ∧
  (t.left_child (t.parent c) = c ∨ t.right_child (t.parent c) = c) ∧
  (c = (t.get_children (t.parent c)).1 ∨ c = (t.get_children (t.parent c)).2)

/-! ## Theorems -/

/-- In a well-formed heap the slot at position `i + 1` holds `e` exactly when the node map
sends `e` to the handle `i + 1`. -/
theorem WF.bij {h : binary_heap T} (w : WF h) (i e : Nat) :
    h.m_btree.m_nodes[i]? = some e ↔ h.m_node_map[e]? = some (handle.mk (i + 1)) := by
  constructor
  · exact w.slot_node i e
  · intro hx
    have he : e < h.m_elements.length := by
      rw [← w.nm_len]; exact (List.getElem?_eq_some.1 hx).1
    by_cases hm : e ∈ h.m_btree.m_nodes
    · obtain ⟨j, hj⟩ := List.mem_iff_getElem?.1 hm
      have := w.slot_node j e hj
      rw [hx] at this
      have hij : i = j := by simpa using this
      rw [hij]
      exact hj
    · have := w.absent e he hm
      rw [hx] at this
      simp [handle.nil] at this

theorem WF.of_bij {h : binary_heap T} (h1 : h.m_node_map.length = h.m_elements.length)
    (h2 : h.m_elements.length < SIZE_MOD)
    (h3 : ∀ i e, h.m_btree.m_nodes[i]? = some e ↔
      h.m_node_map[e]? = some (handle.mk (i + 1))) : WF h := by
  refine ⟨h1, h2, fun i e => (h3 i e).1, ?_⟩
  intro e he hn
  rw [← h1] at he
  rw [List.getElem?_eq_getElem he]
  rcases hx : h.m_node_map[e] with ⟨k⟩
  cases k with
  | zero => rfl
  | succ k =>
    exfalso
    apply hn
    rw [List.mem_iff_getElem?]
    refine ⟨k, (h3 k e).2 ?_⟩
    rw [List.getElem?_eq_getElem he, hx]

theorem index_eq {s : Nat} (h1 : 1 ≤ s) (h2 : s < SIZE_MOD) :
    handle.index ⟨s⟩ = s - 1 := by
  simp only [handle.index, SIZE_MOD] at *
  omega

theorem WF.slot_lt {h : binary_heap T} (w : WF h) {i e : Nat}
    (hs : h.m_btree.m_nodes[i]? = some e) : e < h.m_elements.length := by
  have := (w.bij i e).1 hs
  rw [← w.nm_len]
  exact (List.getElem?_eq_some.1 this).1

theorem WF.nodup {h : binary_heap T} (w : WF h) : h.m_btree.m_nodes.Nodup := by
  rw [List.nodup_iff_getElem?_ne_getElem?]
  intro i j hij hj heq
  have hj' : h.m_btree.m_nodes[j]? = some (h.m_btree.m_nodes[j]) := List.getElem?_eq_getElem hj
  have h1 := (w.bij j _).1 hj'
  have h2 := (w.bij i _).1 (heq.trans hj')
  rw [h1] at h2
  simp at h2
  omega

theorem WF.size_le {h : binary_heap T} (w : WF h) : h.size ≤ h.m_elements.length := by
  have hsub : h.m_btree.m_nodes ⊆ List.range h.m_elements.length := by
    intro e he
    obtain ⟨i, hi⟩ := List.mem_iff_getElem?.1 he
    exact List.mem_range.2 (w.slot_lt hi)
  have := (List.subperm_of_subset w.nodup hsub).length_le
  simpa [size, consecutive_binary_tree.size] using this

theorem WF.size_lt {h : binary_heap T} (w : WF h) : h.size < SIZE_MOD :=
  lt_of_le_of_lt w.size_le w.rep

/-- The slot read at position `s` (1-based), when `s` is a valid `size_type` handle. -/
theorem tree_get_eq (t : consecutive_binary_tree Nat) {s : Nat} (h1 : 1 ≤ s)
    (h2 : s < SIZE_MOD) : t.get ⟨s⟩ = t.m_nodes[s - 1]? := by
  simp [consecutive_binary_tree.get, index_eq h1 h2]

theorem tree_set_eq (t : consecutive_binary_tree Nat) {s : Nat} (x : Nat) (h1 : 1 ≤ s)
    (h2 : s ≤ t.size) (h3 : s < SIZE_MOD) : t.set ⟨s⟩ x = some ⟨t.m_nodes.set (s - 1) x⟩ := by
  have : s - 1 < t.m_nodes.length := by
    simp only [consecutive_binary_tree.size] at h2; omega
  simp [consecutive_binary_tree.set, index_eq h1 h3, vec_set, this]

theorem swap_eq {h : binary_heap T} (w : WF h) {u v ui vi : Nat} (hu : 1 ≤ u) (hv : 1 ≤ v)
    (hui : h.m_btree.m_nodes[u - 1]? = some ui) (hvi : h.m_btree.m_nodes[v - 1]? = some vi) :
    h.swap ⟨u⟩ ⟨v⟩ = some (swapped h u v ui vi, ⟨v⟩) := by
  have hlt := w.size_lt
  simp only [size, consecutive_binary_tree.size] at hlt
  have hul := (List.getElem?_eq_some.1 hui).1
  have hvl := (List.getElem?_eq_some.1 hvi).1
  have h1 := w.slot_lt hui
  have h2 := w.slot_lt hvi
  rw [← w.nm_len] at h1 h2
  have e1 : h.m_btree.get ⟨u⟩ = some ui := by rw [tree_get_eq _ hu (by omega)]; exact hui
  have e2 : h.m_btree.get ⟨v⟩ = some vi := by rw [tree_get_eq _ hv (by omega)]; exact hvi
  have e3 : h.m_btree.set ⟨u⟩ vi = some ⟨h.m_btree.m_nodes.set (u - 1) vi⟩ :=
    tree_set_eq _ _ hu (by simp only [consecutive_binary_tree.size]; omega) (by omega)
  have e4 : (consecutive_binary_tree.mk (h.m_btree.m_nodes.set (u - 1) vi)).set ⟨v⟩ ui
      = some ⟨(h.m_btree.m_nodes.set (u - 1) vi).set (v - 1) ui⟩ :=
    tree_set_eq _ _ hv (by simp only [consecutive_binary_tree.size, List.length_set]; omega)
      (by omega)
  simp [swap, e1, e2, e3, e4, vec_set, h1, h2, swapped]

theorem swapped_wf {h : binary_heap T} (w : WF h) {u v ui vi : Nat} (hu : 1 ≤ u) (hv : 1 ≤ v)
    (huv : u ≠ v)
    (hui : h.m_btree.m_nodes[u - 1]? = some ui) (hvi : h.m_btree.m_nodes[v - 1]? = some vi) :
    WF (swapped h u v ui vi) := by
  have hul := (List.getElem?_eq_some.1 hui).1
  have hvl := (List.getElem?_eq_some.1 hvi).1
  have h1 := w.slot_lt hui
  have h2 := w.slot_lt hvi
  rw [← w.nm_len] at h1 h2
  have n1 := (w.bij _ _).1 hui
  have n2 := (w.bij _ _).1 hvi
  have hne : ui ≠ vi := by
    intro he
    rw [he, n2] at n1
    simp at n1
    omega
  refine WF.of_bij (by simp [swapped, w.nm_len]) w.rep ?_
  intro i e
  have hb := w.bij i e
  have hbu := w.bij (u - 1) e
  have hbv := w.bij (v - 1) e
  have hiu := w.bij i ui
  have hiv := w.bij i vi
  have hu' : u - 1 + 1 = u := by omega
  have hv' : v - 1 + 1 = v := by omega
  rw [hu'] at hbu n1
  rw [hv'] at hbv n2
  simp only [swapped, List.getElem?_set, List.length_set]
  by_cases c1 : v - 1 = i <;> by_cases c2 : u - 1 = i <;> by_cases c3 : vi = e <;>
    by_cases c4 : ui = e <;> simp_all <;> omega

theorem key_eq {h : binary_heap T} {s : Nat} (h1 : 1 ≤ s) (h2 : s < SIZE_MOD) :
    key h s = (h.m_btree.m_nodes[s - 1]?).bind fun i => h.m_elements[i]? := by
  simp [key, get_by_node, tree_get_eq _ h1 h2]

theorem WF.key_some {h : binary_heap T} (w : WF h) {s : Nat} (h1 : 1 ≤ s) (h2 : s ≤ h.size) :
    ∃ x, key h s = some x := by
  have hlt := w.size_lt
  rw [key_eq h1 (by omega)]
  simp only [size, consecutive_binary_tree.size] at h2
  have hs : h.m_btree.m_nodes[s - 1]? = some (h.m_btree.m_nodes[s - 1]) :=
    List.getElem?_eq_getElem (by omega)
  have := w.slot_lt hs
  exact ⟨h.m_elements[h.m_btree.m_nodes[s - 1]], by simp [hs, List.getElem?_eq_getElem this]⟩

theorem swapped_size (h : binary_heap T) (u v ui vi : Nat) :
    (swapped h u v ui vi).size = h.size := by
  simp [swapped, size, consecutive_binary_tree.size]

theorem swapped_slot {h : binary_heap T} {u v ui vi : Nat}
    (hui : h.m_btree.m_nodes[u - 1]? = some ui) (hvi : h.m_btree.m_nodes[v - 1]? = some vi)
    (i : Nat) :
    (swapped h u v ui vi).m_btree.m_nodes[i]? =
      if v - 1 = i then some ui else if u - 1 = i then some vi else h.m_btree.m_nodes[i]? := by
  have hul := (List.getElem?_eq_some.1 hui).1
  have hvl := (List.getElem?_eq_some.1 hvi).1
  simp only [swapped, List.getElem?_set, List.length_set]
  by_cases c1 : v - 1 = i <;> by_cases c2 : u - 1 = i <;> simp_all

theorem swapped_key {h : binary_heap T} (w : WF h) {u v ui vi : Nat} (hu : 1 ≤ u) (hv : 1 ≤ v)
    (hui : h.m_btree.m_nodes[u - 1]? = some ui) (hvi : h.m_btree.m_nodes[v - 1]? = some vi)
    {s : Nat} (h1 : 1 ≤ s) (h2 : s ≤ h.size) :
    key (swapped h u v ui vi) s =
      if s = v then key h u else if s = u then key h v else key h s := by
  have hlt := w.size_lt
  have hul := (List.getElem?_eq_some.1 hui).1
  have hvl := (List.getElem?_eq_some.1 hvi).1
  simp only [size, consecutive_binary_tree.size] at hlt h2
  rw [key_eq h1 (by omega), key_eq hu (by omega), key_eq hv (by omega), key_eq h1 (by omega),
    swapped_slot hui hvi]
  have e1 : (v - 1 = s - 1) ↔ s = v := by omega
  have e2 : (u - 1 = s - 1) ↔ s = u := by omega
  simp only [e1, e2]
  split_ifs <;> simp_all [swapped]

theorem swapped_perm {h : binary_heap T} {u v ui vi : Nat}
    (hui : h.m_btree.m_nodes[u - 1]? = some ui) (hvi : h.m_btree.m_nodes[v - 1]? = some vi) :
    (swapped h u v ui vi).m_btree.m_nodes.Perm h.m_btree.m_nodes := by
  have hul := (List.getElem?_eq_some.1 hui).1
  have hvl := (List.getElem?_eq_some.1 hvi).1
  have a1 := (List.getElem?_eq_some.1 hui).2
  have a2 := (List.getElem?_eq_some.1 hvi).2
  rw [List.perm_iff_count]
  intro a
  have hpos : ui = a → 0 < List.count a h.m_btree.m_nodes := by
    intro e
    rw [List.count_pos_iff, ← e, List.mem_iff_getElem?]
    exact ⟨_, hui⟩
  by_cases c : u - 1 = v - 1
  · have : ui = vi := by rw [c] at hui; rw [hui] at hvi; simpa using hvi
    subst this
    simp [swapped, c, List.count_set, hvl, a2]
    split_ifs with c1
    · have := hpos c1; omega
    · omega
  · simp only [swapped]
    rw [List.count_set _ _ _ _ (by simpa using hvl), List.count_set _ _ _ _ hul,
      List.getElem_set_ne c, a1, a2]
    simp only [beq_iff_eq]
    split_ifs with c1 c2 c2
    · have := hpos c1; omega
    · have := hpos c1; omega
    · omega
    · omega

theorem StrictWeakOrder.asymm {cmp : T → T → Bool} (o : StrictWeakOrder cmp) {a b : T}
    (hab : cmp a b = true) : cmp b a = false := by
  cases hba : cmp b a
  · rfl
  · have := o.trans a b a hab hba
    rw [o.irrefl] at this
    exact absurd this (by simp)

theorem StrictWeakOrder.neg_trans {cmp : T → T → Bool} (o : StrictWeakOrder cmp) {a b c : T}
    (hab : cmp a b = false) (hbc : cmp b c = false) : cmp a c = false := by
  cases hac : cmp a c
  · rfl
  · exfalso
    have hba : cmp b a = false := by
      cases hba : cmp b a
      · rfl
      · have := o.trans b a c hba hac
        rw [hbc] at this
        exact absurd this (by simp)
    have hcb : cmp c b = false := by
      cases hcb : cmp c b
      · rfl
      · have := o.trans a c b hac hcb
        rw [hab] at this
        exact absurd this (by simp)
    have := (o.incomp_trans a b c hab hba hbc hcb).1
    rw [hac] at this
    exact absurd this (by simp)

theorem NLt.chain {cmp : T → T → Bool} (o : StrictWeakOrder cmp) {a b c : Option T} {y : T}
    (hb : b = some y) (h1 : NLt cmp a b) (h2 : NLt cmp b c) : NLt cmp a c := by
  intro x z hx hz
  exact o.neg_trans (h1 x y hx hb) (h2 y z hb hz)

theorem NLt.of_lt {cmp : T → T → Bool} (o : StrictWeakOrder cmp) {x y : T}
    (h : cmp x y = true) : NLt cmp (some y) (some x) := by
  intro a b ha hb
  cases ha; cases hb
  exact o.asymm h

theorem NLt.of_not {cmp : T → T → Bool} {x y : T}
    (h : cmp x y = false) : NLt cmp (some x) (some y) := by
  intro a b ha hb
  cases ha; cases hb
  exact h

/-- From `a` not better than `b` and `e` better than `b`: `a` is not better than `e`. -/
theorem NLt.below {cmp : T → T → Bool} (o : StrictWeakOrder cmp) {a : Option T} {e y : T}
    (h1 : NLt cmp a (some y)) (h2 : cmp e y = true) : NLt cmp a (some e) := by
  intro x z hx hz
  have hz' : e = z := Option.some.inj hz
  subst hz'
  cases hxe : cmp x e
  · rfl
  · have := o.trans x e y hxe h2
    rw [h1 x y hx rfl] at this
    exact absurd this (by simp)

theorem Same.refl (h : binary_heap T) : Same h h := ⟨rfl, rfl, List.Perm.refl _⟩

theorem Same.trans {a b c : binary_heap T} (h1 : Same a b) (h2 : Same b c) : Same a c :=
  ⟨h2.elements.trans h1.elements, h2.compare.trans h1.compare, h2.perm.trans h1.perm⟩

theorem Same.size {a b : binary_heap T} (h1 : Same a b) : b.size = a.size := by
  simpa [size, consecutive_binary_tree.size] using h1.perm.length_eq

theorem swapped_same {h : binary_heap T} {u v ui vi : Nat}
    (hui : h.m_btree.m_nodes[u - 1]? = some ui) (hvi : h.m_btree.m_nodes[v - 1]? = some vi) :
    Same h (swapped h u v ui vi) :=
  ⟨rfl, rfl, swapped_perm hui hvi⟩

theorem slot_of_le {h : binary_heap T} {s : Nat} (h1 : 1 ≤ s) (h2 : s ≤ h.size) :
    ∃ e, h.m_btree.m_nodes[s - 1]? = some e := by
  have hlt : s - 1 < h.m_btree.m_nodes.length := by
    simp only [size, consecutive_binary_tree.size] at h2; omega
  exact ⟨_, List.getElem?_eq_getElem hlt⟩

theorem upinv_step {h : binary_heap T} (w : WF h) (o : StrictWeakOrder h.m_compare)
    {u ui pi : Nat} {e pe : T} (hu : 2 ≤ u) (hus : u ≤ h.size)
    (hui : h.m_btree.m_nodes[u - 1]? = some ui) (hpi : h.m_btree.m_nodes[u / 2 - 1]? = some pi)
    (he : key h u = some e) (hpe : key h (u / 2) = some pe) (hc : h.m_compare e pe = true)
    (inv : UpInv h u) : UpInv (swapped h u (u / 2) ui pi) (u / 2) := by
  have K : ∀ s, 1 ≤ s → s ≤ h.size → key (swapped h u (u / 2) ui pi) s =
      if s = u / 2 then key h u else if s = u then key h (u / 2) else key h s :=
    fun s h1 h2 => swapped_key w (by omega) (by omega) hui hpi h1 h2
  obtain ⟨i1, i2⟩ := inv
  constructor
  · intro s hs2 hss hsp
    rw [swapped_size] at hss
    show NLt h.m_compare _ _
    rw [K s (by omega) hss, K (s / 2) (by omega) (by omega), if_neg hsp]
    by_cases c1 : s = u
    · subst c1
      simp only [if_true, he, hpe]
      exact NLt.of_lt o hc
    · rw [if_neg c1]
      by_cases c2 : s / 2 = u / 2
      · rw [if_pos c2, he]
        have := i1 s hs2 hss c1
        rw [c2, hpe] at this
        exact NLt.below o this hc
      · rw [if_neg c2]
        by_cases c3 : s / 2 = u
        · rw [if_pos c3, hpe]
          have := i2 s hu hss c3
          rw [hpe] at this
          exact this
        · rw [if_neg c3]
          exact i1 s hs2 hss c1
  · intro c hp2 hcs hcp
    rw [swapped_size] at hcs
    show NLt h.m_compare _ _
    rw [K c (by omega) hcs, K (u / 2 / 2) (by omega) (by omega),
      if_neg (show ¬ c = u / 2 by omega), if_neg (show ¬ u / 2 / 2 = u / 2 by omega),
      if_neg (show ¬ u / 2 / 2 = u by omega)]
    have hp := i1 (u / 2) hp2 (by omega) (by omega)
    by_cases c1 : c = u
    · rw [if_pos c1]
      exact hp
    · rw [if_neg c1]
      have := i1 c (by omega) hcs c1
      rw [hcp] at this
      exact NLt.chain o hpe this hp

theorem bubble_up_loop_spec (e : T) : ∀ (fuel : Nat) (h : binary_heap T) (u : Nat),
    WF h → u < fuel → u ≤ h.size →
    ∃ h', bubble_up_loop e fuel h ⟨u⟩ = some h' ∧ WF h' ∧ Same h h' ∧
      (StrictWeakOrder h.m_compare → key h u = some e → UpInv h u → OrdAll h') := by
  intro fuel
  induction fuel with
  | zero => intro h u _ hf; omega
  | succ fuel ih =>
    intro h u w hf hus
    rw [bubble_up_loop]
    by_cases hu : 2 ≤ u
    · have hnr : h.m_btree.is_non_root ⟨u⟩ = true := by
        simp only [consecutive_binary_tree.is_non_root, decide_eq_true_eq]; omega
      obtain ⟨pe, hpe⟩ := w.key_some (s := u / 2) (by omega) (by omega)
      have hpe' : h.get_by_node (h.m_btree.parent ⟨u⟩) = some pe := hpe
      simp only [hnr, if_true, hpe', Option.some_bind]
      cases hc : h.compare e pe
      · refine ⟨h, by simp, w, Same.refl h, ?_⟩
        intro _ he inv s hs2 hss
        by_cases c1 : s = u
        · subst c1
          rw [he, hpe]
          exact NLt.of_not hc
        · exact inv.1 s hs2 hss c1
      · obtain ⟨ui, hui⟩ := slot_of_le (h := h) (s := u) (by omega) hus
        obtain ⟨pi, hpi⟩ := slot_of_le (h := h) (s := u / 2) (by omega) (by omega)
        have hsw := swap_eq w (by omega) (by omega) hui hpi
        have hsw' : h.swap ⟨u⟩ (h.m_btree.parent ⟨u⟩) = _ := hsw
        simp only [if_true, hsw', Option.some_bind]
        obtain ⟨h', e1, w', s', o'⟩ := ih (swapped h u (u / 2) _ _) (u / 2)
          (swapped_wf w (by omega) (by omega) (by omega) hui hpi) (by omega)
          (by rw [swapped_size]; omega)
        refine ⟨h', e1, w', (swapped_same hui hpi).trans s', ?_⟩
        intro o he inv
        refine o' o ?_ (upinv_step w o hu hus hui hpi he hpe hc inv)
        rw [swapped_key w (by omega) (by omega) hui hpi (by omega) (by omega), if_pos rfl, he]
    · have hnr : h.m_btree.is_non_root ⟨u⟩ = false := by
        simp only [consecutive_binary_tree.is_non_root, decide_eq_false_iff_not]; omega
      simp only [hnr]
      refine ⟨h, by simp, w, Same.refl h, ?_⟩
      intro _ _ inv s hs2 hss
      exact inv.1 s hs2 hss (by omega)

theorem get_children_eq (t : consecutive_binary_tree Nat) {u : Nat} (hu : u ≤ t.size / 2)
    (hs : t.size < SIZE_MOD) :
    t.get_children ⟨u⟩ =
      if 2 * u = t.size then (⟨2 * u⟩, ⟨0⟩) else (⟨2 * u⟩, ⟨2 * u + 1⟩) := by
  have e1 : u * 2 % SIZE_MOD = 2 * u := by
    simp only [SIZE_MOD] at *; omega
  have e2 : (2 * u + 1) % SIZE_MOD = 2 * u + 1 ∨ 2 * u = t.size := by
    simp only [SIZE_MOD] at *; omega
  simp only [consecutive_binary_tree.get_children, e1]
  have e3 : ¬ 2 * u > t.size := by omega
  rw [if_neg e3]
  split_ifs with c
  · rfl
  · rcases e2 with e2 | e2
    · rw [e2]
    · exact absurd e2 c

theorem downinv_step {h : binary_heap T} (w : WF h) (o : StrictWeakOrder h.m_compare)
    {u c k ui ci : Nat} {e ce : T} (hu : 1 ≤ u) (hcu : c / 2 = u) (hcs : c ≤ h.size)
    (hui : h.m_btree.m_nodes[u - 1]? = some ui) (hci : h.m_btree.m_nodes[c - 1]? = some ci)
    (he : key h u = some e) (hce : key h c = some ce) (hc : h.m_compare ce e = true)
    (hsib : ∀ d, d ≤ h.size → d / 2 = u → d ≠ c → NLt h.m_compare (key h d) (key h c))
    (inv : DownInv h u k) : DownInv (swapped h u c ui ci) c k := by
  have K : ∀ s, 1 ≤ s → s ≤ h.size → key (swapped h u c ui ci) s =
      if s = c then key h u else if s = u then key h c else key h s :=
    fun s h1 h2 => swapped_key w (by omega) (by omega) hui hci h1 h2
  obtain ⟨i0, i1, i2⟩ := inv
  refine ⟨by omega, ?_, ?_⟩
  · intro s hs2 hss hks hsc
    rw [swapped_size] at hss
    show NLt h.m_compare _ _
    rw [K s (by omega) hss, K (s / 2) (by omega) (by omega), if_neg hsc]
    by_cases c1 : s = c
    · subst c1
      rw [if_pos rfl, if_pos hcu, he, hce]
      exact NLt.of_lt o hc
    · rw [if_neg c1]
      by_cases c2 : s = u
      · subst c2
        rw [if_pos rfl, if_neg (show ¬ s / 2 = s by omega)]
        exact i2 c (by omega) hks hcs hcu
      · rw [if_neg c2]
        by_cases c3 : s / 2 = u
        · rw [if_pos c3]
          exact hsib s hss c3 c1
        · rw [if_neg c3]
          exact i1 s hs2 hss hks c3
  · intro g hc2 hkc hgs hgc
    rw [swapped_size] at hgs
    show NLt h.m_compare _ _
    rw [K g (by omega) hgs, K (c / 2) (by omega) (by omega),
      if_neg (show ¬ g = c by omega), if_neg (show ¬ g = u by omega),
      if_neg (show ¬ c / 2 = c by omega), if_pos hcu]
    have := i1 g (by omega) hgs (by omega) (by omega)
    rw [hgc] at this
    exact this

theorem downinv_stop {h : binary_heap T} {u k : Nat} {e : T}
    (he : key h u = some e)
    (hch : ∀ d, d ≤ h.size → d / 2 = u → NLt h.m_compare (key h d) (some e))
    (inv : DownInv h u k) : OrdFrom h k := by
  intro s hs2 hss hks
  by_cases c : s / 2 = u
  · rw [c, he]
    exact hch s hss c
  · exact inv.2.1 s hs2 hss hks c

theorem bubble_down_loop_spec (e : T) : ∀ (fuel : Nat) (h : binary_heap T) (u l : Nat),
    WF h → 1 ≤ u → u ≤ h.size → h.size < fuel + u → l = h.size / 2 →
    ∃ h', bubble_down_loop e ⟨l⟩ fuel h ⟨u⟩ = some h' ∧ WF h' ∧ Same h h' ∧
      ∀ k, StrictWeakOrder h.m_compare → key h u = some e → DownInv h u k → OrdFrom h' k := by
  intro fuel
  induction fuel with
  | zero => intro h u l _ _ _ hf; omega
  | succ fuel ih =>
    intro h u l w hu hus hf hl
    subst hl
    have hsz := w.size_lt
    obtain ⟨ui, hui⟩ := slot_of_le (h := h) (s := u) hu hus
    -- a swap with the child `c`, followed by the rest of the loop
    have step : ∀ c ce, c / 2 = u → c ≤ h.size → key h c = some ce →
        h.m_compare ce e = true →
        (StrictWeakOrder h.m_compare →
          ∀ d, d ≤ h.size → d / 2 = u → d ≠ c → NLt h.m_compare (key h d) (key h c)) →
        ∃ h', ((h.swap ⟨u⟩ ⟨c⟩).bind fun r => bubble_down_loop e ⟨h.size / 2⟩ fuel r.1 r.2) = some h' ∧
          WF h' ∧ Same h h' ∧
          ∀ k, StrictWeakOrder h.m_compare → key h u = some e → DownInv h u k →
            OrdFrom h' k := by
      intro c ce hcu hcs hce hc hsib
      obtain ⟨ci, hci⟩ := slot_of_le (h := h) (s := c) (by omega) hcs
      rw [swap_eq w hu (by omega) hui hci, Option.some_bind]
      obtain ⟨h', e1, w', s', o'⟩ := ih (swapped h u c _ _) c (h.size / 2)
        (swapped_wf w hu (by omega) (by omega) hui hci) (by omega)
        (by rw [swapped_size]; exact hcs) (by rw [swapped_size]; omega)
        (by rw [swapped_size])
      refine ⟨h', e1, w', (swapped_same hui hci).trans s', ?_⟩
      intro k o he inv
      refine o' k o ?_ (downinv_step w o hu hcu hcs hui hci he hce hc (hsib o) inv)
      rw [swapped_key w hu (by omega) hui hci (by omega) hcs, if_pos rfl, he]
    -- the loop stops at `u`
    have stop : (StrictWeakOrder h.m_compare →
          ∀ d, d ≤ h.size → d / 2 = u → NLt h.m_compare (key h d) (some e)) →
        ∃ h', some h = some h' ∧ WF h' ∧ Same h h' ∧
          ∀ k, StrictWeakOrder h.m_compare → key h u = some e → DownInv h u k →
            OrdFrom h' k := by
      intro hch
      exact ⟨h, rfl, w, Same.refl h, fun k o he inv => downinv_stop he (hch o) inv⟩
    rw [bubble_down_loop]
    by_cases hle : u ≤ h.size / 2
    · rw [if_pos hle, get_children_eq _ hle hsz]
      obtain ⟨le, hle'⟩ := w.key_some (s := 2 * u) (by omega) (by omega)
      have hle2 : h.get_by_node ⟨2 * u⟩ = some le := hle'
      by_cases h2 : 2 * u = h.m_btree.size
      · have h2' : 2 * u = h.size := h2
        simp only [if_pos h2, handle.non_nil, hle2, Option.some_bind]
        have n1 : ¬ (0 : Nat) > 0 := by omega
        have n2 : 2 * u > 0 := by omega
        simp only [n1, n2, decide_False, decide_True, if_true, if_false, Bool.false_eq_true]
        cases hc : h.compare le e
        · simp only [Bool.false_eq_true, if_false]
          apply stop
          intro _ d hd hdu
          have : d = 2 * u := by omega
          subst this
          rw [hle']
          exact NLt.of_not hc
        · simp only [if_true]
          apply step (2 * u) le (by omega) (by omega) hle' hc
          intro _ d hd hdu hne
          omega
      · obtain ⟨re, hre'⟩ := w.key_some (s := 2 * u + 1) (by omega)
          (by have : 2 * u ≠ h.size := h2; omega)
        have hre2 : h.get_by_node ⟨2 * u + 1⟩ = some re := hre'
        have h2' : 2 * u ≠ h.size := h2
        simp only [if_neg h2, handle.non_nil, hle2, hre2, Option.some_bind]
        have n2 : 2 * u + 1 > 0 := by omega
        simp only [n2, decide_True, if_true]
        cases hlr : h.compare le re
        · simp only [Bool.false_eq_true, if_false]
          cases hc : h.compare re e
          · simp only [Bool.false_eq_true, if_false]
            apply stop
            intro o d hd hdu
            have : d = 2 * u ∨ d = 2 * u + 1 := by omega
            rcases this with rfl | rfl
            · rw [hle']
              exact NLt.of_not (o.neg_trans hlr hc)
            · rw [hre']
              exact NLt.of_not hc
          · simp only [if_true]
            apply step (2 * u + 1) re (by omega) (by omega) hre' hc
            intro _ d hd hdu hne
            have : d = 2 * u := by omega
            subst this
            rw [hle', hre']
            exact NLt.of_not hlr
        · simp only [if_true]
          cases hc : h.compare le e
          · simp only [Bool.false_eq_true, if_false]
            apply stop
            intro o d hd hdu
            have : d = 2 * u ∨ d = 2 * u + 1 := by omega
            rcases this with rfl | rfl
            · rw [hle']
              exact NLt.of_not hc
            · rw [hre']
              apply NLt.of_not
              cases hre : h.m_compare re e
              · rfl
              · have := o.trans le re e hlr hre
                have hc' : h.m_compare le e = false := hc
                rw [hc'] at this
                exact absurd this (by simp)
          · simp only [if_true]
            apply step (2 * u) le (by omega) (by omega) hle' hc
            intro o d hd hdu hne
            have : d = 2 * u + 1 := by omega
            subst this
            rw [hle', hre']
            exact NLt.of_lt o hlr
    · rw [if_neg hle]
      apply stop
      intro _ d hd hdu
      omega

theorem WF.absent_nil {h : binary_heap T} (w : WF h) {e : Nat} (he : e < h.m_elements.length)
    (hn : e ∉ h.m_btree.m_nodes) : h.m_node_map[e]? = some handle.nil :=
  w.absent e he hn

theorem WF.mem_iff {h : binary_heap T} (w : WF h) {e : Nat} :
    e ∈ h.m_btree.m_nodes ↔ h.in_heap e = some true := by
  constructor
  · intro he
    obtain ⟨i, hi⟩ := List.mem_iff_getElem?.1 he
    simp [in_heap, (w.bij i e).1 hi, handle.non_nil]
  · intro he
    simp only [in_heap, Option.map_eq_some'] at he
    obtain ⟨⟨k⟩, h1, h2⟩ := he
    cases k with
    | zero => simp [handle.non_nil] at h2
    | succ k => exact List.mem_iff_getElem?.2 ⟨k, (w.bij k e).2 h1⟩

theorem WF.not_mem_iff {h : binary_heap T} (w : WF h) {e : Nat}
    (he : e < h.m_elements.length) :
    e ∉ h.m_btree.m_nodes ↔ h.in_heap e = some false := by
  constructor
  · intro hn
    simp [in_heap, w.absent_nil he hn, handle.non_nil, handle.nil]
  · intro hf hm
    rw [w.mem_iff.1 hm] at hf
    simp at hf

theorem new_wf (elements : List T) (cmp : T → T → Bool) (hN : elements.length < SIZE_MOD) :
    WF (new elements cmp) := by
  refine WF.of_bij (by simp [new, init_node_map]) hN ?_
  intro i e
  simp only [new, init_node_map, List.getElem?_nil, List.getElem?_replicate, handle.nil]
  split_ifs <;> simp

theorem pushed_size (h : binary_heap T) (idx : Nat) : (pushed h idx).size = h.size + 1 := by
  simp [pushed, size, consecutive_binary_tree.size]

theorem push_node_eq {h : binary_heap T} (w : WF h) {idx : Nat}
    (hi : idx < h.m_elements.length) : push_node h idx = some (pushed h idx) := by
  rw [← w.nm_len] at hi
  simp [push_node, vec_set, hi, pushed, consecutive_binary_tree.push,
    consecutive_binary_tree.back, consecutive_binary_tree.size, size]

theorem pushed_wf {h : binary_heap T} (w : WF h) {idx : Nat}
    (hi : idx < h.m_elements.length) (hn : idx ∉ h.m_btree.m_nodes) : WF (pushed h idx) := by
  have hnil := w.absent_nil hi hn
  rw [← w.nm_len] at hi
  refine WF.of_bij (by simp [pushed, w.nm_len]) w.rep ?_
  intro i e
  have hb := w.bij i e
  have hb2 := w.bij i idx
  simp only [pushed, List.getElem?_append, List.getElem?_set, size,
    consecutive_binary_tree.size]
  have hlen : ∀ x, h.m_btree.m_nodes[i]? = some x → i < h.m_btree.m_nodes.length :=
    fun x hx => (List.getElem?_eq_some.1 hx).1
  by_cases c1 : i < h.m_btree.m_nodes.length <;> by_cases c2 : idx = e
  · subst c2
    simp only [c1, if_true, hi]
    constructor
    · intro hx
      exact absurd (List.mem_iff_getElem?.2 ⟨i, hx⟩) hn
    · intro hx
      simp at hx
      omega
  · simp only [c1, if_true, if_neg c2]
    exact hb
  · subst c2
    simp only [c1, if_false, if_true, hi]
    by_cases c3 : i = h.m_btree.m_nodes.length
    · subst c3; simp
    · have : i - h.m_btree.m_nodes.length ≠ 0 := by omega
      obtain ⟨j, hj⟩ := Nat.exists_eq_succ_of_ne_zero this
      simp [hj]
      omega
  · simp only [c1, if_false, if_neg c2]
    constructor
    · intro hx
      by_cases c3 : i = h.m_btree.m_nodes.length
      · subst c3; simp at hx; exact absurd hx c2
      · have : i - h.m_btree.m_nodes.length ≠ 0 := by omega
        obtain ⟨j, hj⟩ := Nat.exists_eq_succ_of_ne_zero this
        simp [hj] at hx
    · intro hx
      exact absurd (hlen _ (hb.2 hx)) c1

theorem pushed_key {h : binary_heap T} (w : WF h) (idx : Nat) {s : Nat} (h1 : 1 ≤ s)
    (h2 : s ≤ h.size) : key (pushed h idx) s = key h s := by
  have hlt := w.size_lt
  simp only [size, consecutive_binary_tree.size] at h2 hlt
  rw [key_eq h1 (by omega), key_eq h1 (by omega)]
  simp only [pushed]
  rw [List.getElem?_append_left (by omega)]

theorem pushed_key_last {h : binary_heap T} {idx : Nat} (hlt : h.size + 1 < SIZE_MOD) :
    key (pushed h idx) (h.size + 1) = h.m_elements[idx]? := by
  rw [key_eq (by omega) hlt]
  simp [pushed, size, consecutive_binary_tree.size]

theorem enroll_eq {h : binary_heap T} {idx : Nat} (hi : idx < h.m_node_map.length) :
    h.enroll idx =
      if h.size + 1 > 1 then
        (h.m_elements[idx]?).bind fun e => (pushed h idx).bubble_up ⟨h.size + 1⟩ e
      else some (pushed h idx) := by
  simp [enroll, vec_set, hi, pushed, consecutive_binary_tree.push,
    consecutive_binary_tree.back, consecutive_binary_tree.size, size]

theorem ordAll_of_size_le_one {h : binary_heap T} (hs : h.size ≤ 1) : OrdAll h := by
  intro s h1 h2
  omega

theorem enroll_spec {h : binary_heap T} (w : WF h) {idx : Nat}
    (hi : idx < h.m_elements.length) (hn : idx ∉ h.m_btree.m_nodes) :
    ∃ h', h.enroll idx = some h' ∧ WF h' ∧ h'.m_elements = h.m_elements ∧
      h'.m_compare = h.m_compare ∧ h'.m_btree.m_nodes.Perm (h.m_btree.m_nodes ++ [idx]) ∧
      (StrictWeakOrder h.m_compare → OrdAll h → OrdAll h') := by
  have w1 := pushed_wf w hi hn
  have hlt := w1.size_lt
  rw [pushed_size] at hlt
  rw [enroll_eq (by rw [w.nm_len]; exact hi)]
  by_cases c : h.size + 1 > 1
  · rw [if_pos c, List.getElem?_eq_getElem hi, Option.some_bind]
    obtain ⟨h', e1, w', s', o'⟩ := bubble_up_loop_spec (h.m_elements[idx])
      ((pushed h idx).size + 1) (pushed h idx) (h.size + 1) w1
      (by rw [pushed_size]; omega) (by rw [pushed_size])
    refine ⟨h', e1, w', s'.elements, s'.compare, s'.perm, ?_⟩
    intro o ord
    refine o' o ?_ ⟨?_, ?_⟩
    · rw [pushed_key_last hlt, List.getElem?_eq_getElem hi]
    · intro s hs2 hss hne
      rw [pushed_size] at hss
      show NLt h.m_compare _ _
      rw [pushed_key w idx (by omega) (by omega), pushed_key w idx (by omega) (by omega)]
      exact ord s hs2 (by omega)
    · intro d _ hds hd
      rw [pushed_size] at hds
      omega
  · rw [if_neg c]
    refine ⟨_, rfl, w1, rfl, rfl, List.Perm.refl _, ?_⟩
    intro _ _
    apply ordAll_of_size_le_one
    rw [pushed_size]
    omega

theorem pop_root_nil {h : binary_heap T} (hs : h.m_btree.m_nodes = []) :
    h.pop_root = some h := by
  simp [pop_root, consecutive_binary_tree.size, hs]

theorem pop_root_single {h : binary_heap T} (w : WF h) {r : Nat}
    (hs : h.m_btree.m_nodes = [r]) : h.pop_root = some (emptied h r) := by
  have hr : r < h.m_node_map.length := by
    rw [w.nm_len]; exact w.slot_lt (i := 0) (by simp [hs])
  simp [pop_root, consecutive_binary_tree.size, hs, consecutive_binary_tree.root_value,
    vec_set, hr, consecutive_binary_tree.pop, emptied]

theorem pop_root_many {h : binary_heap T} (w : WF h) {r l : Nat} {mid : List Nat}
    (hs : h.m_btree.m_nodes = r :: (mid ++ [l])) :
    h.pop_root = (h.m_elements[l]?).bind fun e => (moved h r l mid).bubble_down ⟨1⟩ e := by
  have hr : r < h.m_node_map.length := by
    rw [w.nm_len]; exact w.slot_lt (i := 0) (by simp [hs])
  have hl : l < h.m_node_map.length := by
    rw [w.nm_len]; exact w.slot_lt (i := mid.length + 1) (by simp [hs])
  have hg : (r :: (mid ++ [l])).getLast? = some l := by
    have : r :: (mid ++ [l]) = (r :: mid) ++ [l] := rfl
    rw [this, List.getLast?_append]; simp
  simp [pop_root, consecutive_binary_tree.size, hs, consecutive_binary_tree.root_value,
    vec_set, hr, hl, consecutive_binary_tree.pop, moved, consecutive_binary_tree.back_value, hg,
    consecutive_binary_tree.set_root_value, consecutive_binary_tree.root,
    List.dropLast_cons_of_ne_nil]

theorem emptied_wf {h : binary_heap T} (w : WF h) {r : Nat}
    (hs : h.m_btree.m_nodes = [r]) : WF (emptied h r) := by
  refine WF.of_bij (by simp [emptied, w.nm_len]) w.rep ?_
  intro i e
  have hb := w.bij i e
  have hr := (w.bij 0 r).1 (by simp [hs])
  have hrl := (List.getElem?_eq_some.1 hr).1
  rw [hs] at hb
  simp only [emptied, List.getElem?_nil, List.getElem?_set, handle.nil]
  by_cases c : r = e
  · subst c; simp [hrl]
  · rw [if_neg c, ← hb]
    cases i with
    | zero => simp; exact c
    | succ i => simp

theorem moved_wf {h : binary_heap T} (w : WF h) {r l : Nat} {mid : List Nat}
    (hs : h.m_btree.m_nodes = r :: (mid ++ [l])) : WF (moved h r l mid) := by
  have hnd := w.nodup
  rw [hs] at hnd
  have hrl : r ≠ l := by
    intro c; subst c; simp at hnd
  have hrm : r ∉ mid := by
    intro c; simp [c] at hnd
  have hlm : l ∉ mid := by
    intro c
    have := (List.nodup_cons.1 hnd).2
    rw [List.nodup_append] at this
    exact this.2.2 c (by simp)
  have hr : r < h.m_node_map.length := by
    rw [w.nm_len]; exact w.slot_lt (i := 0) (by simp [hs])
  have hl : l < h.m_node_map.length := by
    rw [w.nm_len]; exact w.slot_lt (i := mid.length + 1) (by simp [hs])
  refine WF.of_bij (by simp [moved, w.nm_len]) w.rep ?_
  intro i e
  have hb := w.bij i e
  rw [hs] at hb
  simp only [moved, List.getElem?_set, List.length_set, handle.nil]
  by_cases c1 : l = e
  · subst c1
    simp only [if_true, hl]
    cases i with
    | zero => simp
    | succ i =>
      simp
      intro hx
      exact hlm (List.mem_iff_getElem?.2 ⟨i, hx⟩)
  · rw [if_neg c1]
    by_cases c2 : r = e
    · subst c2
      simp only [if_true, hr]
      cases i with
      | zero => simp; exact fun c => hrl c.symm
      | succ i =>
        simp
        intro hx
        exact hrm (List.mem_iff_getElem?.2 ⟨i, hx⟩)
    · rw [if_neg c2, ← hb]
      cases i with
      | zero => simp [c1, c2]
      | succ i =>
        simp only [List.getElem?_cons_succ, List.getElem?_append]
        split_ifs with c3
        · rfl
        · constructor
          · intro hx
            exact absurd (List.getElem?_eq_some.1 hx).1 c3
          · intro hx
            have : i - mid.length = 0 ∨ ∃ j, i - mid.length = j + 1 := by
              cases i - mid.length with
              | zero => exact Or.inl rfl
              | succ j => exact Or.inr ⟨j, rfl⟩
            rcases this with h0 | ⟨j, hj⟩
            · rw [h0] at hx; simp at hx; exact absurd hx c1
            · rw [hj] at hx; simp at hx

theorem moved_size {h : binary_heap T} {r l : Nat} {mid : List Nat}
    (hs : h.m_btree.m_nodes = r :: (mid ++ [l])) : (moved h r l mid).size + 1 = h.size := by
  simp [moved, size, consecutive_binary_tree.size, hs]

theorem moved_key {h : binary_heap T} (w : WF h) {r l : Nat} {mid : List Nat}
    (hs : h.m_btree.m_nodes = r :: (mid ++ [l])) {s : Nat} (h1 : 2 ≤ s)
    (h2 : s + 1 ≤ h.size) : key (moved h r l mid) s = key h s := by
  have hlt := w.size_lt
  have hz : h.size = mid.length + 2 := by simp [size, consecutive_binary_tree.size, hs]
  rw [key_eq (by omega) (by omega), key_eq (by omega) (by omega), hs]
  simp only [moved]
  obtain ⟨j, rfl⟩ : ∃ j, s = j + 2 := ⟨s - 2, by omega⟩
  simp only [Nat.add_sub_cancel, List.getElem?_cons_succ, Nat.add_one_sub_one]
  rw [List.getElem?_append_left (by omega)]

theorem moved_key_root {h : binary_heap T} (r l : Nat) (mid : List Nat) :
    key (moved h r l mid) 1 = h.m_elements[l]? := by
  rw [key_eq (by omega) (by simp [SIZE_MOD])]
  simp [moved]

theorem ordFrom_zero_iff {h : binary_heap T} : OrdFrom h 0 ↔ OrdAll h :=
  ⟨fun o s h1 h2 => o s h1 h2 (Nat.zero_le _), fun o s h1 h2 _ => o s h1 h2⟩

theorem ordFrom_one_iff {h : binary_heap T} : OrdFrom h 1 ↔ OrdAll h :=
  ⟨fun o s h1 h2 => o s h1 h2 (by omega), fun o s h1 h2 _ => o s h1 h2⟩

theorem pop_root_spec {h : binary_heap T} (w : WF h) :
    ∃ h', h.pop_root = some h' ∧ WF h' ∧ h'.m_elements = h.m_elements ∧
      h'.m_compare = h.m_compare ∧
      (h.m_btree.m_nodes = [] → h' = h) ∧
      (∀ r rest, h.m_btree.m_nodes = r :: rest → h'.m_btree.m_nodes.Perm rest) ∧
      (StrictWeakOrder h.m_compare → OrdAll h → OrdAll h') := by
  rcases hs : h.m_btree.m_nodes with _ | ⟨r, rest⟩
  · exact ⟨h, pop_root_nil hs, w, rfl, rfl, fun _ => rfl, fun r rest hx => by simp at hx,
      fun _ o => o⟩
  · by_cases hr : rest = []
    · subst hr
      refine ⟨emptied h r, pop_root_single w hs, emptied_wf w hs, rfl, rfl,
        fun hx => by simp at hx, ?_, ?_⟩
      · intro r' rest' hx
        simp only [List.cons.injEq] at hx
        rw [← hx.2]
        exact List.Perm.refl _
      · intro _ _
        apply ordAll_of_size_le_one
        simp [emptied, size, consecutive_binary_tree.size]
    · have hd := List.dropLast_append_getLast hr
      generalize rest.dropLast = mid at hd
      generalize rest.getLast hr = l at hd
      subst hd
      have hl : l < h.m_elements.length :=
        w.slot_lt (i := mid.length + 1) (by simp [hs])
      have wm := moved_wf w hs
      have hsz := moved_size (h := h) hs
      rw [pop_root_many w hs, List.getElem?_eq_getElem hl, Option.some_bind]
      obtain ⟨h', e1, w', s', o'⟩ := bubble_down_loop_spec (h.m_elements[l])
        ((moved h r l mid).size + 1) (moved h r l mid) 1 ((moved h r l mid).size / 2) wm
        (by omega) (by simp [moved, size, consecutive_binary_tree.size]) (by omega) rfl
      refine ⟨h', e1, w', s'.elements, s'.compare, fun hx => by simp at hx, ?_, ?_⟩
      · intro r' rest' hx
        simp only [List.cons.injEq] at hx
        rw [← hx.2]
        refine s'.perm.trans ?_
        simp only [moved]
        exact (List.perm_append_comm : ([l] ++ mid).Perm (mid ++ [l]))
      · intro o ord
        rw [← ordFrom_zero_iff]
        refine o' 0 o ?_ ⟨by omega, ?_, ?_⟩
        · rw [moved_key_root, List.getElem?_eq_getElem hl]
        · intro s hs2 hss _ hne
          show NLt h.m_compare _ _
          rw [moved_key w hs (by omega) (by omega), moved_key w hs (by omega) (by omega)]
          exact ord s hs2 (by omega)
        · intro c hc
          omega

theorem in_heap_slot {h : binary_heap T} (w : WF h) {idx : Nat}
    (hin : h.in_heap idx = some true) :
    ∃ k, h.m_node_map[idx]? = some ⟨k + 1⟩ ∧ h.m_btree.m_nodes[k]? = some idx := by
  simp only [in_heap, Option.map_eq_some'] at hin
  obtain ⟨⟨k⟩, h1, h2⟩ := hin
  cases k with
  | zero => simp [handle.non_nil] at h2
  | succ k => exact ⟨k, h1, (w.bij k idx).2 h1⟩

theorem ordAll_children {h : binary_heap T} (w : WF h) (o : StrictWeakOrder h.m_compare)
    (ord : OrdAll h) {u c : Nat} (hu : 2 ≤ u) (hcs : c ≤ h.size) (hc : c / 2 = u) :
    NLt h.m_compare (key h c) (key h (u / 2)) := by
  obtain ⟨x, hx⟩ := w.key_some (s := u) (by omega) (by omega)
  have h1 := ord c (by omega) hcs
  rw [hc] at h1
  exact NLt.chain o hx h1 (ord u hu (by omega))

theorem update_up_spec {h : binary_heap T} (w : WF h) {idx : Nat}
    (hin : h.in_heap idx = some true) :
    ∃ h', h.update_up idx = some h' ∧ WF h' ∧ Same h h' ∧
      (StrictWeakOrder h.m_compare → OrdAll h → OrdAll h') := by
  obtain ⟨k, hk, hsl⟩ := in_heap_slot w hin
  have hi := w.slot_lt hsl
  have hks := (List.getElem?_eq_some.1 hsl).1
  have hlt := w.size_lt
  simp only [size, consecutive_binary_tree.size] at hlt
  simp only [update_up, hk, List.getElem?_eq_getElem hi, Option.some_bind]
  obtain ⟨h', e1, w', s', o'⟩ := bubble_up_loop_spec (h.m_elements[idx]) (h.size + 1) h (k + 1)
    w (by simp only [size, consecutive_binary_tree.size]; omega)
    (by simp only [size, consecutive_binary_tree.size]; omega)
  refine ⟨h', e1, w', s', ?_⟩
  intro o ord
  refine o' o ?_ ⟨fun s h1 h2 _ => ord s h1 h2, fun c hu hcs hc => ordAll_children w o ord hu hcs hc⟩
  rw [key_eq (by omega) (by omega)]
  simp [hsl, List.getElem?_eq_getElem hi]

theorem update_down_spec {h : binary_heap T} (w : WF h) {idx : Nat}
    (hin : h.in_heap idx = some true) :
    ∃ h', h.update_down idx = some h' ∧ WF h' ∧ Same h h' ∧
      (StrictWeakOrder h.m_compare → OrdAll h → OrdAll h') := by
  obtain ⟨k, hk, hsl⟩ := in_heap_slot w hin
  have hi := w.slot_lt hsl
  have hks := (List.getElem?_eq_some.1 hsl).1
  have hlt := w.size_lt
  simp only [size, consecutive_binary_tree.size] at hlt
  simp only [update_down, hk, List.getElem?_eq_getElem hi, Option.some_bind]
  obtain ⟨h', e1, w', s', o'⟩ := bubble_down_loop_spec (h.m_elements[idx]) (h.size + 1) h
    (k + 1) (h.size / 2) w (by omega) (by simp only [size, consecutive_binary_tree.size]; omega)
    (by omega) rfl
  refine ⟨h', e1, w', s', ?_⟩
  intro o ord
  rw [← ordFrom_zero_iff]
  refine o' 0 o ?_ ⟨by omega, fun s h1 h2 _ _ => ord s h1 h2,
    fun c hu _ hcs hc => ordAll_children w o ord hu hcs hc⟩
  rw [key_eq (by omega) (by omega)]
  simp [hsl, List.getElem?_eq_getElem hi]

theorem countP_eq_filter_range {α : Type} (p : α → Bool) (l : List α) :
    l.countP p = ((List.range l.length).filter fun i => (l[i]?.map p) == some true).length := by
  induction l using List.reverseRecOn with
  | nil => simp
  | append_singleton l a ih =>
    rw [List.countP_append, ih, List.length_append, List.length_singleton, List.range_succ,
      List.filter_append, List.length_append]
    congr 1
    · congr 1
      apply List.filter_congr
      intro i hi
      rw [List.mem_range] at hi
      rw [List.getElem?_append_left hi]
    · cases hp : p a <;> simp [List.countP_cons, hp]

theorem WF.count {h : binary_heap T} (w : WF h) :
    h.m_node_map.countP handle.non_nil = h.size := by
  rw [countP_eq_filter_range]
  apply List.Perm.length_eq
  rw [List.perm_ext_iff_of_nodup ((List.nodup_range _).filter _) w.nodup]
  intro e
  rw [List.mem_filter, List.mem_range, w.mem_iff, in_heap]
  constructor
  · intro hx
    simpa using hx.2
  · intro hx
    refine ⟨?_, by simpa using hx⟩
    simp only [Option.map_eq_some'] at hx
    obtain ⟨a, ha, _⟩ := hx
    exact (List.getElem?_eq_some.1 ha).1

theorem heap_order_iff {h : binary_heap T} (w : WF h) : heap_order h ↔ OrdAll h := by
  constructor
  · intro ho s h1 h2 x y hx hy
    obtain ⟨x', y', hx', hy', hc⟩ := ho s h1 h2
    have e1 : x' = x := Option.some.inj (hx'.symm.trans hx)
    have e2 : y' = y := Option.some.inj (hy'.symm.trans hy)
    subst e1 e2
    exact hc
  · intro ho s h1 h2
    obtain ⟨x, hx⟩ := w.key_some (s := s) (by omega) h2
    obtain ⟨y, hy⟩ := w.key_some (s := s / 2) (by omega) (by omega)
    exact ⟨x, y, hx, hy, ho s h1 h2 x y hx hy⟩

theorem exec_spec {h : binary_heap T} (w : WF h) {c : Call} (hp : Call.pre h c = true) :
    ∃ h1, c.exec h = some h1 ∧ WF h1 ∧ h1.m_elements = h.m_elements ∧
      h1.m_compare = h.m_compare ∧
      (StrictWeakOrder h.m_compare → OrdAll h → OrdAll h1) ∧
      h1.size + (if c = Call.pop_root ∧ 0 < h.size then 1 else 0) =
        h.size + (match c with
          | .enroll _ => 1
          | _ => 0) := by
  cases c with
  | enroll id =>
    simp only [Call.pre, Bool.and_eq_true, decide_eq_true_eq, beq_iff_eq] at hp
    have hn := (w.not_mem_iff hp.1).2 hp.2
    obtain ⟨h1, e1, w1, el, cm, pm, od⟩ := enroll_spec w hp.1 hn
    refine ⟨h1, e1, w1, el, cm, od, ?_⟩
    have := pm.length_eq
    simp [size, consecutive_binary_tree.size] at this ⊢
    exact this
  | pop_root =>
    obtain ⟨h1, e1, w1, el, cm, p0, p1, od⟩ := pop_root_spec w
    refine ⟨h1, e1, w1, el, cm, od, ?_⟩
    rcases hs : h.m_btree.m_nodes with _ | ⟨r, rest⟩
    · rw [p0 hs]
      simp [size, consecutive_binary_tree.size, hs]
    · have := (p1 r rest hs).length_eq
      simp [size, consecutive_binary_tree.size, hs, this]
  | update_up id =>
    simp only [Call.pre, beq_iff_eq] at hp
    obtain ⟨h1, e1, w1, sm, od⟩ := update_up_spec w hp
    exact ⟨h1, e1, w1, sm.elements, sm.compare, od, by simp [sm.size]⟩
  | update_down id =>
    simp only [Call.pre, beq_iff_eq] at hp
    obtain ⟨h1, e1, w1, sm, od⟩ := update_down_spec w hp
    exact ⟨h1, e1, w1, sm.elements, sm.compare, od, by simp [sm.size]⟩

theorem run_spec (P : binary_heap T → Call → Bool)
    (hP : ∀ h c, P h c = true → Call.pre h c = true) :
    ∀ (calls : List Call) (h : binary_heap T), WF h → valid_calls P h calls = true →
    ∃ h', run h calls = some h' ∧ WF h' ∧ h'.m_elements = h.m_elements ∧
      h'.m_compare = h.m_compare ∧
      (StrictWeakOrder h.m_compare → OrdAll h → OrdAll h') ∧
      ((∀ h, P h Call.pop_root = true → 0 < h.size) →
        h'.size + num_pop calls = h.size + num_enroll calls) := by
  intro calls
  induction calls with
  | nil =>
    intro h w _
    exact ⟨h, rfl, w, rfl, rfl, fun _ o => o, fun _ => by simp [num_pop, num_enroll]⟩
  | cons c cs ih =>
    intro h w hv
    simp only [valid_calls, Bool.and_eq_true] at hv
    obtain ⟨h1, e1, w1, el1, cm1, od1, sz1⟩ := exec_spec w (hP h c hv.1)
    have hv2 := hv.2
    rw [e1] at hv2
    obtain ⟨h', e2, w2, el2, cm2, od2, sz2⟩ := ih h1 w1 hv2
    refine ⟨h', by simp [run, e1, e2], w2, el2.trans el1, cm2.trans cm1, ?_, ?_⟩
    · intro o ord
      exact od2 (cm1 ▸ o) (od1 o ord)
    · intro hne
      have := sz2 hne
      have hc : c = Call.pop_root → 0 < h.size := fun hx => hne h (hx ▸ hv.1)
      cases c with
      | enroll id => simp [num_pop, num_enroll, List.countP_cons] at this sz1 ⊢; omega
      | pop_root =>
        have hpos := hc rfl
        simp [num_pop, num_enroll, List.countP_cons, hpos] at this sz1 ⊢; omega
      | update_up id => simp [num_pop, num_enroll, List.countP_cons] at this sz1 ⊢; omega
      | update_down id => simp [num_pop, num_enroll, List.countP_cons] at this sz1 ⊢; omega

theorem WF.slot_holds_iff {h : binary_heap T} (w : WF h) {s e : Nat} :
    slot_holds h s e ↔ 1 ≤ s ∧ h.m_btree.m_nodes[s - 1]? = some e := by
  have hlt := w.size_lt
  constructor
  · rintro ⟨h1, h2, h3⟩
    rw [tree_get_eq _ h1 (by omega)] at h3
    exact ⟨h1, h3⟩
  · rintro ⟨h1, h3⟩
    have h2 : s ≤ h.size := by
      have := (List.getElem?_eq_some.1 h3).1
      simp only [size, consecutive_binary_tree.size]; omega
    rw [← tree_get_eq _ h1 (by omega)] at h3
    exact ⟨h1, h2, h3⟩

theorem WF.bijection {h : binary_heap T} (w : WF h) : bijection h := by
  have hlt := w.size_lt
  have key1 : ∀ s e, slot_holds h s e → h.m_node_map[e]? = some ⟨s⟩ := by
    intro s e hs
    obtain ⟨h1, h3⟩ := w.slot_holds_iff.1 hs
    have := (w.bij (s - 1) e).1 h3
    rwa [Nat.sub_add_cancel h1] at this
  refine ⟨key1, ?_, ?_, ?_⟩
  · intro e he hno
    apply w.absent_nil he
    intro hm
    obtain ⟨i, hi⟩ := List.mem_iff_getElem?.1 hm
    exact hno (i + 1) (w.slot_holds_iff.2 ⟨by omega, by simpa using hi⟩)
  · intro s t e hs ht
    have := (key1 s e hs).symm.trans (key1 t e ht)
    simpa using this
  · intro e hin
    obtain ⟨k, hk, hsl⟩ := in_heap_slot w hin
    refine ⟨⟨k + 1⟩, hk, ?_⟩
    have := (List.getElem?_eq_some.1 hsl).1
    simp only [size, consecutive_binary_tree.size] at hlt
    rw [tree_get_eq _ (by omega) (by omega)]
    simpa using hsl

theorem WF.in_heap_eq {h : binary_heap T} (w : WF h) {e : Nat}
    (he : e < h.m_elements.length) : h.in_heap e = some (decide (e ∈ h.m_btree.m_nodes)) := by
  by_cases c : e ∈ h.m_btree.m_nodes
  · simp [c, w.mem_iff.1 c]
  · simp [c, (w.not_mem_iff he).1 c]

/-- In a heap in heap order no slot is strictly better than the root slot. -/
theorem WF.root_best {h : binary_heap T} (w : WF h) (o : StrictWeakOrder h.m_compare)
    (ord : OrdAll h) : ∀ s, 1 ≤ s → s ≤ h.size → NLt h.m_compare (key h s) (key h 1) := by
  intro s
  induction s using Nat.strong_induction_on with
  | _ s ih =>
    intro h1 h2
    by_cases c : s = 1
    · subst c
      intro x y hx hy
      have : x = y := Option.some.inj (hx.symm.trans hy)
      subst this
      exact o.irrefl x
    · obtain ⟨y, hy⟩ := w.key_some (s := s / 2) (by omega) (by omega)
      exact NLt.chain o hy (ord s (by omega) h2) (ih (s / 2) (by omega) (by omega) (by omega))

theorem less_swo : StrictWeakOrder less := by
  refine ⟨?_, ?_, ?_⟩
  · intro a; simp [less]
  · intro a b c; simp only [less, decide_eq_true_eq]; omega
  · intro a b c; simp only [less, decide_eq_false_iff_not, decide_eq_true_eq]; omega

/-- C1. Heap order is an invariant of every valid call sequence: from a freshly constructed
heap over `elements` with a strict-weak-ordering comparator, every sequence of calls whose
preconditions hold (`enroll` of an absent id below `N`, `pop_root`, `update_up` and
`update_down` of an id in the heap) runs to a state in which, for every slot position `s`
with `2 <= s <= size()`, `compare(elements[slot[s]], elements[slot[s / 2]])` is false. -/
theorem heap_order_invariant (elements : List T) (cmp : T → T → Bool)
    (hN : elements.length < SIZE_MOD) (o : StrictWeakOrder cmp) (calls : List Call)
    (hv : valid_calls Call.pre (new elements cmp) calls = true) :
    ∃ h', run (new elements cmp) calls = some h' ∧ heap_order h' := by
  obtain ⟨h', e, w, _, _, od, _⟩ :=
    run_spec Call.pre (fun _ _ hp => hp) calls _ (new_wf elements cmp hN) hv
  refine ⟨h', e, (heap_order_iff w).2 (od o ?_)⟩
  exact ordAll_of_size_le_one (by simp [new, size, consecutive_binary_tree.size])

theorem heap_order_invariant_witness :
    ∃ h', run (new [5, 3, 8, 1, 9] less)
      [Call.enroll 0, Call.enroll 3, Call.enroll 1, Call.pop_root, Call.enroll 4,
        Call.update_up 1, Call.update_down 0, Call.enroll 2, Call.pop_root] = some h' ∧
      heap_order h' :=
  heap_order_invariant [5, 3, 8, 1, 9] less (by decide) less_swo _ (by decide)

/-- C2. The id/handle bijection is an invariant of every valid call sequence from a fresh
heap: the sequence runs to a state in which every slot position `s` holding id `e` has
`node(e)` equal to the handle `s`, every id below `N` that is in no slot has a nil node-map
entry, no id is in two slots, and for every id with `in_heap(id)` the slot referenced by
`node(id)` holds that id. -/
theorem bijection_invariant (elements : List T) (cmp : T → T → Bool)
    (hN : elements.length < SIZE_MOD) (calls : List Call)
    (hv : valid_calls Call.pre (new elements cmp) calls = true) :
    ∃ h', run (new elements cmp) calls = some h' ∧ bijection h' := by
  obtain ⟨h', e, w, _⟩ :=
    run_spec Call.pre (fun _ _ hp => hp) calls _ (new_wf elements cmp hN) hv
  exact ⟨h', e, w.bijection⟩

theorem bijection_invariant_witness :
    ∃ h', run (new [5, 3, 8, 1, 9] less)
      [Call.enroll 2, Call.enroll 3, Call.enroll 1, Call.pop_root, Call.enroll 4,
        Call.update_down 1, Call.update_up 2, Call.pop_root] = some h' ∧
      bijection h' :=
  bijection_invariant [5, 3, 8, 1, 9] less (by decide) _ (by decide)

/-- C3. Size consistency is an invariant of every valid call sequence from a fresh heap:
the sequence runs to a state in which the number of non-nil entries of the node map equals
the length of the slot sequence, `size()`. -/
theorem size_consistency_invariant (elements : List T) (cmp : T → T → Bool)
    (hN : elements.length < SIZE_MOD) (calls : List Call)
    (hv : valid_calls Call.pre (new elements cmp) calls = true) :
    ∃ h', run (new elements cmp) calls = some h' ∧
      h'.m_node_map.countP handle.non_nil = h'.size ∧
      h'.size = h'.m_btree.m_nodes.length := by
  obtain ⟨h', e, w, _⟩ :=
    run_spec Call.pre (fun _ _ hp => hp) calls _ (new_wf elements cmp hN) hv
  exact ⟨h', e, w.count, rfl⟩

theorem size_consistency_invariant_witness :
    ∃ h', run (new [5, 3, 8, 1, 9] less)
      [Call.enroll 4, Call.enroll 0, Call.pop_root, Call.pop_root, Call.pop_root,
        Call.enroll 1, Call.update_up 1] = some h' ∧
      h'.m_node_map.countP handle.non_nil = h'.size ∧
      h'.size = h'.m_btree.m_nodes.length :=
  size_consistency_invariant [5, 3, 8, 1, 9] less (by decide) _ (by decide)

/-- C7. Size accounting: a call sequence on a fresh heap that respects the preconditions,
with every `pop_root` on a non-empty heap, and that contains `k` calls of `enroll` and `j`
calls of `pop_root`, runs to a state with `size() == k - j` (and `j <= k`), and `empty()`
holds there iff `k == j`. -/
theorem size_accounting (elements : List T) (cmp : T → T → Bool)
    (hN : elements.length < SIZE_MOD) (calls : List Call)
    (hv : valid_calls Call.pre_nonempty (new elements cmp) calls = true) :
    ∃ h', run (new elements cmp) calls = some h' ∧
      num_pop calls ≤ num_enroll calls ∧
      h'.size = num_enroll calls - num_pop calls ∧
      (h'.empty = true ↔ num_enroll calls = num_pop calls) := by
  obtain ⟨h', e, w, _, _, _, sz⟩ :=
    run_spec Call.pre_nonempty
      (fun _ _ hp => by
        simp only [Call.pre_nonempty, Bool.and_eq_true] at hp
        exact hp.1)
      calls _ (new_wf elements cmp hN) hv
  have hsz := sz (fun h hp => by
    simpa [Call.pre_nonempty, Call.pre] using hp)
  have h0 : (new elements cmp).size = 0 := by
    simp [new, size, consecutive_binary_tree.size]
  rw [h0] at hsz
  refine ⟨h', e, by omega, by omega, ?_⟩
  have he : h'.empty = true ↔ h'.size = 0 := by
    simp [empty, consecutive_binary_tree.empty, size, consecutive_binary_tree.size]
  rw [he]
  omega

theorem size_accounting_witness :
    ∃ h', run (new [5, 3, 8, 1, 9] less)
      [Call.enroll 4, Call.enroll 0, Call.pop_root, Call.update_down 4, Call.enroll 2,
        Call.pop_root, Call.enroll 3] = some h' ∧
      num_pop [Call.enroll 4, Call.enroll 0, Call.pop_root, Call.update_down 4,
        Call.enroll 2, Call.pop_root, Call.enroll 3] ≤
      num_enroll [Call.enroll 4, Call.enroll 0, Call.pop_root, Call.update_down 4,
        Call.enroll 2, Call.pop_root, Call.enroll 3] ∧
      h'.size = num_enroll [Call.enroll 4, Call.enroll 0, Call.pop_root, Call.update_down 4,
        Call.enroll 2, Call.pop_root, Call.enroll 3] -
        num_pop [Call.enroll 4, Call.enroll 0, Call.pop_root, Call.update_down 4,
        Call.enroll 2, Call.pop_root, Call.enroll 3] ∧
      (h'.empty = true ↔
        num_enroll [Call.enroll 4, Call.enroll 0, Call.pop_root, Call.update_down 4,
          Call.enroll 2, Call.pop_root, Call.enroll 3] =
        num_pop [Call.enroll 4, Call.enroll 0, Call.pop_root, Call.update_down 4,
          Call.enroll 2, Call.pop_root, Call.enroll 3]) :=
  size_accounting [5, 3, 8, 1, 9] less (by decide) _ (by decide)

/-- A state reached from a fresh heap by a valid call sequence is well-formed, and in heap
order when the comparator is a strict weak ordering. -/
theorem wf_of_run (elements : List T) (cmp : T → T → Bool)
    (hN : elements.length < SIZE_MOD) (calls : List Call)
    (hv : valid_calls Call.pre (new elements cmp) calls = true) {h : binary_heap T}
    (hr : run (new elements cmp) calls = some h) :
    WF h ∧ (StrictWeakOrder cmp → heap_order h) := by
  obtain ⟨h', e, w, _, _, od, _⟩ :=
    run_spec Call.pre (fun _ _ hp => hp) calls _ (new_wf elements cmp hN) hv
  have : h' = h := Option.some.inj (e.symm.trans hr)
  subst this
  refine ⟨w, fun o => (heap_order_iff w).2 (od o ?_)⟩
  exact ordAll_of_size_le_one (by simp [new, size, consecutive_binary_tree.size])

theorem example_heap_run :
    run (new [5, 3, 8, 1, 9] less) [Call.enroll 0, Call.enroll 1, Call.enroll 3] =
      some example_heap := by
  rfl

theorem example_heap_wf : WF example_heap :=
  (wf_of_run [5, 3, 8, 1, 9] less (by decide) _ (by decide) example_heap_run).1

theorem example_heap_order : heap_order example_heap :=
  (wf_of_run [5, 3, 8, 1, 9] less (by decide) _ (by decide) example_heap_run).2 less_swo

/-- C8. The postcondition of `enroll`: on a well-formed heap, for an id below `N` with
`in_heap(id)` false, `enroll(id)` returns a state in which `in_heap(id)` is true, `size()`
has grown by exactly one, and `in_heap(e)` is as before for every other id `e` below `N`. -/
theorem enroll_postcondition (h : binary_heap T) (w : WF h) (id : Nat)
    (hid : id < h.m_elements.length) (hab : h.in_heap id = some false) :
    ∃ h', h.enroll id = some h' ∧ h'.in_heap id = some true ∧ h'.size = h.size + 1 ∧
      ∀ e, e < h.m_elements.length → e ≠ id → h'.in_heap e = h.in_heap e := by
  obtain ⟨h', e1, w', el, _, pm, _⟩ := enroll_spec w hid ((w.not_mem_iff hid).2 hab)
  refine ⟨h', e1, ?_, ?_, ?_⟩
  · apply w'.mem_iff.1
    rw [pm.mem_iff]
    simp
  · have := pm.length_eq
    simpa [size, consecutive_binary_tree.size] using this
  · intro e he hne
    rw [w'.in_heap_eq (by rw [el]; exact he), w.in_heap_eq he]
    congr 1
    rw [decide_eq_decide, pm.mem_iff]
    simp [hne]

theorem enroll_postcondition_witness :
    ∃ h', example_heap.enroll 4 = some h' ∧ h'.in_heap 4 = some true ∧
      h'.size = example_heap.size + 1 ∧
      ∀ e, e < example_heap.m_elements.length → e ≠ 4 →
        h'.in_heap e = example_heap.in_heap e :=
  enroll_postcondition example_heap example_heap_wf 4 (by decide) (by decide)

/-- C9. The call `pop_root()` removes exactly the root id: on a well-formed non-empty heap
whose root slot holds `r`, it returns a state in which `in_heap(r)` is false with the
node-map entry of `r` nil, `size()` has shrunk by exactly one, and `in_heap(e)` is as before
for every other id `e` below `N`. -/
theorem pop_root_removes_root (h : binary_heap T) (w : WF h) (r : Nat)
    (hne : 1 ≤ h.size) (hr : h.m_btree.root_value = some r) :
    ∃ h', h.pop_root = some h' ∧ h'.in_heap r = some false ∧
      h'.node r = some handle.nil ∧ h'.size + 1 = h.size ∧
      ∀ e, e < h.m_elements.length → e ≠ r → h'.in_heap e = h.in_heap e := by
  obtain ⟨h', e1, w', el, _, _, pm, _⟩ := pop_root_spec w
  rcases hs : h.m_btree.m_nodes with _ | ⟨r', rest⟩
  · simp [size, consecutive_binary_tree.size, hs] at hne
  · have : r' = r := by
      simpa [consecutive_binary_tree.root_value, hs] using hr
    subst this
    have pm' := pm r' rest hs
    have hnd := w.nodup
    rw [hs] at hnd
    have hrn : r' ∉ h'.m_btree.m_nodes := by
      rw [pm'.mem_iff]
      exact (List.nodup_cons.1 hnd).1
    have hrl : r' < h'.m_elements.length := by
      rw [el]; exact w.slot_lt (i := 0) (by simp [hs])
    refine ⟨h', e1, (w'.not_mem_iff hrl).1 hrn, w'.absent_nil hrl hrn, ?_, ?_⟩
    · have := pm'.length_eq
      simp [size, consecutive_binary_tree.size, hs, this]
    · intro e he hne'
      rw [w'.in_heap_eq (by rw [el]; exact he), w.in_heap_eq he]
      congr 1
      rw [decide_eq_decide, pm'.mem_iff, hs]
      simp [hne']

theorem pop_root_removes_root_witness :
    ∃ h', example_heap.pop_root = some h' ∧ h'.in_heap 3 = some false ∧
      h'.node 3 = some handle.nil ∧ h'.size + 1 = example_heap.size ∧
      ∀ e, e < example_heap.m_elements.length → e ≠ 3 →
        h'.in_heap e = example_heap.in_heap e :=
  pop_root_removes_root example_heap example_heap_wf 3 (by decide) (by decide)

/-- C10. The call `pop_root()` on an empty heap is a no-op: it returns the state it was
called in, so the slot sequence stays empty and every node-map entry is unchanged. -/
theorem pop_root_empty_noop (h : binary_heap T) (he : h.empty = true) :
    ∃ h', h.pop_root = some h' ∧ h' = h ∧ h'.m_btree.m_nodes = [] ∧
      h'.m_node_map = h.m_node_map := by
  have hs : h.m_btree.m_nodes = [] := by
    simpa [empty, consecutive_binary_tree.empty] using he
  exact ⟨h, pop_root_nil hs, rfl, hs, rfl⟩

theorem pop_root_empty_noop_witness :
    ∃ h', (new [5, 3, 8, 1, 9] less).pop_root = some h' ∧ h' = new [5, 3, 8, 1, 9] less ∧
      h'.m_btree.m_nodes = [] ∧ h'.m_node_map = (new [5, 3, 8, 1, 9] less).m_node_map :=
  pop_root_empty_noop (new [5, 3, 8, 1, 9] less) (by decide)

/-- C6. The call `root()` returns the best element: on a non-empty heap that satisfies heap
order and the bijection, under a strict-weak-ordering comparator, `root()` is
`elements[slot[1]]`, and `compare(elements[e], root())` is false for every id `e` with
`in_heap(e)`. -/
theorem root_is_best (h : binary_heap T) (w : WF h) (ho : heap_order h)
    (o : StrictWeakOrder h.m_compare) (hne : 0 < h.size) :
    ∃ r e1, h.root = some r ∧ h.m_btree.get ⟨1⟩ = some e1 ∧ h.m_elements[e1]? = some r ∧
      ∀ e, h.in_heap e = some true →
        ∃ x, h.m_elements[e]? = some x ∧ h.compare x r = false := by
  have ord := (heap_order_iff w).1 ho
  obtain ⟨r, hr⟩ := w.key_some (s := 1) (by omega) hne
  have hr' := hr
  rw [key_eq (by omega) (by simp [SIZE_MOD])] at hr'
  rcases hs : h.m_btree.m_nodes with _ | ⟨e1, rest⟩
  · simp [size, consecutive_binary_tree.size, hs] at hne
  · simp only [hs, Nat.sub_self, List.getElem?_cons_zero, Option.some_bind] at hr'
    refine ⟨r, e1, ?_, ?_, hr', ?_⟩
    · simp [root, consecutive_binary_tree.root_value, hs, hr']
    · rw [tree_get_eq _ (by omega) (by simp [SIZE_MOD])]
      simp [hs]
    · intro e hin
      obtain ⟨k, _, hk⟩ := in_heap_slot w hin
      have hkl := (List.getElem?_eq_some.1 hk).1
      have hlt := w.size_lt
      simp only [size, consecutive_binary_tree.size] at hlt
      obtain ⟨x, hx⟩ := w.key_some (s := k + 1) (by omega)
        (by simp only [size, consecutive_binary_tree.size]; omega)
      have hb := w.root_best o ord (k + 1) (by omega)
        (by simp only [size, consecutive_binary_tree.size]; omega) x r hx hr
      rw [key_eq (by omega) (by omega)] at hx
      simp only [Nat.add_sub_cancel, hk, Option.some_bind] at hx
      exact ⟨x, hx, hb⟩

theorem root_is_best_witness :
    ∃ r e1, example_heap.root = some r ∧ example_heap.m_btree.get ⟨1⟩ = some e1 ∧
      example_heap.m_elements[e1]? = some r ∧
      ∀ e, example_heap.in_heap e = some true →
        ∃ x, example_heap.m_elements[e]? = some x ∧ example_heap.compare x r = false :=
  root_is_best example_heap example_heap_wf example_heap_order less_swo (by decide)

theorem push_all_spec : ∀ (ids : List Nat) (h : binary_heap T), WF h →
    (∀ i ∈ ids, i < h.m_elements.length) → ids.Nodup →
    (∀ i ∈ ids, i ∉ h.m_btree.m_nodes) →
    ∃ h', ids.foldlM push_node h = some h' ∧ WF h' ∧
      h'.m_btree.m_nodes = h.m_btree.m_nodes ++ ids ∧ h'.m_elements = h.m_elements ∧
      h'.m_compare = h.m_compare := by
  intro ids
  induction ids with
  | nil =>
    intro h w _ _ _
    exact ⟨h, rfl, w, by simp, rfl, rfl⟩
  | cons i ids ih =>
    intro h w hlt hnd hno
    have hi := hlt i (by simp)
    have hn := hno i (by simp)
    obtain ⟨h', e1, w', sl, el, cm⟩ := ih (pushed h i) (pushed_wf w hi hn)
      (fun j hj => hlt j (by simp [hj])) (List.nodup_cons.1 hnd).2
      (fun j hj => by
        have h1 := hno j (by simp [hj])
        have h2 : j ≠ i := fun c => (List.nodup_cons.1 hnd).1 (c ▸ hj)
        simp [pushed, h1, h2])
    refine ⟨h', ?_, w', ?_, el, cm⟩
    · rw [List.foldlM_cons, push_node_eq w hi]
      exact e1
    · rw [sl]
      simp [pushed]

theorem do_make_heap_loop_spec : ∀ (id : Nat) (h : binary_heap T), WF h → id ≤ h.size / 2 →
    ∃ h', do_make_heap_loop id h = some h' ∧ WF h' ∧ Same h h' ∧
      (StrictWeakOrder h.m_compare → OrdFrom h (id + 1) → OrdFrom h' 1) := by
  intro id
  induction id with
  | zero =>
    intro h w _
    exact ⟨h, rfl, w, Same.refl h, fun _ o => o⟩
  | succ id ih =>
    intro h w hid
    obtain ⟨e, he⟩ := w.key_some (s := id + 1) (by omega) (by omega)
    have he' : h.get_by_node ⟨id + 1⟩ = some e := he
    obtain ⟨h1, e1, w1, s1, o1⟩ := bubble_down_loop_spec e (h.size + 1) h (id + 1)
      (h.size / 2) w (by omega) (by omega) (by omega) rfl
    have e1' : h.bubble_down ⟨id + 1⟩ e = some h1 := e1
    obtain ⟨h', e2, w2, s2, o2⟩ := ih h1 w1 (by rw [s1.size]; omega)
    refine ⟨h', ?_, w2, s1.trans s2, ?_⟩
    · simp only [do_make_heap_loop, he', e1', Option.some_bind]
      exact e2
    · intro o ord
      refine o2 (s1.compare ▸ o) (o1 (id + 1) o he ⟨le_refl _, ?_, ?_⟩)
      · intro s hs2 hss hk hne
        exact ord s hs2 hss (by omega)
      · intro c hu hk
        omega

theorem do_make_heap_spec {h : binary_heap T} (w : WF h) :
    ∃ h', do_make_heap h = some h' ∧ WF h' ∧ Same h h' ∧
      (StrictWeakOrder h.m_compare → OrdAll h') := by
  by_cases c : h.m_btree.size > 1
  · obtain ⟨h', e1, w', s', o'⟩ := do_make_heap_loop_spec (h.size / 2) h w (le_refl _)
    refine ⟨h', ?_, w', s', ?_⟩
    · simp only [do_make_heap, if_pos c]
      exact e1
    · intro o
      rw [← ordFrom_one_iff]
      apply o' o
      intro s hs2 hss hk
      omega
  · refine ⟨h, by simp only [do_make_heap, if_neg c], w, Same.refl h, ?_⟩
    intro _
    apply ordAll_of_size_le_one
    simp only [size]
    omega

theorem make_heap_range_spec {h : binary_heap T} (w : WF h) {ids : List Nat}
    (hlt : ∀ i ∈ ids, i < h.m_elements.length) (hnd : ids.Nodup)
    (hno : ∀ i ∈ ids, i ∉ h.m_btree.m_nodes) :
    ∃ h', h.make_heap_range ids = some h' ∧ WF h' ∧
      h'.m_btree.m_nodes.Perm (h.m_btree.m_nodes ++ ids) ∧ h'.m_elements = h.m_elements ∧
      h'.m_compare = h.m_compare ∧ (StrictWeakOrder h.m_compare → OrdAll h') := by
  obtain ⟨h1, e1, w1, sl, el, cm⟩ := push_all_spec ids h w hlt hnd hno
  obtain ⟨h', e2, w2, s2, o2⟩ := do_make_heap_spec w1
  refine ⟨h', ?_, w2, ?_, s2.elements.trans el, s2.compare.trans cm, ?_⟩
  · simp only [make_heap_range, e1, Option.some_bind]
    exact e2
  · rw [← sl]
    exact s2.perm
  · intro o
    exact o2 (cm ▸ o)

theorem make_heap_eq (h : binary_heap T) (n : Nat) :
    h.make_heap n = h.make_heap_range (List.range n) := rfl

theorem make_heap_new_spec (elements : List T) (cmp : T → T → Bool)
    (hN : elements.length < SIZE_MOD) {n : Nat} (hn : n ≤ elements.length) :
    ∃ h', (new elements cmp).make_heap n = some h' ∧ WF h' ∧
      h'.m_btree.m_nodes.Perm (List.range n) ∧ h'.m_elements = elements ∧
      h'.m_compare = cmp ∧ (StrictWeakOrder cmp → OrdAll h') := by
  obtain ⟨h', e1, w', pm, el, cm, od⟩ := @make_heap_range_spec T _ (new_wf elements cmp hN)
    (List.range n) (fun i hi => by
      have := List.mem_range.1 hi
      simp only [new]; omega) (List.nodup_range n) (fun i _ => by simp [new])
  refine ⟨h', e1, w', ?_, el, cm, od⟩
  simpa [new] using pm

/-- In a heap in heap order no id of the heap has a value strictly better than the value of
the id in the root slot. -/
theorem WF.root_best_mem {h : binary_heap T} (w : WF h) (o : StrictWeakOrder h.m_compare)
    (ord : OrdAll h) {e1 : Nat} {rest : List Nat} {r : T}
    (hs : h.m_btree.m_nodes = e1 :: rest) (hr : h.m_elements[e1]? = some r)
    {e : Nat} (he : e ∈ h.m_btree.m_nodes) {x : T} (hx : h.m_elements[e]? = some x) :
    h.m_compare x r = false := by
  obtain ⟨k, hk⟩ := List.mem_iff_getElem?.1 he
  have hkl := (List.getElem?_eq_some.1 hk).1
  have hlt := w.size_lt
  simp only [size, consecutive_binary_tree.size] at hlt
  have hsz : 1 ≤ h.size := by simp [size, consecutive_binary_tree.size, hs]
  refine w.root_best o ord (k + 1) (by omega)
    (by simp only [size, consecutive_binary_tree.size]; omega) x r ?_ ?_
  · rw [key_eq (by omega) (by omega)]
    simp [hk, hx]
  · rw [key_eq (by omega) (by simp [SIZE_MOD])]
    simp [hs, hr]

theorem drain_spec : ∀ (n : Nat) (h : binary_heap T), WF h → h.size = n →
    ∃ out h', drain n h = some (out, h') ∧ WF h' ∧ h'.m_btree.m_nodes = [] ∧
      h'.m_elements = h.m_elements ∧ out.length = n ∧
      (out.map Prod.fst).Perm h.m_btree.m_nodes ∧
      (∀ p ∈ out, h.m_elements[p.1]? = some p.2) ∧
      (StrictWeakOrder h.m_compare → OrdAll h →
        (out.map Prod.snd).Pairwise fun a b => h.m_compare b a = false) := by
  intro n
  induction n with
  | zero =>
    intro h w hsz
    have hs : h.m_btree.m_nodes = [] := by
      simpa [size, consecutive_binary_tree.size] using hsz
    exact ⟨[], h, rfl, w, hs, rfl, rfl, by simp [hs], by simp, fun _ _ => by simp⟩
  | succ n ih =>
    intro h w hsz
    rcases hs : h.m_btree.m_nodes with _ | ⟨r, rest⟩
    · simp [size, consecutive_binary_tree.size, hs] at hsz
    · have hr := w.slot_lt (i := 0) (e := r) (by simp [hs])
      obtain ⟨h1, e1, w1, el1, cm1, _, pm1, od1⟩ := pop_root_spec w
      have pm := pm1 r rest hs
      have hsz1 : h1.size = n := by
        have := pm.length_eq
        simp only [size, consecutive_binary_tree.size, hs, List.length_cons] at hsz ⊢
        omega
      obtain ⟨out, h', e2, w', hs', el', hl, hp, hv, hpw⟩ := ih h1 w1 hsz1
      refine ⟨(r, h.m_elements[r]) :: out, h', ?_, w', hs', el'.trans el1, by simp [hl], ?_,
        ?_, ?_⟩
      · simp [drain, consecutive_binary_tree.root_value, root, hs,
          List.getElem?_eq_getElem hr, e1, e2]
      · simp only [List.map_cons, List.perm_cons]
        exact hp.trans pm
      · intro p hp'
        rcases List.mem_cons.1 hp' with rfl | hp'
        · exact List.getElem?_eq_getElem hr
        · rw [← el1]; exact hv p hp'
      · intro o ord
        simp only [List.map_cons, List.pairwise_cons]
        refine ⟨?_, ?_⟩
        · intro b hb
          obtain ⟨p, hp', rfl⟩ := List.mem_map.1 hb
          have hmem : p.1 ∈ h.m_btree.m_nodes := by
            rw [hs]
            apply List.mem_cons_of_mem
            rw [← pm.mem_iff, ← hp.mem_iff]
            exact List.mem_map.2 ⟨p, hp', rfl⟩
          have hx := hv p hp'
          rw [el1] at hx
          exact w.root_best_mem o ord hs (List.getElem?_eq_getElem hr) hmem hx
        · have := hpw (cm1 ▸ o) (od1 o ord)
          rw [cm1] at this
          exact this

theorem filterMap_range_getElem? {α : Type} (l : List α) :
    (List.range l.length).filterMap (fun i => l[i]?) = l := by
  induction l using List.reverseRecOn with
  | nil => simp
  | append_singleton l a ih =>
    rw [List.length_append, List.length_singleton, List.range_succ, List.filterMap_append]
    congr 1
    · refine Eq.trans ?_ ih
      apply List.filterMap_congr
      intro i hi
      rw [List.mem_range] at hi
      rw [List.getElem?_append_left hi]
    · simp

/-- C4. Heapsort order: for every element sequence and every strict-weak-ordering
comparator, `make_heap(n)` on a fresh heap over the `n` elements followed by `n` rounds of
reading `root()` and calling `pop_root()` returns values `r_1, ..., r_n` with
`compare(r_j, r_i)` false for all `i < j`. -/
theorem heapsort_order (elements : List T) (cmp : T → T → Bool)
    (hN : elements.length < SIZE_MOD) (o : StrictWeakOrder cmp) :
    ∃ out h', ((new elements cmp).make_heap elements.length).bind (drain elements.length)
        = some (out, h') ∧
      out.length = elements.length ∧
      (out.map Prod.snd).Pairwise fun ri rj => cmp rj ri = false := by
  obtain ⟨h1, e1, w1, pm, _, cm, od⟩ := make_heap_new_spec elements cmp hN (le_refl _)
  have hsz : h1.size = elements.length := by
    have := pm.length_eq
    simpa [size, consecutive_binary_tree.size] using this
  obtain ⟨out, h', e2, _, _, _, hl, _, _, hpw⟩ := drain_spec elements.length h1 w1 hsz
  refine ⟨out, h', by rw [e1, Option.some_bind, e2], hl, ?_⟩
  have := hpw (cm ▸ o) (od o)
  rw [cm] at this
  exact this

theorem heapsort_order_witness :
    ∃ out h', ((new [5, 3, 8, 1, 9] less).make_heap [5, 3, 8, 1, 9].length).bind
        (drain [5, 3, 8, 1, 9].length) = some (out, h') ∧
      out.length = [5, 3, 8, 1, 9].length ∧
      (out.map Prod.snd).Pairwise fun ri rj => less rj ri = false :=
  heapsort_order [5, 3, 8, 1, 9] less (by decide) less_swo

/-- C5. Heapsort completeness: after `make_heap(n)` on a fresh heap over `n` elements, the
ids found in the root slot before each of `n` successive `pop_root()` calls are a
permutation of `0, ..., n - 1`, each read value is the element of its id (so the values are
a permutation of the elements), and after the last call the heap is empty and every
node-map entry is nil. -/
theorem heapsort_complete (elements : List T) (cmp : T → T → Bool)
    (hN : elements.length < SIZE_MOD) :
    ∃ out h', ((new elements cmp).make_heap elements.length).bind (drain elements.length)
        = some (out, h') ∧
      (out.map Prod.fst).Perm (List.range elements.length) ∧
      (∀ p ∈ out, elements[p.1]? = some p.2) ∧
      (out.map Prod.snd).Perm elements ∧
      h'.empty = true ∧ h'.size = 0 ∧
      ∀ i, i < elements.length → h'.node i = some handle.nil := by
  obtain ⟨h1, e1, w1, pm, el, _, _⟩ := make_heap_new_spec elements cmp hN (le_refl _)
  have hsz : h1.size = elements.length := by
    have := pm.length_eq
    simpa [size, consecutive_binary_tree.size] using this
  obtain ⟨out, h', e2, w', hs', el', _, hp, hv, _⟩ := drain_spec elements.length h1 w1 hsz
  rw [el] at hv el'
  have hids := hp.trans pm
  refine ⟨out, h', by rw [e1, Option.some_bind, e2], hids, hv, ?_, ?_, ?_, ?_⟩
  · have h1 : out.map Prod.snd = (out.map Prod.fst).filterMap fun i => elements[i]? := by
      rw [List.filterMap_map, ← List.filterMap_eq_map]
      apply List.filterMap_congr
      intro p hp'
      simp [hv p hp']
    rw [h1]
    have := hids.filterMap fun i => elements[i]?
    rwa [filterMap_range_getElem?] at this
  · simp [empty, consecutive_binary_tree.empty, hs']
  · simp [size, consecutive_binary_tree.size, hs']
  · intro i hi
    exact w'.absent_nil (by rw [el']; exact hi) (by simp [hs'])

theorem heapsort_complete_witness :
    ∃ out h', ((new [5, 3, 8, 1, 9] less).make_heap [5, 3, 8, 1, 9].length).bind
        (drain [5, 3, 8, 1, 9].length) = some (out, h') ∧
      (out.map Prod.fst).Perm (List.range [5, 3, 8, 1, 9].length) ∧
      (∀ p ∈ out, [5, 3, 8, 1, 9][p.1]? = some p.2) ∧
      (out.map Prod.snd).Perm [5, 3, 8, 1, 9] ∧
      h'.empty = true ∧ h'.size = 0 ∧
      ∀ i, i < [5, 3, 8, 1, 9].length → h'.node i = some handle.nil :=
  heapsort_complete [5, 3, 8, 1, 9] less (by decide)

theorem with_value_wf {h : binary_heap T} (w : WF h) (id : Nat) (v : T) :
    WF (with_value h id v) := by
  refine ⟨?_, ?_, w.slot_node, ?_⟩
  · simp [with_value, w.nm_len]
  · simpa [with_value] using w.rep
  · intro e he hn
    exact w.absent e (by simpa [with_value] using he) hn

theorem with_value_key_ne {h : binary_heap T} (w : WF h) {id k : Nat} (v : T)
    (hk : h.m_btree.m_nodes[k]? = some id) {s : Nat} (h1 : 1 ≤ s) (h2 : s ≤ h.size)
    (hne : s ≠ k + 1) : key (with_value h id v) s = key h s := by
  have hlt := w.size_lt
  obtain ⟨e, he⟩ := slot_of_le h1 h2
  have hid : id ≠ e := by
    intro c
    subst c
    have a1 := (w.bij k id).1 hk
    have a2 := (w.bij (s - 1) id).1 he
    rw [a1] at a2
    simp at a2
    omega
  rw [key_eq h1 (by omega), key_eq h1 (by omega)]
  simp only [with_value, he, Option.some_bind]
  rw [List.getElem?_set_ne hid]

theorem with_value_key_eq {h : binary_heap T} (w : WF h) {id k : Nat} (v : T)
    (hk : h.m_btree.m_nodes[k]? = some id) : key (with_value h id v) (k + 1) = some v := by
  have hlt := w.size_lt
  have hkl := (List.getElem?_eq_some.1 hk).1
  have hid := w.slot_lt hk
  simp only [size, consecutive_binary_tree.size] at hlt
  rw [key_eq (by omega) (by omega)]
  simp [with_value, hk, hid]

theorem key_of_slot {h : binary_heap T} (w : WF h) {id k : Nat}
    (hk : h.m_btree.m_nodes[k]? = some id) : key h (k + 1) = h.m_elements[id]? := by
  have hlt := w.size_lt
  have hkl := (List.getElem?_eq_some.1 hk).1
  simp only [size, consecutive_binary_tree.size] at hlt
  rw [key_eq (by omega) (by omega)]
  simp [hk]

/-- After an improvement of the value of the id in slot `k + 1`, the state is as
`bubble_up` from that slot expects it. -/
theorem upinv_changed {h : binary_heap T} (w : WF h) (o : StrictWeakOrder h.m_compare)
    (ord : OrdAll h) {id k : Nat} {old v : T} (hk : h.m_btree.m_nodes[k]? = some id)
    (hold : h.m_elements[id]? = some old) (hv : h.m_compare v old = true) :
    UpInv (with_value h id v) (k + 1) := by
  have hkl := (List.getElem?_eq_some.1 hk).1
  have hku : key h (k + 1) = some old := (key_of_slot w hk).trans hold
  have hsz : k + 1 ≤ h.size := by simp only [size, consecutive_binary_tree.size]; omega
  constructor
  · intro s hs2 hss hne
    have hss' : s ≤ h.size := hss
    show NLt h.m_compare _ _
    rw [with_value_key_ne w v hk (by omega) hss' hne]
    by_cases c : s / 2 = k + 1
    · rw [c, with_value_key_eq w v hk]
      have := ord s hs2 hss'
      rw [c, hku] at this
      exact NLt.below o this hv
    · rw [with_value_key_ne w v hk (by omega) (by omega) c]
      exact ord s hs2 hss'
  · intro c hu hcs hc
    have hcs' : c ≤ h.size := hcs
    show NLt h.m_compare _ _
    rw [with_value_key_ne w v hk (by omega) hcs' (by omega),
      with_value_key_ne w v hk (by omega) (by omega) (by omega)]
    exact ordAll_children w o ord hu hcs' hc

/-- After a change of the value of the id in slot `k + 1` that is not an improvement, the
state is as `bubble_down` from that slot expects it. -/
theorem downinv_changed {h : binary_heap T} (w : WF h) (o : StrictWeakOrder h.m_compare)
    (ord : OrdAll h) {id k : Nat} {old v : T} (hk : h.m_btree.m_nodes[k]? = some id)
    (hold : h.m_elements[id]? = some old) (hv : h.m_compare v old = false) :
    DownInv (with_value h id v) (k + 1) 0 := by
  have hkl := (List.getElem?_eq_some.1 hk).1
  have hku : key h (k + 1) = some old := (key_of_slot w hk).trans hold
  have hsz : k + 1 ≤ h.size := by simp only [size, consecutive_binary_tree.size]; omega
  refine ⟨Nat.zero_le _, ?_, ?_⟩
  · intro s hs2 hss _ hne
    have hss' : s ≤ h.size := hss
    show NLt h.m_compare _ _
    rw [with_value_key_ne w v hk (by omega) (by omega) hne]
    by_cases c : s = k + 1
    · rw [c, with_value_key_eq w v hk]
      have := ord s hs2 hss'
      rw [c, hku] at this
      exact NLt.chain o rfl (NLt.of_not hv) this
    · rw [with_value_key_ne w v hk (by omega) hss' c]
      exact ord s hs2 hss'
  · intro c hu _ hcs hc
    have hcs' : c ≤ h.size := hcs
    show NLt h.m_compare _ _
    rw [with_value_key_ne w v hk (by omega) hcs' (by omega),
      with_value_key_ne w v hk (by omega) (by omega) (by omega)]
    exact ordAll_children w o ord hu hcs' hc

theorem update_up_inv_spec {h : binary_heap T} (w : WF h) {idx k : Nat}
    (hk : h.m_btree.m_nodes[k]? = some idx) :
    ∃ h', h.update_up idx = some h' ∧ WF h' ∧ Same h h' ∧
      (StrictWeakOrder h.m_compare → UpInv h (k + 1) → OrdAll h') := by
  have hnm := (w.bij k idx).1 hk
  have hi := w.slot_lt hk
  have hks := (List.getElem?_eq_some.1 hk).1
  simp only [update_up, hnm, List.getElem?_eq_getElem hi, Option.some_bind]
  obtain ⟨h', e1, w', s', o'⟩ := bubble_up_loop_spec (h.m_elements[idx]) (h.size + 1) h (k + 1)
    w (by simp only [size, consecutive_binary_tree.size]; omega)
    (by simp only [size, consecutive_binary_tree.size]; omega)
  refine ⟨h', e1, w', s', fun o inv => o' o ?_ inv⟩
  rw [key_of_slot w hk, List.getElem?_eq_getElem hi]

theorem update_down_inv_spec {h : binary_heap T} (w : WF h) {idx k : Nat}
    (hk : h.m_btree.m_nodes[k]? = some idx) :
    ∃ h', h.update_down idx = some h' ∧ WF h' ∧ Same h h' ∧
      (StrictWeakOrder h.m_compare → DownInv h (k + 1) 0 → OrdAll h') := by
  have hnm := (w.bij k idx).1 hk
  have hi := w.slot_lt hk
  have hks := (List.getElem?_eq_some.1 hk).1
  simp only [update_down, hnm, List.getElem?_eq_getElem hi, Option.some_bind]
  obtain ⟨h', e1, w', s', o'⟩ := bubble_down_loop_spec (h.m_elements[idx]) (h.size + 1) h
    (k + 1) (h.size / 2) w (by omega) (by simp only [size, consecutive_binary_tree.size]; omega)
    (by omega) rfl
  refine ⟨h', e1, w', s', fun o inv => ordFrom_zero_iff.1 (o' 0 o ?_ inv)⟩
  rw [key_of_slot w hk, List.getElem?_eq_getElem hi]

theorem update_element_eq {h : binary_heap T} {idx : Nat} {old : T} (v : T)
    (hold : h.m_elements[idx]? = some old) :
    update_element h idx v =
      if h.m_compare v old = true then (with_value h idx v).update_up idx
      else (with_value h idx v).update_down idx := by
  have hl := (List.getElem?_eq_some.1 hold).1
  simp [update_element, hold, vec_set, hl, with_value, compare]

/-- When `e` is strictly better than every value above slot `u`, the loop of `bubble_up`
carries the id of slot `u` to the root slot. -/
theorem bubble_up_loop_top (e : T) : ∀ (fuel : Nat) (h : binary_heap T) (u id : Nat),
    WF h → u < fuel → 1 ≤ u → u ≤ h.size → h.m_btree.m_nodes[u - 1]? = some id →
    (∀ s, 1 ≤ s → s < u → ∀ x, key h s = some x → h.m_compare e x = true) →
    ∃ h', bubble_up_loop e fuel h ⟨u⟩ = some h' ∧ h'.m_btree.m_nodes[0]? = some id := by
  intro fuel
  induction fuel with
  | zero => intro h u id _ hf; omega
  | succ fuel ih =>
    intro h u id w hf hu1 hus hui hbest
    rw [bubble_up_loop]
    by_cases hu : 2 ≤ u
    · have hnr : h.m_btree.is_non_root ⟨u⟩ = true := by
        simp only [consecutive_binary_tree.is_non_root, decide_eq_true_eq]; omega
      obtain ⟨pe, hpe⟩ := w.key_some (s := u / 2) (by omega) (by omega)
      have hpe' : h.get_by_node (h.m_btree.parent ⟨u⟩) = some pe := hpe
      have hc : h.compare e pe = true := hbest (u / 2) (by omega) (by omega) pe hpe
      obtain ⟨pi, hpi⟩ := slot_of_le (h := h) (s := u / 2) (by omega) (by omega)
      have hsw := swap_eq w (by omega) (by omega) hui hpi
      have hsw' : h.swap ⟨u⟩ (h.m_btree.parent ⟨u⟩) = _ := hsw
      simp only [hnr, if_true, hpe', Option.some_bind, hc, hsw']
      apply ih (swapped h u (u / 2) id pi) (u / 2) id
        (swapped_wf w (by omega) (by omega) (by omega) hui hpi) (by omega) (by omega)
        (by rw [swapped_size]; omega)
      · rw [swapped_slot hui hpi, if_pos rfl]
      · intro s hs1 hsu x hx
        rw [swapped_key w (by omega) (by omega) hui hpi hs1 (by omega),
          if_neg (show ¬ s = u / 2 by omega), if_neg (show ¬ s = u by omega)] at hx
        exact hbest s hs1 (by omega) x hx
    · have hnr : h.m_btree.is_non_root ⟨u⟩ = false := by
        simp only [consecutive_binary_tree.is_non_root, decide_eq_false_iff_not]; omega
      simp only [hnr]
      have : u = 1 := by omega
      subst this
      exact ⟨h, by simp, hui⟩

/-- C14. The call `update_up` repairs an improvement: in a heap that satisfies heap order
and the bijection with respect to the elements `E`, under a strict-weak-ordering
comparator, let `id` be in the heap and let `E'` equal `E` except `E'[id] = v` with
`compare(v, E[id])` true.  Then `update_up(id)` evaluated over `E'` returns a state in heap
order with respect to `E'` in which the bijection still holds. -/
theorem update_up_repairs (h : binary_heap T) (w : WF h) (ho : heap_order h)
    (o : StrictWeakOrder h.m_compare) (id : Nat) (hin : h.in_heap id = some true)
    (old v : T) (hold : h.m_elements[id]? = some old) (hv : h.compare v old = true) :
    ∃ h', (with_value h id v).update_up id = some h' ∧
      h'.m_elements = h.m_elements.set id v ∧ heap_order h' ∧ bijection h' := by
  obtain ⟨k, _, hk⟩ := in_heap_slot w hin
  obtain ⟨h', e1, w', s', o'⟩ :=
    @update_up_inv_spec T _ (with_value_wf w id v) id k hk
  refine ⟨h', e1, s'.elements, (heap_order_iff w').2 ?_, w'.bijection⟩
  exact o' o (upinv_changed w o ((heap_order_iff w).1 ho) hk hold hv)

theorem update_up_repairs_witness :
    ∃ h', (with_value example_heap 1 0).update_up 1 = some h' ∧
      h'.m_elements = example_heap.m_elements.set 1 0 ∧ heap_order h' ∧ bijection h' :=
  update_up_repairs example_heap example_heap_wf example_heap_order less_swo 1 (by decide)
    3 0 (by decide) (by decide)

/-- C15. A call of `update_element` that worsens a value never violates heap order: in a
heap that satisfies heap order and the bijection, under a strict-weak-ordering comparator,
for an id in the heap and a new value `v` with `compare(old value, v)` true,
`update_element(elements, heap, id, v)` writes `v`, dispatches to `update_down` and returns
a state in heap order with respect to the updated elements. -/
theorem update_element_worsen (h : binary_heap T) (w : WF h) (ho : heap_order h)
    (o : StrictWeakOrder h.m_compare) (id : Nat) (hin : h.in_heap id = some true)
    (old v : T) (hold : h.m_elements[id]? = some old) (hv : h.compare old v = true) :
    ∃ h', update_element h id v = some h' ∧
      update_element h id v = (with_value h id v).update_down id ∧
      h'.m_elements = h.m_elements.set id v ∧ heap_order h' ∧ bijection h' := by
  have hv' : h.m_compare v old = false := o.asymm hv
  obtain ⟨k, _, hk⟩ := in_heap_slot w hin
  obtain ⟨h', e1, w', s', o'⟩ :=
    @update_down_inv_spec T _ (with_value_wf w id v) id k hk
  have he : update_element h id v = (with_value h id v).update_down id := by
    rw [update_element_eq v hold, hv']
    simp
  refine ⟨h', he.trans e1, he, s'.elements, (heap_order_iff w').2 ?_, w'.bijection⟩
  exact o' o (downinv_changed w o ((heap_order_iff w).1 ho) hk hold hv')

theorem update_element_worsen_witness :
    ∃ h', update_element example_heap 3 7 = some h' ∧
      update_element example_heap 3 7 = (with_value example_heap 3 7).update_down 3 ∧
      h'.m_elements = example_heap.m_elements.set 3 7 ∧ heap_order h' ∧ bijection h' :=
  update_element_worsen example_heap example_heap_wf example_heap_order less_swo 3
    (by decide) 1 7 (by decide) (by decide)

/-- C16. A call of `update_element` brings a new global best to the root: in a well-formed
heap, for an id in the heap and a new value `v` with `compare(v, old value)` true and
`compare(v, elements[e])` true for every other id `e` in the heap, after
`update_element(elements, heap, id, v)` the root slot holds `id`, `node(id)` is the root
handle and `root()` returns `v`. -/
theorem update_element_new_best (h : binary_heap T) (w : WF h) (id : Nat)
    (hin : h.in_heap id = some true) (old v : T) (hold : h.m_elements[id]? = some old)
    (hv : h.compare v old = true)
    (hbest : ∀ e, e ≠ id → h.in_heap e = some true →
      ∀ x, h.m_elements[e]? = some x → h.compare v x = true) :
    ∃ h', update_element h id v = some h' ∧ h'.m_btree.get ⟨1⟩ = some id ∧
      h'.m_btree.root_value = some id ∧ h'.node id = some ⟨1⟩ ∧ h'.root = some v := by
  obtain ⟨k, hnm, hk⟩ := in_heap_slot w hin
  have w1 := with_value_wf w id v
  have hkl := (List.getElem?_eq_some.1 hk).1
  have hid := w.slot_lt hk
  have hv' : h.m_compare v old = true := hv
  obtain ⟨h', e1, w', s', _⟩ := @update_up_inv_spec T _ w1 id k hk
  have he : update_element h id v = some h' := by
    rw [update_element_eq v hold, if_pos hv']
    exact e1
  have hv1 : (with_value h id v).m_elements[id]? = some v := by
    simp [with_value, hid]
  obtain ⟨h'', e2, hroot⟩ := bubble_up_loop_top v ((with_value h id v).size + 1)
    (with_value h id v) (k + 1) id w1
    (by simp only [with_value, size, consecutive_binary_tree.size]; omega) (by omega)
    (by simp only [with_value, size, consecutive_binary_tree.size]; omega)
    (by simpa using hk)
    (by
      intro s hs1 hsk x hx
      have hss : s ≤ h.size := by simp only [size, consecutive_binary_tree.size]; omega
      rw [with_value_key_ne w v hk hs1 hss (by omega)] at hx
      obtain ⟨e, hse⟩ := slot_of_le hs1 hss
      have hne : e ≠ id := by
        intro c
        subst c
        have a2 := (w.bij (s - 1) e).1 hse
        rw [hnm] at a2
        simp at a2
        omega
      have hx' : h.m_elements[e]? = some x := by
        have := key_of_slot w hse
        rw [Nat.sub_add_cancel hs1] at this
        rw [← this]; exact hx
      exact hbest e hne (w.mem_iff.1 (List.mem_iff_getElem?.2 ⟨_, hse⟩)) x hx')
  have e3 : (with_value h id v).update_up id = some h'' := by
    simp only [update_up, (show (with_value h id v).m_node_map[id]? = some ⟨k + 1⟩ from hnm),
      hv1, Option.some_bind]
    exact e2
  have heq : h'' = h' := Option.some.inj (e3.symm.trans e1)
  subst heq
  have hel : h''.m_elements[id]? = some v := by rw [s'.elements]; exact hv1
  refine ⟨h'', he, ?_, ?_, ?_, ?_⟩
  · rw [tree_get_eq _ (by omega) (by simp [SIZE_MOD])]
    exact hroot
  · rw [consecutive_binary_tree.root_value, List.head?_eq_getElem?]
    exact hroot
  · exact (w'.bij 0 id).1 hroot
  · simp [root, consecutive_binary_tree.root_value, List.head?_eq_getElem?, hroot, hel]

theorem update_element_new_best_witness :
    ∃ h', update_element example_heap 0 0 = some h' ∧ h'.m_btree.get ⟨1⟩ = some 0 ∧
      h'.m_btree.root_value = some 0 ∧ h'.node 0 = some ⟨1⟩ ∧ h'.root = some 0 :=
  update_element_new_best example_heap example_heap_wf 0 (by decide) 5 0 (by decide)
    (by decide) (by
      intro e hne hin x hx
      rcases e with _ | _ | _ | _ | _ | e
      · exact absurd rfl hne
      · simp [example_heap] at hx; subst hx; decide
      · simp [example_heap, in_heap, handle.non_nil] at hin
      · simp [example_heap] at hx; subst hx; decide
      · simp [example_heap, in_heap, handle.non_nil] at hin
      · simp [example_heap, in_heap] at hin)

theorem WF.in_heap_iff_mem {h : binary_heap T} (w : WF h) (e : Nat) :
    h.in_heap e = some true ↔ e ∈ h.m_btree.m_nodes :=
  w.mem_iff.symm

/-- C11. The call `make_heap(n)` builds a valid heap: for every element sequence of length
`N`, every `n <= N` and every strict-weak-ordering comparator, `make_heap(n)` on a fresh
heap returns a state with `size() == n`, with `in_heap(i)` true exactly for the `i` below
`n`, and in which heap order and the bijection hold. -/
theorem make_heap_valid (elements : List T) (cmp : T → T → Bool)
    (hN : elements.length < SIZE_MOD) (o : StrictWeakOrder cmp) (n : Nat)
    (hn : n ≤ elements.length) :
    ∃ h', (new elements cmp).make_heap n = some h' ∧ h'.size = n ∧
      (∀ i, h'.in_heap i = some true ↔ i < n) ∧ heap_order h' ∧ bijection h' := by
  obtain ⟨h', e1, w', pm, _, cm, od⟩ := make_heap_new_spec elements cmp hN hn
  refine ⟨h', e1, ?_, ?_, (heap_order_iff w').2 (od o), w'.bijection⟩
  · have := pm.length_eq
    simpa [size, consecutive_binary_tree.size] using this
  · intro i
    rw [w'.in_heap_iff_mem, pm.mem_iff, List.mem_range]

theorem make_heap_valid_witness :
    ∃ h', (new [5, 3, 8, 1, 9] less).make_heap 4 = some h' ∧ h'.size = 4 ∧
      (∀ i, h'.in_heap i = some true ↔ i < 4) ∧ heap_order h' ∧ bijection h' :=
  make_heap_valid [5, 3, 8, 1, 9] less (by decide) less_swo 4 (by decide)

/-- C12, as amended. The call `make_heap(first, last)` over an arbitrary id range: for every
list of pairwise distinct ids below `N` and every strict-weak-ordering comparator, on a
fresh heap it returns a state with `size()` equal to the length of the list, with
`in_heap(i)` true exactly for the listed ids, and in which heap order and the bijection
hold. -/
theorem make_heap_range_valid (elements : List T) (cmp : T → T → Bool)
    (hN : elements.length < SIZE_MOD) (o : StrictWeakOrder cmp) (ids : List Nat)
    (hnd : ids.Nodup) (hlt : ∀ i ∈ ids, i < elements.length) :
    ∃ h', (new elements cmp).make_heap_range ids = some h' ∧ h'.size = ids.length ∧
      (∀ i, h'.in_heap i = some true ↔ i ∈ ids) ∧ heap_order h' ∧ bijection h' := by
  obtain ⟨h', e1, w', pm, _, cm, od⟩ := @make_heap_range_spec T _ (new_wf elements cmp hN)
    ids hlt hnd (fun i _ => by simp [new])
  have pm' : h'.m_btree.m_nodes.Perm ids := by simpa [new] using pm
  refine ⟨h', e1, ?_, ?_, (heap_order_iff w').2 (od o), w'.bijection⟩
  · have := pm'.length_eq
    simpa [size, consecutive_binary_tree.size] using this
  · intro i
    rw [w'.in_heap_iff_mem, pm'.mem_iff]

theorem make_heap_range_valid_witness :
    ∃ h', (new [5, 3, 8, 1, 9] less).make_heap_range [4, 0, 3] = some h' ∧
      h'.size = [4, 0, 3].length ∧
      (∀ i, h'.in_heap i = some true ↔ i ∈ [4, 0, 3]) ∧ heap_order h' ∧ bijection h' :=
  make_heap_range_valid [5, 3, 8, 1, 9] less (by decide) less_swo [4, 0, 3] (by decide)
    (by decide)

/-- C13. Construction: a heap constructed over `N` elements without a build has a node map
of length `N` with every entry nil, `size() == 0` and `empty()` true; the constructor with
`do_makeheap == true` gives the state of constructing without a build and then calling
`make_heap(N)`, which has size `N` and every id below `N` in the heap. -/
theorem construction (elements : List T) (cmp : T → T → Bool)
    (hN : elements.length < SIZE_MOD) :
    (new elements cmp).m_node_map.length = elements.length ∧
    (∀ i, i < elements.length → (new elements cmp).node i = some handle.nil) ∧
    (∀ x ∈ (new elements cmp).m_node_map, x = handle.nil) ∧
    (new elements cmp).size = 0 ∧ (new elements cmp).empty = true ∧
    new_make elements false cmp = some (new elements cmp) ∧
    new_make elements true cmp = (new elements cmp).make_heap elements.length ∧
    ∃ h', new_make elements true cmp = some h' ∧ h'.size = elements.length ∧
      ∀ i, i < elements.length → h'.in_heap i = some true := by
  refine ⟨by simp [new, init_node_map], ?_, ?_, by simp [new, size, consecutive_binary_tree.size],
    by simp [new, empty, consecutive_binary_tree.empty], by simp [new_make],
    by simp [new_make], ?_⟩
  · intro i hi
    simp [new, init_node_map, node, hi]
  · intro x hx
    simp only [new, init_node_map] at hx
    exact (List.mem_replicate.1 hx).2
  · obtain ⟨h', e1, w', pm, _, _, _⟩ := make_heap_new_spec elements cmp hN (le_refl _)
    refine ⟨h', by simpa [new_make] using e1, ?_, ?_⟩
    · have := pm.length_eq
      simpa [size, consecutive_binary_tree.size] using this
    · intro i hi
      rw [w'.in_heap_iff_mem, pm.mem_iff, List.mem_range]
      exact hi

theorem construction_witness :
    (new [5, 3, 8, 1, 9] less).m_node_map.length = [5, 3, 8, 1, 9].length ∧
    (∀ i, i < [5, 3, 8, 1, 9].length → (new [5, 3, 8, 1, 9] less).node i = some handle.nil) ∧
    (∀ x ∈ (new [5, 3, 8, 1, 9] less).m_node_map, x = handle.nil) ∧
    (new [5, 3, 8, 1, 9] less).size = 0 ∧ (new [5, 3, 8, 1, 9] less).empty = true ∧
    new_make [5, 3, 8, 1, 9] false less = some (new [5, 3, 8, 1, 9] less) ∧
    new_make [5, 3, 8, 1, 9] true less =
      (new [5, 3, 8, 1, 9] less).make_heap [5, 3, 8, 1, 9].length ∧
    ∃ h', new_make [5, 3, 8, 1, 9] true less = some h' ∧ h'.size = [5, 3, 8, 1, 9].length ∧
      ∀ i, i < [5, 3, 8, 1, 9].length → h'.in_heap i = some true :=
  construction [5, 3, 8, 1, 9] less (by decide)

/-- C17. The calls `update_up` and `update_down` never change presence: on a well-formed
heap, for an id in the heap and arbitrary element values and comparator, each of
`update_up(id)` and `update_down(id)` returns a state of the same size whose slot sequence
is a permutation of the old one and in which `in_heap(e)` is as before for every id `e`
below `N`. -/
theorem update_keeps_presence (h : binary_heap T) (w : WF h) (id : Nat)
    (hin : h.in_heap id = some true) :
    (∃ h', h.update_up id = some h' ∧ h'.size = h.size ∧
      h'.m_btree.m_nodes.Perm h.m_btree.m_nodes ∧
      ∀ e, e < h.m_elements.length → h'.in_heap e = h.in_heap e) ∧
    (∃ h', h.update_down id = some h' ∧ h'.size = h.size ∧
      h'.m_btree.m_nodes.Perm h.m_btree.m_nodes ∧
      ∀ e, e < h.m_elements.length → h'.in_heap e = h.in_heap e) := by
  have frame : ∀ h', WF h' → Same h h' →
      ∀ e, e < h.m_elements.length → h'.in_heap e = h.in_heap e := by
    intro h' w' s' e he
    rw [w'.in_heap_eq (by rw [s'.elements]; exact he), w.in_heap_eq he]
    congr 1
    rw [decide_eq_decide, s'.perm.mem_iff]
  constructor
  · obtain ⟨h', e1, w', s', _⟩ := update_up_spec w hin
    exact ⟨h', e1, s'.size, s'.perm, frame h' w' s'⟩
  · obtain ⟨h', e1, w', s', _⟩ := update_down_spec w hin
    exact ⟨h', e1, s'.size, s'.perm, frame h' w' s'⟩

theorem update_keeps_presence_witness :
    (∃ h', (with_value example_heap 1 0).update_up 1 = some h' ∧
      h'.size = (with_value example_heap 1 0).size ∧
      h'.m_btree.m_nodes.Perm (with_value example_heap 1 0).m_btree.m_nodes ∧
      ∀ e, e < (with_value example_heap 1 0).m_elements.length →
        h'.in_heap e = (with_value example_heap 1 0).in_heap e) ∧
    (∃ h', (with_value example_heap 1 0).update_down 1 = some h' ∧
      h'.size = (with_value example_heap 1 0).size ∧
      h'.m_btree.m_nodes.Perm (with_value example_heap 1 0).m_btree.m_nodes ∧
      ∀ e, e < (with_value example_heap 1 0).m_elements.length →
        h'.in_heap e = (with_value example_heap 1 0).in_heap e) :=
  update_keeps_presence (with_value example_heap 1 0) (with_value_wf example_heap_wf 1 0) 1
    (by decide)

/-- C18. The example of the specification, build and drain: for the elements
`[5, 3, 8, 1, 9]` with the comparator `a < b`, `make_heap` over the ids `0..4` on a fresh
heap gives `root() == 1` with id 3 in the root slot, and five successive rounds of `root()`
and `pop_root()` yield the values 1, 3, 5, 8, 9 in that order. -/
theorem example_build_and_drain :
    ((new [5, 3, 8, 1, 9] less).make_heap 5).bind root = some 1 ∧
    (((new [5, 3, 8, 1, 9] less).make_heap 5).bind fun h => h.m_btree.root_value) = some 3 ∧
    (((new [5, 3, 8, 1, 9] less).make_heap 5).bind (drain 5)).map
      (fun p => p.1.map Prod.snd) = some [1, 3, 5, 8, 9] := by
  decide

theorem example_heap_down_broken : ¬ heap_order (with_value example_heap 0 0) := by
  intro ho
  obtain ⟨x, y, hx, hy, hc⟩ := ho 2 (by decide) (by decide)
  have h1 : (with_value example_heap 0 0).get_by_node ⟨2⟩ = some 0 := by decide
  have h2 : (with_value example_heap 0 0).get_by_node ⟨2 / 2⟩ = some 1 := by decide
  rw [h1] at hx
  rw [h2] at hy
  have e1 : x = 0 := (Option.some.inj hx).symm
  have e2 : y = 1 := (Option.some.inj hy).symm
  subst e1 e2
  exact absurd hc (by decide)

theorem example_heap_up_broken : ¬ heap_order (with_value example_heap 3 7) := by
  intro ho
  obtain ⟨x, y, hx, hy, hc⟩ := ho 2 (by decide) (by decide)
  have h1 : (with_value example_heap 3 7).get_by_node ⟨2⟩ = some 5 := by decide
  have h2 : (with_value example_heap 3 7).get_by_node ⟨2 / 2⟩ = some 7 := by decide
  rw [h1] at hx
  rw [h2] at hy
  have e1 : x = 5 := (Option.some.inj hx).symm
  have e2 : y = 7 := (Option.some.inj hy).symm
  subst e1 e2
  exact absurd hc (by decide)

/-- C20. Calling the wrong direction silently fails to repair: there are a heap satisfying
all invariants, an id in the heap and a new value of strictly higher priority than the old
one such that, after the value is written and `update_down(id)` is called, the slot
sequence and the node map are unchanged and heap order is violated; and there are a heap,
an id and a new value of strictly lower priority for which `update_up(id)` returns with the
state unchanged and heap order violated. -/
theorem wrong_direction_fails :
    (∃ (h : binary_heap Nat) (id old v : Nat), WF h ∧ heap_order h ∧ bijection h ∧
      h.in_heap id = some true ∧ h.m_elements[id]? = some old ∧ h.compare v old = true ∧
      ∃ h', (with_value h id v).update_down id = some h' ∧
        h'.m_btree.m_nodes = h.m_btree.m_nodes ∧ h'.m_node_map = h.m_node_map ∧
        ¬ heap_order h') ∧
    (∃ (h : binary_heap Nat) (id old v : Nat), WF h ∧ heap_order h ∧ bijection h ∧
      h.in_heap id = some true ∧ h.m_elements[id]? = some old ∧ h.compare old v = true ∧
      ∃ h', (with_value h id v).update_up id = some h' ∧
        h'.m_btree.m_nodes = h.m_btree.m_nodes ∧ h'.m_node_map = h.m_node_map ∧
        ¬ heap_order h') :=
  ⟨⟨example_heap, 0, 5, 0, example_heap_wf, example_heap_order, example_heap_wf.bijection,
      by decide, by decide, by decide, with_value example_heap 0 0, rfl, rfl, rfl,
      example_heap_down_broken⟩,
    ⟨example_heap, 3, 1, 7, example_heap_wf, example_heap_order, example_heap_wf.bijection,
      by decide, by decide, by decide, with_value example_heap 3 7, rfl, rfl, rfl,
      example_heap_up_broken⟩⟩

/-- The handle `2^63 + 1` in a tree of two slots: `id << 1` wraps to 2, so `left_child`
returns the handle 2 and `right_child` returns nil, where the specification gives nil for
both since `2 * h.id` exceeds the size. -/
theorem child_spec_wraps :
    (consecutive_binary_tree.mk [0, 1]).left_child ⟨9223372036854775809⟩ = ⟨2⟩ ∧
    ¬ child_spec (consecutive_binary_tree.mk [0, 1]) ⟨9223372036854775809⟩ := by
  refine ⟨by decide, ?_⟩
  intro hs
  have h1 := hs.1
  have h2 : (consecutive_binary_tree.mk [0, 1]).left_child ⟨9223372036854775809⟩
      = ⟨2⟩ := by decide
  rw [h2] at h1
  simp [consecutive_binary_tree.size, handle.nil] at h1

/-- C24, as amended. Child handles of the tree index: for every tree of size `n` and every
handle `h` with `h.id < 2^63` (so that `2 * h.id + 1` is a `size_type` value),
`left_child(h)` is the handle `2 * h.id` if `2 * h.id <= n` and nil otherwise,
`right_child(h)` is the handle `2 * h.id + 1` if `2 * h.id < n` and nil otherwise, and every
non-nil child handle returned lies in `1..n`. -/
theorem child_handles {A : Type} (t : consecutive_binary_tree A) (h : handle)
    (hb : h.id < SIZE_MOD / 2) : child_spec t h := by
  have e1 : h.id * 2 % SIZE_MOD = 2 * h.id := by
    simp only [SIZE_MOD] at *; omega
  have e2 : (2 * h.id + 1) % SIZE_MOD = 2 * h.id + 1 := by
    simp only [SIZE_MOD] at *; omega
  have l : t.left_child h = (if 2 * h.id ≤ t.size then ⟨2 * h.id⟩ else handle.nil) := by
    simp only [consecutive_binary_tree.left_child, e1, handle.nil]
  have r : t.right_child h = (if 2 * h.id < t.size then ⟨2 * h.id + 1⟩ else handle.nil) := by
    simp only [consecutive_binary_tree.right_child, e1, e2, handle.nil]
  refine ⟨l, r, ?_, ?_⟩
  · rw [l]
    split_ifs with c
    · simp only [handle.non_nil, decide_eq_true_eq]
      intro hp
      exact ⟨hp, c⟩
    · simp [handle.non_nil, handle.nil]
  · rw [r]
    split_ifs with c
    · simp only [handle.non_nil, decide_eq_true_eq]
      intro _
      omega
    · simp [handle.non_nil, handle.nil]

theorem child_handles_witness :
    child_spec (consecutive_binary_tree.mk [3, 0, 1]) ⟨1⟩ :=
  child_handles (consecutive_binary_tree.mk [3, 0, 1]) ⟨1⟩ (by decide)

/-- For every handle, wrapped or not, `get_children` returns the pair of the single-child
queries. -/
theorem get_children_eq_pair {A : Type} (t : consecutive_binary_tree A) (h : handle) :
    t.get_children h = (t.left_child h, t.right_child h) := by
  simp only [consecutive_binary_tree.get_children, consecutive_binary_tree.left_child,
    consecutive_binary_tree.right_child]
  by_cases c1 : h.id * 2 % SIZE_MOD > t.size
  · rw [if_pos c1, if_neg (show ¬ h.id * 2 % SIZE_MOD ≤ t.size by omega),
      if_neg (show ¬ h.id * 2 % SIZE_MOD < t.size by omega)]
  · rw [if_neg c1, if_pos (show h.id * 2 % SIZE_MOD ≤ t.size by omega)]
    by_cases c2 : h.id * 2 % SIZE_MOD = t.size
    · rw [if_pos c2, if_neg (show ¬ h.id * 2 % SIZE_MOD < t.size by omega)]
    · rw [if_neg c2, if_pos (show h.id * 2 % SIZE_MOD < t.size by omega)]

/-- The handle `2^63` in a tree of two slots: `id << 1` wraps to 0, so `get_children` returns
the nil handle as left child and the handle 1 as right child, although `h` is a leaf. -/
theorem children_spec_wraps :
    (consecutive_binary_tree.mk [0, 1]).get_children ⟨9223372036854775808⟩ = (⟨0⟩, ⟨1⟩) ∧
    ¬ children_spec (consecutive_binary_tree.mk [0, 1]) ⟨9223372036854775808⟩ := by
  have h2 : (consecutive_binary_tree.mk [0, 1]).get_children ⟨9223372036854775808⟩
      = (⟨0⟩, ⟨1⟩) := by decide
  refine ⟨h2, ?_⟩
  intro hs
  have h1 := hs.2.2.2.2 (by decide)
  rw [h2] at h1
  simp [handle.non_nil] at h1

/-- C25, as amended. The result of `get_children` agrees with the single-child queries for
every handle; and for every handle `h` with `h.id < 2^63` the result is nil/nil when `h` is
a leaf, `(2h, nil)` when only the left child exists, and `(2h, 2h + 1)` otherwise, and for
`h.id >= 1` the right child is not non-nil while the left child is nil. -/
theorem get_children_agrees {A : Type} (t : consecutive_binary_tree A) (h : handle)
    (hb : h.id < SIZE_MOD / 2) : children_spec t h := by
  have e1 : h.id * 2 % SIZE_MOD = 2 * h.id := by
    simp only [SIZE_MOD] at *; omega
  have e2 : (2 * h.id + 1) % SIZE_MOD = 2 * h.id + 1 := by
    simp only [SIZE_MOD] at *; omega
  have g : t.get_children h =
      if 2 * h.id > t.size then (⟨0⟩, ⟨0⟩)
      else if 2 * h.id = t.size then (⟨2 * h.id⟩, ⟨0⟩)
      else (⟨2 * h.id⟩, ⟨2 * h.id + 1⟩) := by
    simp only [consecutive_binary_tree.get_children, e1, e2]
  refine ⟨get_children_eq_pair t h, ?_, ?_, ?_, ?_⟩
  · intro c
    rw [g, if_pos c]; rfl
  · intro c
    rw [g, if_neg (show ¬ 2 * h.id > t.size by omega), if_pos c]; rfl
  · intro c
    rw [g, if_neg (show ¬ 2 * h.id > t.size by omega),
      if_neg (show ¬ 2 * h.id = t.size by omega)]
  · intro h1
    rw [g]
    split_ifs with c1 c2
    · simp [handle.non_nil]
    · simp [handle.non_nil]
    · simp only [handle.non_nil, decide_eq_true_eq]
      intro _
      omega

theorem get_children_agrees_witness :
    children_spec (consecutive_binary_tree.mk [3, 0, 1]) ⟨1⟩ :=
  get_children_agrees (consecutive_binary_tree.mk [3, 0, 1]) ⟨1⟩ (by decide)

/-- C26. The handle `last_parent()` is the last node with a child: for every tree of size
`n` (a vector, so `n < 2^63`), `last_parent()` is the handle `n / 2`, and for every handle
`h` with `1 <= h.id <= n`, `left_child(h)` is non-nil iff `h.id <= last_parent().id`. -/
theorem last_parent_is_last {A : Type} (t : consecutive_binary_tree A)
    (hs : t.size < SIZE_MOD / 2) :
    t.last_parent = ⟨t.size / 2⟩ ∧
    ∀ h : handle, 1 ≤ h.id → h.id ≤ t.size →
      ((t.left_child h).non_nil = true ↔ h.id ≤ t.last_parent.id) := by
  refine ⟨rfl, ?_⟩
  intro h h1 h2
  have e1 : h.id * 2 % SIZE_MOD = 2 * h.id := by
    simp only [SIZE_MOD] at *; omega
  simp only [consecutive_binary_tree.left_child, e1, consecutive_binary_tree.last_parent]
  split_ifs with c
  · simp only [handle.non_nil, decide_eq_true_eq]
    omega
  · simp only [handle.non_nil]
    simp
    omega

theorem last_parent_is_last_witness :
    (consecutive_binary_tree.mk [3, 0, 1, 4, 2]).last_parent
      = ⟨(consecutive_binary_tree.mk [3, 0, 1, 4, 2]).size / 2⟩ ∧
    ∀ h : handle, 1 ≤ h.id → h.id ≤ (consecutive_binary_tree.mk [3, 0, 1, 4, 2]).size →
      (((consecutive_binary_tree.mk [3, 0, 1, 4, 2]).left_child h).non_nil = true ↔
        h.id ≤ (consecutive_binary_tree.mk [3, 0, 1, 4, 2]).last_parent.id) :=
  last_parent_is_last (consecutive_binary_tree.mk [3, 0, 1, 4, 2]) (by decide)

/-- C23. The call `root()` is defined exactly on non-empty heaps: on a well-formed heap
`root()` yields a value iff `size() > 0`; on an empty heap it reads the front of an empty
slot sequence, which is the `none` result of the embedding (`root()` is a query and returns
no state). -/
theorem root_defined_iff (h : binary_heap T) (w : WF h) :
    ((∃ x, h.root = some x) ↔ 0 < h.size) ∧
    (h.size = 0 → h.m_btree.root_value = none ∧ h.root = none) := by
  rcases hs : h.m_btree.m_nodes with _ | ⟨r, rest⟩
  · simp [root, consecutive_binary_tree.root_value, size, consecutive_binary_tree.size, hs]
  · have hr := w.slot_lt (i := 0) (e := r) (by simp [hs])
    simp [root, consecutive_binary_tree.root_value, size, consecutive_binary_tree.size, hs,
      List.getElem?_eq_getElem hr]

theorem root_defined_iff_witness :
    ((∃ x, example_heap.root = some x) ↔ 0 < example_heap.size) ∧
    (example_heap.size = 0 →
      example_heap.m_btree.root_value = none ∧ example_heap.root = none) :=
  root_defined_iff example_heap example_heap_wf

theorem set_eq_self {α : Type} {l : List α} {i : Nat} {a : α} (h : l[i]? = some a) :
    l.set i a = l := by
  apply List.ext_getElem?
  intro n
  rw [List.getElem?_set]
  split_ifs with c1 c2
  · rw [← c1, h]
  · exact absurd (List.getElem?_eq_some.1 h).1 c2
  · rfl

theorem swapped_self {h : binary_heap T} (w : WF h) {u ui : Nat} (hu : 1 ≤ u)
    (hui : h.m_btree.m_nodes[u - 1]? = some ui) : swapped h u u ui ui = h := by
  have hnm : h.m_node_map[ui]? = some ⟨u - 1 + 1⟩ := (w.bij (u - 1) ui).1 hui
  rw [Nat.sub_add_cancel hu] at hnm
  have e1 : h.m_btree.m_nodes.set (u - 1) ui = h.m_btree.m_nodes := set_eq_self hui
  have e2 : h.m_node_map.set ui ⟨u⟩ = h.m_node_map := set_eq_self hnm
  simp only [swapped, e1, e2]

/-- C28. The call `swap` keeps slots and node map in lockstep: in a state satisfying the
bijection, for valid handles `u` and `v` (`1 <= id <= size`), `swap(u, v)` returns `v`,
leaves slot `u` holding the id previously at `v` and slot `v` the id previously at `u`, sets
the node-map entries of those two ids to their new handles, leaves every other slot and
node-map entry unchanged, and the resulting state satisfies the bijection. -/
theorem swap_lockstep (h : binary_heap T) (w : WF h) (u v : Nat) (hu1 : 1 ≤ u)
    (hu2 : u ≤ h.size) (hv1 : 1 ≤ v) (hv2 : v ≤ h.size) :
    ∃ h' ui vi, h.swap ⟨u⟩ ⟨v⟩ = some (h', ⟨v⟩) ∧
      h.m_btree.get ⟨u⟩ = some ui ∧ h.m_btree.get ⟨v⟩ = some vi ∧
      h'.m_btree.get ⟨u⟩ = some vi ∧ h'.m_btree.get ⟨v⟩ = some ui ∧
      h'.node vi = some ⟨u⟩ ∧ h'.node ui = some ⟨v⟩ ∧
      (∀ i, i ≠ u - 1 → i ≠ v - 1 → h'.m_btree.m_nodes[i]? = h.m_btree.m_nodes[i]?) ∧
      (∀ e, e ≠ ui → e ≠ vi → h'.node e = h.node e) ∧
      h'.m_elements = h.m_elements ∧ h'.size = h.size ∧ WF h' ∧ bijection h' := by
  have hlt := w.size_lt
  obtain ⟨ui, hui⟩ := slot_of_le hu1 hu2
  obtain ⟨vi, hvi⟩ := slot_of_le hv1 hv2
  have n1 := (w.bij _ _).1 hui
  have n2 := (w.bij _ _).1 hvi
  rw [Nat.sub_add_cancel hu1] at n1
  rw [Nat.sub_add_cancel hv1] at n2
  have l1 := (List.getElem?_eq_some.1 n1).1
  have l2 := (List.getElem?_eq_some.1 n2).1
  have w' : WF (swapped h u v ui vi) := by
    by_cases c : u = v
    · subst c
      have : ui = vi := Option.some.inj (hui.symm.trans hvi)
      subst this
      rw [swapped_self w hu1 hui]
      exact w
    · exact swapped_wf w hu1 hv1 c hui hvi
  refine ⟨swapped h u v ui vi, ui, vi, swap_eq w hu1 hv1 hui hvi, ?_, ?_, ?_, ?_, ?_, ?_,
    ?_, ?_, rfl, swapped_size _ _ _ _ _, w', w'.bijection⟩
  · rw [tree_get_eq _ hu1 (by omega)]; exact hui
  · rw [tree_get_eq _ hv1 (by omega)]; exact hvi
  · rw [tree_get_eq _ hu1 (by omega), swapped_slot hui hvi]
    by_cases c : v - 1 = u - 1
    · rw [if_pos c]
      rw [c] at hvi
      rw [← hui, hvi]
    · rw [if_neg c, if_pos rfl]
  · rw [tree_get_eq _ hv1 (by omega), swapped_slot hui hvi, if_pos rfl]
  · simp [node, swapped, l2]
  · simp only [node, swapped, List.getElem?_set, List.length_set]
    by_cases c : vi = ui
    · rw [if_pos c, if_pos (c ▸ l1)]
      rw [c] at n2
      rw [n1] at n2
      exact n2
    · simp [c, l1]
  · intro i hi1 hi2
    rw [swapped_slot hui hvi, if_neg (Ne.symm hi2), if_neg (Ne.symm hi1)]
  · intro e he1 he2
    simp only [node, swapped]
    rw [List.getElem?_set_ne (Ne.symm he2), List.getElem?_set_ne (Ne.symm he1)]

theorem swap_lockstep_witness :
    ∃ h' ui vi, example_heap.swap ⟨1⟩ ⟨3⟩ = some (h', ⟨3⟩) ∧
      example_heap.m_btree.get ⟨1⟩ = some ui ∧ example_heap.m_btree.get ⟨3⟩ = some vi ∧
      h'.m_btree.get ⟨1⟩ = some vi ∧ h'.m_btree.get ⟨3⟩ = some ui ∧
      h'.node vi = some ⟨1⟩ ∧ h'.node ui = some ⟨3⟩ ∧
      (∀ i, i ≠ 1 - 1 → i ≠ 3 - 1 →
        h'.m_btree.m_nodes[i]? = example_heap.m_btree.m_nodes[i]?) ∧
      (∀ e, e ≠ ui → e ≠ vi → h'.node e = example_heap.node e) ∧
      h'.m_elements = example_heap.m_elements ∧ h'.size = example_heap.size ∧ WF h' ∧
      bijection h' :=
  swap_lockstep example_heap example_heap_wf 1 3 (by decide) (by decide) (by decide)
    (by decide)

/-- C29. Sift-down child selection: one iteration of the loop of `bubble_down(u, e)` at an
internal node `u` (`1 <= u <= last_parent()`) considers one child `c`: when both children
exist, the left child if `compare(value(left), value(right))` is true and the right child
otherwise; when only a left child exists, the left child.  The iteration swaps `u` with `c`
and continues from `c` iff `compare(value(c), e)` is true; otherwise the loop stops with the
state unchanged. -/
theorem bubble_down_iteration (h : binary_heap T) (w : WF h) (e : T) (fuel u : Nat)
    (hu1 : 1 ≤ u) (hu2 : u ≤ h.m_btree.last_parent.id) :
    ∃ c ce ui ci, c / 2 = u ∧ c ≤ h.size ∧ key h c = some ce ∧
      (2 * u + 1 ≤ h.size → ∃ le re, key h (2 * u) = some le ∧
        key h (2 * u + 1) = some re ∧
        c = if h.compare le re = true then 2 * u else 2 * u + 1) ∧
      (2 * u = h.size → c = 2 * u) ∧
      h.m_btree.get ⟨u⟩ = some ui ∧ h.m_btree.get ⟨c⟩ = some ci ∧
      h.swap ⟨u⟩ ⟨c⟩ = some (swapped h u c ui ci, ⟨c⟩) ∧
      bubble_down_loop e h.m_btree.last_parent (fuel + 1) h ⟨u⟩ =
        if h.compare ce e = true then
          bubble_down_loop e h.m_btree.last_parent fuel (swapped h u c ui ci) ⟨c⟩
        else some h := by
  have hsz := w.size_lt
  have hu2' : u ≤ h.size / 2 := hu2
  obtain ⟨ui, hui⟩ := slot_of_le (h := h) (s := u) hu1 (by omega)
  obtain ⟨le, hle⟩ := w.key_some (s := 2 * u) (by omega) (by omega)
  have hle2 : h.get_by_node ⟨2 * u⟩ = some le := hle
  have hgu : h.m_btree.get ⟨u⟩ = some ui := by
    rw [tree_get_eq _ hu1 (by omega)]; exact hui
  have fin : ∀ c ce, c / 2 = u → c ≤ h.size → key h c = some ce →
      ∃ ci, h.m_btree.get ⟨c⟩ = some ci ∧
        h.swap ⟨u⟩ ⟨c⟩ = some (swapped h u c ui ci, ⟨c⟩) := by
    intro c ce hc1 hc2 _
    obtain ⟨ci, hci⟩ := slot_of_le (h := h) (s := c) (by omega) hc2
    refine ⟨ci, ?_, swap_eq w hu1 (by omega) hui hci⟩
    rw [tree_get_eq _ (by omega) (by omega)]; exact hci
  have hlp : h.m_btree.last_parent = ⟨h.size / 2⟩ := rfl
  by_cases h2 : 2 * u = h.m_btree.size
  · have h2' : 2 * u = h.size := h2
    obtain ⟨ci, hgc, hsw⟩ := fin (2 * u) le (by omega) (by omega) hle
    refine ⟨2 * u, le, ui, ci, by omega, by omega, hle, fun c => by omega, fun _ => rfl,
      hgu, hgc, hsw, ?_⟩
    rw [hlp, bubble_down_loop, if_pos hu2', get_children_eq _ hu2' hsz]
    simp only [if_pos h2, handle.non_nil, hle2, Option.some_bind, hsw]
    have n1 : ¬ (0 : Nat) > 0 := by omega
    have n2 : 2 * u > 0 := by omega
    simp only [n1, n2, decide_False, decide_True, if_true, if_false, Bool.false_eq_true]
  · have h2' : 2 * u ≠ h.size := h2
    obtain ⟨re, hre⟩ := w.key_some (s := 2 * u + 1) (by omega) (by omega)
    have hre2 : h.get_by_node ⟨2 * u + 1⟩ = some re := hre
    have n2 : 2 * u + 1 > 0 := by omega
    cases hlr : h.compare le re
    · obtain ⟨ci, hgc, hsw⟩ := fin (2 * u + 1) re (by omega) (by omega) hre
      refine ⟨2 * u + 1, re, ui, ci, by omega, by omega, hre,
        fun _ => ⟨le, re, hle, hre, by simp [hlr]⟩, fun c => by omega, hgu, hgc, hsw, ?_⟩
      rw [hlp, bubble_down_loop, if_pos hu2', get_children_eq _ hu2' hsz]
      simp only [if_neg h2, handle.non_nil, hle2, hre2, Option.some_bind, n2, decide_True,
        if_true, hlr, Bool.false_eq_true, if_false, hsw]
    · obtain ⟨ci, hgc, hsw⟩ := fin (2 * u) le (by omega) (by omega) hle
      refine ⟨2 * u, le, ui, ci, by omega, by omega, hle,
        fun _ => ⟨le, re, hle, hre, by simp [hlr]⟩, fun c => by omega, hgu, hgc, hsw, ?_⟩
      rw [hlp, bubble_down_loop, if_pos hu2', get_children_eq _ hu2' hsz]
      simp only [if_neg h2, handle.non_nil, hle2, hre2, Option.some_bind, n2, decide_True,
        if_true, hlr, hsw]

theorem bubble_down_iteration_witness :
    ∃ c ce ui ci, c / 2 = 1 ∧ c ≤ example_heap.size ∧ key example_heap c = some ce ∧
      (2 * 1 + 1 ≤ example_heap.size → ∃ le re, key example_heap (2 * 1) = some le ∧
        key example_heap (2 * 1 + 1) = some re ∧
        c = if example_heap.compare le re = true then 2 * 1 else 2 * 1 + 1) ∧
      (2 * 1 = example_heap.size → c = 2 * 1) ∧
      example_heap.m_btree.get ⟨1⟩ = some ui ∧ example_heap.m_btree.get ⟨c⟩ = some ci ∧
      example_heap.swap ⟨1⟩ ⟨c⟩ = some (swapped example_heap 1 c ui ci, ⟨c⟩) ∧
      bubble_down_loop 4 example_heap.m_btree.last_parent (3 + 1) example_heap ⟨1⟩ =
        if example_heap.compare ce 4 = true then
          bubble_down_loop 4 example_heap.m_btree.last_parent 3
            (swapped example_heap 1 c ui ci) ⟨c⟩
        else some example_heap :=
  bubble_down_iteration example_heap example_heap_wf 4 3 1 (by decide) (by decide)

theorem enroll_all_spec : ∀ (ids : List Nat) (h : binary_heap T), WF h →
    (∀ i ∈ ids, i < h.m_elements.length) → ids.Nodup →
    (∀ i ∈ ids, i ∉ h.m_btree.m_nodes) →
    ∃ h', ids.foldlM enroll h = some h' ∧ WF h' ∧
      h'.m_btree.m_nodes.Perm (h.m_btree.m_nodes ++ ids) ∧ h'.m_elements = h.m_elements ∧
      h'.m_compare = h.m_compare ∧
      (StrictWeakOrder h.m_compare → OrdAll h → OrdAll h') := by
  intro ids
  induction ids with
  | nil =>
    intro h w _ _ _
    exact ⟨h, rfl, w, by simp, rfl, rfl, fun _ o => o⟩
  | cons i ids ih =>
    intro h w hlt hnd hno
    have hi := hlt i (by simp)
    have hn := hno i (by simp)
    obtain ⟨h1, e1, w1, el1, cm1, pm1, od1⟩ := enroll_spec w hi hn
    obtain ⟨h', e2, w', pm2, el2, cm2, od2⟩ := ih h1 w1
      (fun j hj => by rw [el1]; exact hlt j (by simp [hj])) (List.nodup_cons.1 hnd).2
      (fun j hj => by
        have h1' := hno j (by simp [hj])
        have h2 : j ≠ i := fun c => (List.nodup_cons.1 hnd).1 (c ▸ hj)
        rw [pm1.mem_iff]
        simp [h1', h2])
    refine ⟨h', ?_, w', ?_, el2.trans el1, cm2.trans cm1, ?_⟩
    · rw [List.foldlM_cons, e1]
      exact e2
    · refine pm2.trans ?_
      have := pm1.append_right ids
      simpa using this
    · intro o ord
      exact od2 (cm1 ▸ o) (od1 o ord)

theorem WF.root_some {h : binary_heap T} (w : WF h) (hne : 0 < h.size) :
    ∃ a r, h.m_btree.m_nodes[0]? = some a ∧ h.m_elements[a]? = some r ∧ h.root = some r := by
  rcases hs : h.m_btree.m_nodes with _ | ⟨a, rest⟩
  · simp [size, consecutive_binary_tree.size, hs] at hne
  · have hr := w.slot_lt (i := 0) (e := a) (by simp [hs])
    exact ⟨a, h.m_elements[a], by simp, List.getElem?_eq_getElem hr,
      by simp [root, consecutive_binary_tree.root_value, hs, List.getElem?_eq_getElem hr]⟩

/-- In two heaps in heap order over the same elements, comparator and set of ids, the root
value of the first is not strictly better than the root value of the second. -/
theorem root_not_better {h1 h2 : binary_heap T} (w1 : WF h1) (w2 : WF h2)
    (o : StrictWeakOrder h2.m_compare) (ord2 : OrdAll h2)
    (hel : h1.m_elements = h2.m_elements)
    (hmem : ∀ e, e ∈ h1.m_btree.m_nodes → e ∈ h2.m_btree.m_nodes)
    {r1 r2 : T} (hr1 : h1.root = some r1) (hr2 : h2.root = some r2) :
    h2.m_compare r1 r2 = false := by
  have hn1 : 0 < h1.size := by
    rcases hs : h1.m_btree.m_nodes with _ | ⟨a, rest⟩
    · simp [root, consecutive_binary_tree.root_value, hs] at hr1
    · simp [size, consecutive_binary_tree.size, hs]
  have hn2 : 0 < h2.size := by
    rcases hs : h2.m_btree.m_nodes with _ | ⟨a, rest⟩
    · simp [root, consecutive_binary_tree.root_value, hs] at hr2
    · simp [size, consecutive_binary_tree.size, hs]
  obtain ⟨a1, x1, s1, v1, q1⟩ := w1.root_some hn1
  obtain ⟨a2, x2, s2, v2, q2⟩ := w2.root_some hn2
  have e1 : x1 = r1 := Option.some.inj (q1.symm.trans hr1)
  have e2 : x2 = r2 := Option.some.inj (q2.symm.trans hr2)
  subst e1 e2
  rcases hs : h2.m_btree.m_nodes with _ | ⟨b, rest⟩
  · simp [size, consecutive_binary_tree.size, hs] at hn2
  · have hb : b = a2 := by
      rw [hs] at s2
      simpa using s2
    subst hb
    have hm : a1 ∈ h2.m_btree.m_nodes := hmem a1 (List.mem_iff_getElem?.2 ⟨0, s1⟩)
    rw [hel] at v1
    exact w2.root_best_mem o ord2 hs v2 hm v1

/-- C27. Bulk build is interchangeable with sequential insertion: for every element
sequence of length `N`, every `n <= N` and every strict-weak-ordering comparator,
`make_heap(n)` on a fresh heap and `enroll(0); ...; enroll(n - 1)` on a fresh heap both
return heaps of size `n` with the same ids in the heap, both in heap order and satisfying
the bijection, and with `root()` values of which neither is strictly better than the other
(both without a value when `n == 0`). -/
theorem bulk_build_matches_enroll (elements : List T) (cmp : T → T → Bool)
    (hN : elements.length < SIZE_MOD) (o : StrictWeakOrder cmp) (n : Nat)
    (hn : n ≤ elements.length) :
    ∃ h1 h2, (new elements cmp).make_heap n = some h1 ∧
      (List.range n).foldlM enroll (new elements cmp) = some h2 ∧
      h1.size = n ∧ h2.size = n ∧ (∀ i, h1.in_heap i = h2.in_heap i) ∧
      heap_order h1 ∧ heap_order h2 ∧ bijection h1 ∧ bijection h2 ∧
      (n = 0 → h1.root = none ∧ h2.root = none) ∧
      (0 < n → ∃ r1 r2, h1.root = some r1 ∧ h2.root = some r2 ∧
        cmp r1 r2 = false ∧ cmp r2 r1 = false) := by
  obtain ⟨h1, e1, w1, pm1, el1, cm1, od1⟩ := make_heap_new_spec elements cmp hN hn
  obtain ⟨h2, e2, w2, pm2, el2, cm2, od2⟩ := enroll_all_spec (List.range n)
    (new elements cmp) (new_wf elements cmp hN)
    (fun i hi => by
      have := List.mem_range.1 hi
      simp only [new]; omega) (List.nodup_range n) (fun i _ => by simp [new])
  have pm2' : h2.m_btree.m_nodes.Perm (List.range n) := by simpa [new] using pm2
  have ord2 : OrdAll h2 :=
    od2 o (ordAll_of_size_le_one (by simp [new, size, consecutive_binary_tree.size]))
  have el2' : h2.m_elements = elements := el2
  have cm2' : h2.m_compare = cmp := cm2
  have hs1 : h1.size = n := by
    have := pm1.length_eq
    simpa [size, consecutive_binary_tree.size] using this
  have hs2 : h2.size = n := by
    have := pm2'.length_eq
    simpa [size, consecutive_binary_tree.size] using this
  refine ⟨h1, h2, e1, e2, hs1, hs2, ?_, (heap_order_iff w1).2 (od1 o),
    (heap_order_iff w2).2 ord2, w1.bijection, w2.bijection, ?_, ?_⟩
  · intro i
    by_cases c : i < elements.length
    · rw [w1.in_heap_eq (by rw [el1]; exact c), w2.in_heap_eq (by rw [el2']; exact c)]
      congr 1
      rw [decide_eq_decide, pm1.mem_iff, pm2'.mem_iff]
    · have l1 : h1.m_node_map.length ≤ i := by rw [w1.nm_len, el1]; omega
      have l2 : h2.m_node_map.length ≤ i := by rw [w2.nm_len, el2']; omega
      simp [in_heap, List.getElem?_eq_none l1, List.getElem?_eq_none l2]
  · intro h0
    subst h0
    have z1 : h1.m_btree.m_nodes = [] := by
      simpa [size, consecutive_binary_tree.size] using hs1
    have z2 : h2.m_btree.m_nodes = [] := by
      simpa [size, consecutive_binary_tree.size] using hs2
    simp [root, consecutive_binary_tree.root_value, z1, z2]
  · intro hpos
    obtain ⟨_, r1, _, _, q1⟩ := w1.root_some (by omega)
    obtain ⟨_, r2, _, _, q2⟩ := w2.root_some (by omega)
    refine ⟨r1, r2, q1, q2, ?_, ?_⟩
    · have := root_not_better w1 w2 (cm2' ▸ o) ord2 (el1.trans el2'.symm)
        (fun e he => by rw [pm2'.mem_iff]; exact pm1.mem_iff.1 he) q1 q2
      rw [cm2'] at this
      exact this
    · have := root_not_better w2 w1 (cm1 ▸ o) (od1 o) (el2'.trans el1.symm)
        (fun e he => by rw [pm1.mem_iff]; exact pm2'.mem_iff.1 he) q2 q1
      rw [cm1] at this
      exact this

theorem bulk_build_matches_enroll_witness :
    ∃ h1 h2, (new [5, 3, 8, 1, 9] less).make_heap 4 = some h1 ∧
      (List.range 4).foldlM enroll (new [5, 3, 8, 1, 9] less) = some h2 ∧
      h1.size = 4 ∧ h2.size = 4 ∧ (∀ i, h1.in_heap i = h2.in_heap i) ∧
      heap_order h1 ∧ heap_order h2 ∧ bijection h1 ∧ bijection h2 ∧
      (4 = 0 → h1.root = none ∧ h2.root = none) ∧
      (0 < 4 → ∃ r1 r2, h1.root = some r1 ∧ h2.root = some r2 ∧
        less r1 r2 = false ∧ less r2 r1 = false) :=
  bulk_build_matches_enroll [5, 3, 8, 1, 9] less (by decide) less_swo 4 (by decide)

theorem enroll_eq_attach (h : binary_heap T) (idx : Nat) :
    h.enroll idx = enroll_attach (enroll_appended h idx) idx := rfl

theorem index_eq_le {s : Nat} (h1 : 1 ≤ s) (h2 : s ≤ SIZE_MOD) :
    handle.index ⟨s⟩ = s - 1 := by
  simp only [handle.index, SIZE_MOD] at *
  omega

theorem tree_get_eq_le (t : consecutive_binary_tree Nat) {s : Nat} (h1 : 1 ≤ s)
    (h2 : s ≤ SIZE_MOD) : t.get ⟨s⟩ = t.m_nodes[s - 1]? := by
  simp [consecutive_binary_tree.get, index_eq_le h1 h2]

theorem WF.loose {h : binary_heap T} (w : WF h) : Loose h := by
  refine ⟨w.nm_len, Nat.le_of_lt w.size_lt, ?_⟩
  intro e he
  obtain ⟨i, hi⟩ := List.mem_iff_getElem?.1 he
  exact ⟨i, (w.bij i e).1 hi⟩

theorem Loose.key_read {h : binary_heap T} (w : Loose h) {s : Nat} (h1 : 1 ≤ s)
    (h2 : s ≤ h.size) : ∃ x, key h s = some x := by
  have hlt := w.size_le
  obtain ⟨e, he⟩ := slot_of_le h1 h2
  obtain ⟨k, hk⟩ := w.slot_nn e (List.mem_iff_getElem?.2 ⟨_, he⟩)
  have hel : e < h.m_elements.length := by
    rw [← w.nm_len]; exact (List.getElem?_eq_some.1 hk).1
  refine ⟨h.m_elements[e], ?_⟩
  simp [key, get_by_node, tree_get_eq_le _ h1 (show s ≤ SIZE_MOD by omega), he,
    List.getElem?_eq_getElem hel]

theorem swap_eq_loose {h : binary_heap T} (w : Loose h) {u v ui vi : Nat} (hu : 1 ≤ u)
    (hv : 1 ≤ v) (hui : h.m_btree.m_nodes[u - 1]? = some ui)
    (hvi : h.m_btree.m_nodes[v - 1]? = some vi) :
    h.swap ⟨u⟩ ⟨v⟩ = some (swapped h u v ui vi, ⟨v⟩) := by
  have hlt := w.size_le
  simp only [size, consecutive_binary_tree.size] at hlt
  have hul := (List.getElem?_eq_some.1 hui).1
  have hvl := (List.getElem?_eq_some.1 hvi).1
  obtain ⟨k1, hk1⟩ := w.slot_nn ui (List.mem_iff_getElem?.2 ⟨_, hui⟩)
  obtain ⟨k2, hk2⟩ := w.slot_nn vi (List.mem_iff_getElem?.2 ⟨_, hvi⟩)
  have h1 := (List.getElem?_eq_some.1 hk1).1
  have h2 := (List.getElem?_eq_some.1 hk2).1
  have e1 : h.m_btree.get ⟨u⟩ = some ui := by rw [tree_get_eq_le _ hu (by omega)]; exact hui
  have e2 : h.m_btree.get ⟨v⟩ = some vi := by rw [tree_get_eq_le _ hv (by omega)]; exact hvi
  have e3 : h.m_btree.set ⟨u⟩ vi = some ⟨h.m_btree.m_nodes.set (u - 1) vi⟩ := by
    simp [consecutive_binary_tree.set, index_eq_le hu (show u ≤ SIZE_MOD by omega), vec_set,
      hul]
  have e4 : (consecutive_binary_tree.mk (h.m_btree.m_nodes.set (u - 1) vi)).set ⟨v⟩ ui
      = some ⟨(h.m_btree.m_nodes.set (u - 1) vi).set (v - 1) ui⟩ := by
    simp [consecutive_binary_tree.set, index_eq_le hv (show v ≤ SIZE_MOD by omega), vec_set,
      hvl]
  simp [swap, e1, e2, e3, e4, vec_set, h1, h2, swapped]

theorem set_map_non_nil {nm : List handle} {e k : Nat} (v : Nat) (hv : 1 ≤ v)
    (hk : nm[e]? = some ⟨k + 1⟩) :
    (nm.set e ⟨v⟩).map handle.non_nil = nm.map handle.non_nil := by
  rw [List.map_set]
  apply set_eq_self
  rw [List.getElem?_map, hk]
  simp only [Option.map_some', handle.non_nil, Option.some.injEq, decide_eq_decide]
  omega

theorem swapped_loose {h : binary_heap T} (w : Loose h) {u v ui vi : Nat} (hu : 1 ≤ u)
    (hv : 1 ≤ v) (hui : h.m_btree.m_nodes[u - 1]? = some ui)
    (hvi : h.m_btree.m_nodes[v - 1]? = some vi) :
    Loose (swapped h u v ui vi) ∧
    (swapped h u v ui vi).m_node_map.map handle.non_nil = h.m_node_map.map handle.non_nil := by
  obtain ⟨k1, hk1⟩ := w.slot_nn ui (List.mem_iff_getElem?.2 ⟨_, hui⟩)
  obtain ⟨k2, hk2⟩ := w.slot_nn vi (List.mem_iff_getElem?.2 ⟨_, hvi⟩)
  have h1 := (List.getElem?_eq_some.1 hk1).1
  have h2 := (List.getElem?_eq_some.1 hk2).1
  obtain ⟨j, hj⟩ : ∃ j, v = j + 1 := ⟨v - 1, by omega⟩
  obtain ⟨i, hi⟩ : ∃ i, u = i + 1 := ⟨u - 1, by omega⟩
  have hk2' : ∃ k, (h.m_node_map.set ui ⟨v⟩)[vi]? = some (handle.mk (k + 1)) := by
    by_cases c : ui = vi
    · rw [List.getElem?_set, if_pos c, if_pos h1]
      exact ⟨j, by rw [hj]⟩
    · rw [List.getElem?_set_ne c]
      exact ⟨k2, hk2⟩
  obtain ⟨k3, hk3⟩ := hk2'
  refine ⟨⟨by simp [swapped, w.nm_len], by rw [swapped_size]; exact w.size_le, ?_⟩, ?_⟩
  · intro e he
    rw [(swapped_perm hui hvi).mem_iff] at he
    obtain ⟨k, hk⟩ := w.slot_nn e he
    simp only [swapped]
    by_cases c1 : vi = e
    · rw [List.getElem?_set, if_pos c1, if_pos (by simpa using h2)]
      exact ⟨i, by rw [hi]⟩
    · rw [List.getElem?_set_ne c1]
      by_cases c2 : ui = e
      · rw [List.getElem?_set, if_pos c2, if_pos h1]
        exact ⟨j, by rw [hj]⟩
      · rw [List.getElem?_set_ne c2]
        exact ⟨k, hk⟩
  · simp only [swapped]
    rw [set_map_non_nil u hu hk3, set_map_non_nil v hv hk1]

theorem bubble_up_loop_loose (e : T) : ∀ (fuel : Nat) (h : binary_heap T) (u : Nat),
    Loose h → u < fuel → u ≤ h.size →
    ∃ h', bubble_up_loop e fuel h ⟨u⟩ = some h' ∧ Loose h' ∧ Same h h' ∧
      h'.m_node_map.map handle.non_nil = h.m_node_map.map handle.non_nil := by
  intro fuel
  induction fuel with
  | zero => intro h u _ hf; omega
  | succ fuel ih =>
    intro h u w hf hus
    rw [bubble_up_loop]
    by_cases hu : 2 ≤ u
    · have hnr : h.m_btree.is_non_root ⟨u⟩ = true := by
        simp only [consecutive_binary_tree.is_non_root, decide_eq_true_eq]; omega
      obtain ⟨pe, hpe⟩ := w.key_read (s := u / 2) (by omega) (by omega)
      have hpe' : h.get_by_node (h.m_btree.parent ⟨u⟩) = some pe := hpe
      simp only [hnr, if_true, hpe', Option.some_bind]
      cases hc : h.compare e pe
      · exact ⟨h, by simp, w, Same.refl h, rfl⟩
      · obtain ⟨ui, hui⟩ := slot_of_le (h := h) (s := u) (by omega) hus
        obtain ⟨pi, hpi⟩ := slot_of_le (h := h) (s := u / 2) (by omega) (by omega)
        have hsw := swap_eq_loose w (by omega) (by omega) hui hpi
        have hsw' : h.swap ⟨u⟩ (h.m_btree.parent ⟨u⟩) = _ := hsw
        simp only [if_true, hsw', Option.some_bind]
        obtain ⟨wl, pt⟩ := swapped_loose w (show 1 ≤ u by omega) (show 1 ≤ u / 2 by omega)
          hui hpi
        obtain ⟨h', e1, w', s', p'⟩ := ih (swapped h u (u / 2) _ _) (u / 2) wl (by omega)
          (by rw [swapped_size]; omega)
        exact ⟨h', e1, w', (swapped_same hui hpi).trans s', p'.trans pt⟩
    · have hnr : h.m_btree.is_non_root ⟨u⟩ = false := by
        simp only [consecutive_binary_tree.is_non_root, decide_eq_false_iff_not]; omega
      simp only [hnr]
      exact ⟨h, by simp, w, Same.refl h, rfl⟩

theorem bijection.slots_nodup {h : binary_heap T} (b : bijection h) (hs : h.size ≤ SIZE_MOD) :
    h.m_btree.m_nodes.Nodup := by
  rw [List.nodup_iff_getElem?_ne_getElem?]
  intro i j hij hj heq
  have hj' : h.m_btree.m_nodes[j]? = some (h.m_btree.m_nodes[j]) := List.getElem?_eq_getElem hj
  have hsz : h.m_btree.m_nodes.length ≤ SIZE_MOD := hs
  have s1 : slot_holds h (i + 1) (h.m_btree.m_nodes[j]) := by
    refine ⟨by omega, by simp only [size, consecutive_binary_tree.size]; omega, ?_⟩
    rw [tree_get_eq_le _ (by omega) (by omega)]
    simpa using heq.trans hj'
  have s2 : slot_holds h (j + 1) (h.m_btree.m_nodes[j]) := by
    refine ⟨by omega, by simp only [size, consecutive_binary_tree.size]; omega, ?_⟩
    rw [tree_get_eq_le _ (by omega) (by omega)]
    simp
  have := b.slot_unique _ _ _ s1 s2
  omega

/-- The heap with the slots `[3, 0, 1]`, in which id 0 is present: `enroll(0)` does not
fail; it returns a state with a fourth slot that holds id 0 again. -/
theorem enroll_present_example :
    example_heap.in_heap 0 = some true ∧
    (example_heap.enroll 0).map (fun h => (h.m_btree.m_nodes, h.m_node_map))
      = some ([3, 0, 1, 0], [⟨4⟩, ⟨3⟩, ⟨0⟩, ⟨1⟩, ⟨0⟩]) ∧
    [3, 0, 1, 0] ≠ example_heap.m_btree.m_nodes ∧
    [handle.mk 4, ⟨3⟩, ⟨0⟩, ⟨1⟩, ⟨0⟩] ≠ example_heap.m_node_map := by
  decide

/-- C21, as amended. The call `enroll` on a present id is not rejected: on a well-formed
heap, for an id with `in_heap(id)` true, `enroll(id)` returns a state with one more slot,
whose slot sequence is a permutation of the old one with `id` added once more; `id` is then
in two slots, so the bijection does not hold afterwards, and the number of non-nil node-map
entries stays at the old size, one less than the new `size()`. -/
theorem enroll_present (h : binary_heap T) (w : WF h) (id : Nat)
    (hin : h.in_heap id = some true) :
    ∃ h', h.enroll id = some h' ∧ h'.size = h.size + 1 ∧
      h'.m_btree.m_nodes.Perm (h.m_btree.m_nodes ++ [id]) ∧
      h'.m_elements = h.m_elements ∧ ¬ bijection h' ∧
      h'.m_node_map.countP handle.non_nil = h.size ∧
      h'.m_node_map.countP handle.non_nil ≠ h'.size := by
  obtain ⟨k, hk, hsl⟩ := in_heap_slot w hin
  have hi := w.slot_lt hsl
  have hil : id < h.m_node_map.length := by rw [w.nm_len]; exact hi
  have hkl := (List.getElem?_eq_some.1 hsl).1
  have hpos : h.size + 1 > 1 := by
    simp only [size, consecutive_binary_tree.size]; omega
  have hlt := w.size_lt
  have wp : Loose (pushed h id) := by
    refine ⟨by simp [pushed, w.nm_len], by rw [pushed_size]; omega, ?_⟩
    intro e he
    simp only [pushed, List.mem_append, List.mem_singleton] at he
    simp only [pushed]
    by_cases c : id = e
    · rw [List.getElem?_set, if_pos c, if_pos hil]
      exact ⟨h.size, rfl⟩
    · rw [List.getElem?_set_ne c]
      rcases he with he | he
      · exact w.loose.slot_nn e he
      · exact absurd he.symm c
  have pt : (pushed h id).m_node_map.map handle.non_nil = h.m_node_map.map handle.non_nil := by
    simp only [pushed]
    exact set_map_non_nil (h.size + 1) (by omega) hk
  obtain ⟨h', e1, w', s', p'⟩ := bubble_up_loop_loose (h.m_elements[id])
    ((pushed h id).size + 1) (pushed h id) (h.size + 1) wp (by rw [pushed_size]; omega)
    (by rw [pushed_size])
  have hcount : h'.m_node_map.countP handle.non_nil = h.size := by
    have c1 := List.countP_map (fun b : Bool => b) handle.non_nil h'.m_node_map
    have c2 := List.countP_map (fun b : Bool => b) handle.non_nil h.m_node_map
    rw [p'.trans pt] at c1
    rw [c1] at c2
    have e : ((fun b : Bool => b) ∘ handle.non_nil) = handle.non_nil := rfl
    rw [e] at c2
    rw [c2]
    exact w.count
  have hsz : h'.size = h.size + 1 := by rw [s'.size, pushed_size]
  refine ⟨h', ?_, hsz, s'.perm, s'.elements, ?_, hcount, by omega⟩
  · rw [enroll_eq hil, if_pos hpos, List.getElem?_eq_getElem hi, Option.some_bind]
    exact e1
  · intro b
    have nd := b.slots_nodup w'.size_le
    rw [s'.perm.nodup_iff] at nd
    simp only [pushed] at nd
    rw [List.nodup_append] at nd
    exact nd.2.2 (List.mem_iff_getElem?.2 ⟨k, hsl⟩) (by simp)

theorem enroll_present_witness :
    ∃ h', example_heap.enroll 3 = some h' ∧ h'.size = example_heap.size + 1 ∧
      h'.m_btree.m_nodes.Perm (example_heap.m_btree.m_nodes ++ [3]) ∧
      h'.m_elements = example_heap.m_elements ∧ ¬ bijection h' ∧
      h'.m_node_map.countP handle.non_nil = example_heap.size ∧
      h'.m_node_map.countP handle.non_nil ≠ h'.size :=
  enroll_present example_heap example_heap_wf 3 (by decide)

/-- The heap over five elements and the id 5: the node-map write of `enroll(5)` is out of
range, and it is evaluated in the state that `m_btree.push(5)` left, in which the slot has
been appended. -/
theorem enroll_out_of_range_example :
    example_heap.enroll 5 = enroll_attach (enroll_appended example_heap 5) 5 ∧
    (example_heap.enroll 5).isSome = false ∧
    vec_set (enroll_appended example_heap 5).m_node_map 5
      (enroll_appended example_heap 5).m_btree.back = none ∧
    (enroll_appended example_heap 5).m_btree.m_nodes = [3, 0, 1, 5] ∧
    (enroll_appended example_heap 5).m_btree.m_nodes ≠ example_heap.m_btree.m_nodes :=
  ⟨rfl, by decide, by decide, by decide, by decide⟩

/-- C22, as amended. A capacity mismatch is not checked: for every heap whose node map has
`N` entries and every id `>= N`, `enroll(id)` first appends `id` to the slot sequence and
then writes `m_node_map[id]` out of range, which is undefined (`none` in the embedding) with
nothing restored; `in_heap(id)` and `node(id)` read the node map out of range as well. -/
theorem enroll_out_of_range (h : binary_heap T) (id : Nat)
    (hid : h.m_node_map.length ≤ id) :
    h.enroll id = none ∧ h.in_heap id = none ∧ h.node id = none ∧
    h.enroll id = enroll_attach (enroll_appended h id) id ∧
    (enroll_appended h id).m_btree.m_nodes = h.m_btree.m_nodes ++ [id] ∧
    vec_set (enroll_appended h id).m_node_map id (enroll_appended h id).m_btree.back
      = none := by
  have hn : ¬ id < h.m_node_map.length := by omega
  refine ⟨?_, ?_, ?_, rfl, rfl, ?_⟩
  · simp [enroll, vec_set, hn]
  · simp [in_heap, List.getElem?_eq_none hid]
  · simp [node, List.getElem?_eq_none hid]
  · simp [vec_set, enroll_appended, hn]

theorem enroll_out_of_range_witness :
    example_heap.enroll 7 = none ∧ example_heap.in_heap 7 = none ∧
    example_heap.node 7 = none ∧
    example_heap.enroll 7 = enroll_attach (enroll_appended example_heap 7) 7 ∧
    (enroll_appended example_heap 7).m_btree.m_nodes = example_heap.m_btree.m_nodes ++ [7] ∧
    vec_set (enroll_appended example_heap 7).m_node_map 7
      (enroll_appended example_heap 7).m_btree.back = none :=
  enroll_out_of_range example_heap 7 (by decide)

theorem bubble_up_count_fst (e : T) : ∀ (fuel : Nat) (h : binary_heap T) (u : handle),
    (bubble_up_count e fuel h u).map Prod.fst = bubble_up_loop e fuel h u := by
  intro fuel
  induction fuel with
  | zero => intro h u; rfl
  | succ fuel ih =>
    intro h u
    rw [bubble_up_count, bubble_up_loop]
    by_cases c1 : h.m_btree.is_non_root u = true
    · simp only [c1, if_true]
      cases h.get_by_node (h.m_btree.parent u) with
      | none => rfl
      | some pe =>
        simp only [Option.some_bind]
        by_cases c2 : h.compare e pe = true
        · simp only [c2, if_true]
          cases h.swap u (h.m_btree.parent u) with
          | none => rfl
          | some r =>
            simp only [Option.some_bind, Option.map_map]
            rw [← ih r.1 r.2]
            rfl
        · simp only [c2]
          rfl
    · simp only [c1]
      rfl

theorem bubble_down_count_fst (e : T) (l : handle) :
    ∀ (fuel : Nat) (h : binary_heap T) (u : handle),
    (bubble_down_count e l fuel h u).map Prod.fst = bubble_down_loop e l fuel h u := by
  intro fuel
  induction fuel with
  | zero => intro h u; rfl
  | succ fuel ih =>
    intro h u
    have step : ∀ c : handle,
        ((h.swap u c).bind fun r =>
          (bubble_down_count e l fuel r.1 r.2).map fun q => (q.1, q.2 + 1)).map Prod.fst
        = (h.swap u c).bind fun r => bubble_down_loop e l fuel r.1 r.2 := by
      intro c
      cases h.swap u c with
      | none => rfl
      | some r =>
        simp only [Option.some_bind, Option.map_map]
        rw [← ih r.1 r.2]
        rfl
    rw [bubble_down_count, bubble_down_loop]
    by_cases c1 : u.id ≤ l.id
    · simp only [c1, if_true]
      by_cases c2 : (h.m_btree.get_children u).2.non_nil = true
      · simp only [c2, if_true]
        cases h.get_by_node (h.m_btree.get_children u).1 with
        | none => rfl
        | some le =>
          cases h.get_by_node (h.m_btree.get_children u).2 with
          | none => rfl
          | some re =>
            simp only [Option.some_bind]
            by_cases c3 : h.compare le re = true
            · simp only [c3, if_true]
              by_cases c4 : h.compare le e = true
              · simp only [c4, if_true]
                exact step _
              · simp only [c4]; rfl
            · simp only [c3]
              by_cases c4 : h.compare re e = true
              · simp only [c4, if_true]
                exact step _
              · simp only [c4]; rfl
      · simp only [c2]
        by_cases c3 : (h.m_btree.get_children u).1.non_nil = true
        · simp only [c3, if_true]
          cases h.get_by_node (h.m_btree.get_children u).1 with
          | none => rfl
          | some le =>
            simp only [Option.some_bind]
            by_cases c4 : h.compare le e = true
            · simp only [c4, if_true]
              exact step _
            · simp only [c4]; rfl
        · simp only [c3]; rfl
    · simp only [c1]; rfl

theorem swap_result {h : binary_heap T} {u v : handle} {r : binary_heap T × handle}
    (hs : h.swap u v = some r) : r.2 = v ∧ r.1.size = h.size := by
  simp only [swap, Option.bind_eq_some, consecutive_binary_tree.set, vec_set,
    Option.map_eq_some'] at hs
  obtain ⟨ui, _, vi, _, nm1, _, nm2, _, t1, ⟨l1, hl1, rfl⟩, t2, ⟨l2, hl2, rfl⟩, hr⟩ := hs
  simp only [Option.some.injEq] at hr
  subst hr
  refine ⟨rfl, ?_⟩
  split_ifs at hl1 hl2 with c1 c2
  simp only [Option.some.injEq] at hl1 hl2
  subst hl1 hl2
  simp [size, consecutive_binary_tree.size]

theorem bubble_up_count_le (e : T) : ∀ (fuel : Nat) (h : binary_heap T) (u : handle)
    (h' : binary_heap T) (c : Nat),
    bubble_up_count e fuel h u = some (h', c) → c ≤ Nat.log 2 u.id := by
  intro fuel
  induction fuel with
  | zero => intro h u h' c hc; simp [bubble_up_count] at hc
  | succ fuel ih =>
    intro h u h' c hc
    rw [bubble_up_count] at hc
    by_cases c1 : h.m_btree.is_non_root u = true
    · have hu : 2 ≤ u.id := by
        simpa [consecutive_binary_tree.is_non_root] using c1
      simp only [c1, if_true, Option.bind_eq_some] at hc
      obtain ⟨pe, _, hc⟩ := hc
      by_cases c2 : h.compare e pe = true
      · simp only [c2, if_true, Option.bind_eq_some, Option.map_eq_some'] at hc
        obtain ⟨r, hr, ⟨q1, q2⟩, hq, he⟩ := hc
        have h1 := ih r.1 r.2 q1 q2 hq
        rw [(swap_result hr).1] at h1
        simp only [consecutive_binary_tree.parent] at h1
        simp only [Prod.mk.injEq] at he
        rw [← he.2, Nat.log_of_one_lt_of_le (by omega) hu]
        omega
      · simp only [c2] at hc
        simp at hc
        omega
    · simp only [c1] at hc
      simp at hc
      omega

theorem bubble_down_count_le (e : T) : ∀ (fuel : Nat) (h : binary_heap T) (u : handle)
    (h' : binary_heap T) (c : Nat), 1 ≤ u.id → h.size < SIZE_MOD →
    bubble_down_count e ⟨h.size / 2⟩ fuel h u = some (h', c) →
    c ≤ Nat.log 2 (h.size / u.id) := by
  intro fuel
  induction fuel with
  | zero => intro h u h' c _ _ hc; simp [bubble_down_count] at hc
  | succ fuel ih =>
    intro h u h' c hu hsz hc
    have step : ∀ v : handle, v.id = 2 * u.id ∨ v.id = 2 * u.id + 1 → v.id ≤ h.size →
        ((h.swap u v).bind fun r =>
          (bubble_down_count e ⟨h.size / 2⟩ fuel r.1 r.2).map fun q => (q.1, q.2 + 1))
          = some (h', c) → c ≤ Nat.log 2 (h.size / u.id) := by
      intro v hv hvs hx
      simp only [Option.bind_eq_some, Option.map_eq_some'] at hx
      obtain ⟨r, hr, ⟨q1, q2⟩, hq, he⟩ := hx
      obtain ⟨r2, rs⟩ := swap_result hr
      rw [← rs] at hq
      have h1 := ih r.1 r.2 q1 q2 (by rw [r2]; omega) (by rw [rs]; exact hsz) hq
      rw [r2, rs] at h1
      simp only [Prod.mk.injEq] at he
      have h2 : 2 ≤ h.size / u.id := by
        rw [Nat.le_div_iff_mul_le (by omega)]
        omega
      have h3 : h.size / v.id ≤ h.size / u.id / 2 := by
        rw [Nat.div_div_eq_div_mul]
        apply Nat.div_le_div_left (by omega) (by omega)
      have h4 := Nat.log_mono_right (b := 2) h3
      rw [← he.2, Nat.log_of_one_lt_of_le (by omega) h2]
      omega
    rw [bubble_down_count] at hc
    by_cases c1 : u.id ≤ h.size / 2
    · have hch := get_children_eq h.m_btree (u := u.id) c1 hsz
      have hu' : (handle.mk u.id) = u := rfl
      rw [hu'] at hch
      simp only [c1, if_true, hch] at hc
      by_cases c2 : 2 * u.id = h.m_btree.size
      · simp only [c2, if_true, handle.non_nil] at hc
        have n1 : ¬ (0 : Nat) > 0 := by omega
        have n2 : h.m_btree.size > 0 := by omega
        simp only [n1, n2, decide_False, decide_True, if_true, if_false, Bool.false_eq_true,
          Option.bind_eq_some] at hc
        obtain ⟨le, _, hc⟩ := hc
        by_cases c4 : h.compare le e = true
        · simp only [c4, if_true] at hc
          exact step ⟨h.m_btree.size⟩ (Or.inl c2.symm) (le_refl _) hc
        · simp only [c4] at hc
          simp at hc
          omega
      · simp only [c2, if_false, handle.non_nil] at hc
        have n2 : 2 * u.id + 1 > 0 := by omega
        have hle2 : 2 * u.id + 1 ≤ h.size := by
          have : 2 * u.id ≠ h.size := c2
          omega
        simp only [n2, decide_True, if_true, Option.bind_eq_some] at hc
        obtain ⟨le, _, re, _, hc⟩ := hc
        by_cases c3 : h.compare le re = true
        · simp only [c3, if_true] at hc
          by_cases c4 : h.compare le e = true
          · simp only [c4, if_true] at hc
            exact step ⟨2 * u.id⟩ (Or.inl rfl) (by show 2 * u.id ≤ h.size; omega) hc
          · simp only [c4] at hc
            simp at hc
            omega
        · simp only [c3] at hc
          by_cases c4 : h.compare re e = true
          · simp only [c4, if_true] at hc
            exact step ⟨2 * u.id + 1⟩ (Or.inr rfl) hle2 hc
          · simp only [c4] at hc
            simp at hc
            omega
    · simp only [c1] at hc
      simp at hc
      omega

theorem of_map_fst {α : Type} {x : Option (α × Nat)} {a : α}
    (h : x.map Prod.fst = some a) : ∃ c, x = some (a, c) := by
  cases x with
  | none => simp at h
  | some p =>
    obtain ⟨p1, p2⟩ := p
    simp only [Option.map_some', Option.some.injEq] at h
    subst h
    exact ⟨p2, rfl⟩

theorem bubble_up_swaps_fst (h : binary_heap T) (u : handle) (e : T) :
    (h.bubble_up_swaps u e).map Prod.fst = h.bubble_up u e :=
  bubble_up_count_fst e _ h u

theorem bubble_down_swaps_fst (h : binary_heap T) (u : handle) (e : T) :
    (h.bubble_down_swaps u e).map Prod.fst = h.bubble_down u e :=
  bubble_down_count_fst e _ _ h u

theorem update_up_swaps_fst (h : binary_heap T) (idx : Nat) :
    (h.update_up_swaps idx).map Prod.fst = h.update_up idx := by
  simp only [update_up_swaps, update_up]
  cases h.m_node_map[idx]? with
  | none => rfl
  | some u =>
    cases h.m_elements[idx]? with
    | none => rfl
    | some e => exact bubble_up_swaps_fst h u e

theorem update_down_swaps_fst (h : binary_heap T) (idx : Nat) :
    (h.update_down_swaps idx).map Prod.fst = h.update_down idx := by
  simp only [update_down_swaps, update_down]
  cases h.m_node_map[idx]? with
  | none => rfl
  | some u =>
    cases h.m_elements[idx]? with
    | none => rfl
    | some e => exact bubble_down_swaps_fst h u e

theorem map_bind_comm {α β γ : Type} (x : Option α) (g : α → Option β) (f : β → γ) :
    (x.bind g).map f = x.bind fun a => (g a).map f := by
  cases x <;> rfl

theorem enroll_swaps_fst (h : binary_heap T) (idx : Nat) :
    (h.enroll_swaps idx).map Prod.fst = h.enroll idx := by
  simp only [enroll_swaps, enroll, map_bind_comm]
  congr 1
  funext nm
  split_ifs with c
  · simp only [map_bind_comm, bubble_up_swaps_fst]
  · rfl

theorem pop_root_swaps_fst (h : binary_heap T) :
    (h.pop_root_swaps).map Prod.fst = h.pop_root := by
  simp only [pop_root_swaps, pop_root]
  split_ifs with c1 c2
  · simp only [map_bind_comm, bubble_down_swaps_fst]
  · simp only [map_bind_comm, Option.map_some']
  · rfl

theorem enroll_swaps_eq {h : binary_heap T} {idx : Nat} (hi : idx < h.m_node_map.length) :
    h.enroll_swaps idx =
      if h.size + 1 > 1 then
        (h.m_elements[idx]?).bind fun e => (pushed h idx).bubble_up_swaps ⟨h.size + 1⟩ e
      else some (pushed h idx, 0) := by
  simp [enroll_swaps, vec_set, hi, pushed, consecutive_binary_tree.push,
    consecutive_binary_tree.back, consecutive_binary_tree.size, size]

theorem pop_root_swaps_nil {h : binary_heap T} (hs : h.m_btree.m_nodes = []) :
    h.pop_root_swaps = some (h, 0) := by
  simp [pop_root_swaps, consecutive_binary_tree.size, hs]

theorem pop_root_swaps_single {h : binary_heap T} (w : WF h) {r : Nat}
    (hs : h.m_btree.m_nodes = [r]) : h.pop_root_swaps = some (emptied h r, 0) := by
  have hr : r < h.m_node_map.length := by
    rw [w.nm_len]; exact w.slot_lt (i := 0) (by simp [hs])
  simp [pop_root_swaps, consecutive_binary_tree.size, hs, consecutive_binary_tree.root_value,
    vec_set, hr, consecutive_binary_tree.pop, emptied]

theorem pop_root_swaps_many {h : binary_heap T} (w : WF h) {r l : Nat} {mid : List Nat}
    (hs : h.m_btree.m_nodes = r :: (mid ++ [l])) :
    h.pop_root_swaps =
      (h.m_elements[l]?).bind fun e => (moved h r l mid).bubble_down_swaps ⟨1⟩ e := by
  have hr : r < h.m_node_map.length := by
    rw [w.nm_len]; exact w.slot_lt (i := 0) (by simp [hs])
  have hl : l < h.m_node_map.length := by
    rw [w.nm_len]; exact w.slot_lt (i := mid.length + 1) (by simp [hs])
  have hg : (r :: (mid ++ [l])).getLast? = some l := by
    have : r :: (mid ++ [l]) = (r :: mid) ++ [l] := rfl
    rw [this, List.getLast?_append]; simp
  simp [pop_root_swaps, consecutive_binary_tree.size, hs, consecutive_binary_tree.root_value,
    vec_set, hr, hl, consecutive_binary_tree.pop, moved, consecutive_binary_tree.back_value, hg,
    consecutive_binary_tree.set_root_value, consecutive_binary_tree.root,
    List.dropLast_cons_of_ne_nil]

theorem bubble_up_swaps_spec {h : binary_heap T} (w : WF h) (e : T) {u : Nat}
    (hu : u ≤ h.size) :
    ∃ h' c, h.bubble_up_swaps ⟨u⟩ e = some (h', c) ∧ h.bubble_up ⟨u⟩ e = some h' ∧
      WF h' ∧ Same h h' ∧ c ≤ Nat.log 2 u := by
  obtain ⟨h', e1, w', s', _⟩ := bubble_up_loop_spec e (h.size + 1) h u w (by omega) hu
  have e1' : h.bubble_up ⟨u⟩ e = some h' := e1
  obtain ⟨c, hc⟩ := of_map_fst ((bubble_up_swaps_fst h ⟨u⟩ e).trans e1')
  exact ⟨h', c, hc, e1', w', s', bubble_up_count_le e _ h ⟨u⟩ h' c hc⟩

theorem bubble_down_swaps_spec {h : binary_heap T} (w : WF h) (e : T) {u : Nat}
    (hu1 : 1 ≤ u) (hu : u ≤ h.size) :
    ∃ h' c, h.bubble_down_swaps ⟨u⟩ e = some (h', c) ∧ h.bubble_down ⟨u⟩ e = some h' ∧
      WF h' ∧ Same h h' ∧ c ≤ Nat.log 2 (h.size / u) := by
  obtain ⟨h', e1, w', s', _⟩ := bubble_down_loop_spec e (h.size + 1) h u (h.size / 2) w hu1 hu
    (by omega) rfl
  have e1' : h.bubble_down ⟨u⟩ e = some h' := e1
  obtain ⟨c, hc⟩ := of_map_fst ((bubble_down_swaps_fst h ⟨u⟩ e).trans e1')
  exact ⟨h', c, hc, e1', w', s',
    bubble_down_count_le e _ h ⟨u⟩ h' c hu1 w.size_lt hc⟩

/-- C30. Logarithmic number of swaps, for any comparator: on a well-formed heap,
`bubble_up` from a valid handle `u` makes at most `floor(log2(u.id))` swaps and `bubble_down`
from a valid handle `u` at most `floor(log2(n / u.id))` swaps, `n` the size; so `enroll`,
`pop_root`, `update_up` and `update_down` each make at most `floor(log2(size))` swaps, where
for `enroll` the size is the one after the call, in which the sift runs. -/
theorem logarithmic_swaps (h : binary_heap T) (w : WF h) :
    (∀ (e : T) (u : Nat), 1 ≤ u → u ≤ h.size →
      ∃ h' c, h.bubble_up_swaps ⟨u⟩ e = some (h', c) ∧ h.bubble_up ⟨u⟩ e = some h' ∧
        c ≤ Nat.log 2 u) ∧
    (∀ (e : T) (u : Nat), 1 ≤ u → u ≤ h.size →
      ∃ h' c, h.bubble_down_swaps ⟨u⟩ e = some (h', c) ∧ h.bubble_down ⟨u⟩ e = some h' ∧
        c ≤ Nat.log 2 (h.size / u)) ∧
    (∀ id, id < h.m_elements.length → h.in_heap id = some false →
      ∃ h' c, h.enroll_swaps id = some (h', c) ∧ h.enroll id = some h' ∧
        c ≤ Nat.log 2 h'.size) ∧
    (∃ h' c, h.pop_root_swaps = some (h', c) ∧ h.pop_root = some h' ∧
      c ≤ Nat.log 2 h'.size ∧ c ≤ Nat.log 2 h.size) ∧
    (∀ id, h.in_heap id = some true →
      (∃ h' c, h.update_up_swaps id = some (h', c) ∧ h.update_up id = some h' ∧
        c ≤ Nat.log 2 h.size) ∧
      (∃ h' c, h.update_down_swaps id = some (h', c) ∧ h.update_down id = some h' ∧
        c ≤ Nat.log 2 h.size)) := by
  refine ⟨?_, ?_, ?_, ?_, ?_⟩
  · intro e u _ hu
    obtain ⟨h', c, a1, a2, _, _, a3⟩ := bubble_up_swaps_spec w e hu
    exact ⟨h', c, a1, a2, a3⟩
  · intro e u hu1 hu
    obtain ⟨h', c, a1, a2, _, _, a3⟩ := bubble_down_swaps_spec w e hu1 hu
    exact ⟨h', c, a1, a2, a3⟩
  · intro id hid hab
    have hn := (w.not_mem_iff hid).2 hab
    have hil : id < h.m_node_map.length := by rw [w.nm_len]; exact hid
    have w1 := pushed_wf w hid hn
    by_cases c : h.size + 1 > 1
    · obtain ⟨h', k, a1, a2, _, s', a3⟩ := bubble_up_swaps_spec w1 (h.m_elements[id])
        (u := h.size + 1) (by rw [pushed_size])
      refine ⟨h', k, ?_, ?_, ?_⟩
      · rw [enroll_swaps_eq hil, if_pos c, List.getElem?_eq_getElem hid, Option.some_bind]
        exact a1
      · rw [enroll_eq hil, if_pos c, List.getElem?_eq_getElem hid, Option.some_bind]
        exact a2
      · rw [s'.size, pushed_size]
        exact a3
    · refine ⟨pushed h id, 0, ?_, ?_, Nat.zero_le _⟩
      · rw [enroll_swaps_eq hil, if_neg c]
      · rw [enroll_eq hil, if_neg c]
  · rcases hs : h.m_btree.m_nodes with _ | ⟨r, rest⟩
    · exact ⟨h, 0, pop_root_swaps_nil hs, pop_root_nil hs, Nat.zero_le _, Nat.zero_le _⟩
    · by_cases hr : rest = []
      · subst hr
        exact ⟨emptied h r, 0, pop_root_swaps_single w hs, pop_root_single w hs,
          Nat.zero_le _, Nat.zero_le _⟩
      · have hd := List.dropLast_append_getLast hr
        generalize rest.dropLast = mid at hd
        generalize rest.getLast hr = l at hd
        subst hd
        have hl : l < h.m_elements.length :=
          w.slot_lt (i := mid.length + 1) (by simp [hs])
        have wm := moved_wf w hs
        have hsz := moved_size (h := h) hs
        have hz : h.size = mid.length + 2 := by
          simp [size, consecutive_binary_tree.size, hs]
        obtain ⟨h', k, a1, a2, _, s', a3⟩ := bubble_down_swaps_spec wm (h.m_elements[l])
          (u := 1) (le_refl _) (by omega)
        rw [Nat.div_one] at a3
        refine ⟨h', k, ?_, ?_, ?_, ?_⟩
        · rw [pop_root_swaps_many w hs, List.getElem?_eq_getElem hl, Option.some_bind]
          exact a1
        · rw [pop_root_many w hs, List.getElem?_eq_getElem hl, Option.some_bind]
          exact a2
        · rw [s'.size]
          exact a3
        · exact a3.trans (Nat.log_mono_right (by omega))
  · intro id hin
    obtain ⟨k, hk, hsl⟩ := in_heap_slot w hin
    have hi := w.slot_lt hsl
    have hks : k + 1 ≤ h.size := by
      have := (List.getElem?_eq_some.1 hsl).1
      simp only [size, consecutive_binary_tree.size]; omega
    constructor
    · obtain ⟨h', c, a1, a2, _, _, a3⟩ := bubble_up_swaps_spec w (h.m_elements[id]) hks
      refine ⟨h', c, ?_, ?_, a3.trans (Nat.log_mono_right hks)⟩
      · simp only [update_up_swaps, hk, List.getElem?_eq_getElem hi, Option.some_bind]
        exact a1
      · simp only [update_up, hk, List.getElem?_eq_getElem hi, Option.some_bind]
        exact a2
    · obtain ⟨h', c, a1, a2, _, _, a3⟩ := bubble_down_swaps_spec w (h.m_elements[id])
        (u := k + 1) (by omega) hks
      refine ⟨h', c, ?_, ?_, a3.trans (Nat.log_mono_right (Nat.div_le_self _ _))⟩
      · simp only [update_down_swaps, hk, List.getElem?_eq_getElem hi, Option.some_bind]
        exact a1
      · simp only [update_down, hk, List.getElem?_eq_getElem hi, Option.some_bind]
        exact a2

theorem logarithmic_swaps_witness :
    (∀ (e : Nat) (u : Nat), 1 ≤ u → u ≤ example_heap.size →
      ∃ h' c, example_heap.bubble_up_swaps ⟨u⟩ e = some (h', c) ∧
        example_heap.bubble_up ⟨u⟩ e = some h' ∧ c ≤ Nat.log 2 u) ∧
    (∀ (e : Nat) (u : Nat), 1 ≤ u → u ≤ example_heap.size →
      ∃ h' c, example_heap.bubble_down_swaps ⟨u⟩ e = some (h', c) ∧
        example_heap.bubble_down ⟨u⟩ e = some h' ∧
        c ≤ Nat.log 2 (example_heap.size / u)) ∧
    (∀ id, id < example_heap.m_elements.length → example_heap.in_heap id = some false →
      ∃ h' c, example_heap.enroll_swaps id = some (h', c) ∧
        example_heap.enroll id = some h' ∧ c ≤ Nat.log 2 h'.size) ∧
    (∃ h' c, example_heap.pop_root_swaps = some (h', c) ∧
      example_heap.pop_root = some h' ∧
      c ≤ Nat.log 2 h'.size ∧ c ≤ Nat.log 2 example_heap.size) ∧
    (∀ id, example_heap.in_heap id = some true →
      (∃ h' c, example_heap.update_up_swaps id = some (h', c) ∧
        example_heap.update_up id = some h' ∧ c ≤ Nat.log 2 example_heap.size) ∧
      (∃ h' c, example_heap.update_down_swaps id = some (h', c) ∧
        example_heap.update_down id = some h' ∧ c ≤ Nat.log 2 example_heap.size)) :=
  logarithmic_swaps example_heap example_heap_wf

theorem do_make_heap_loop_count_fst : ∀ (id : Nat) (h : binary_heap T),
    (do_make_heap_loop_count id h).map Prod.fst = do_make_heap_loop id h := by
  intro id
  induction id with
  | zero => intro h; rfl
  | succ id ih =>
    intro h
    simp only [do_make_heap_loop_count, do_make_heap_loop, map_bind_comm, Option.map_map]
    congr 1
    funext e
    rw [← bubble_down_swaps_fst, Option.bind_map]
    congr 1
    funext r
    show _ = do_make_heap_loop id r.1
    rw [← ih r.1]
    cases do_make_heap_loop_count id r.1 <;> rfl

theorem do_make_heap_swaps_fst (h : binary_heap T) :
    h.do_make_heap_swaps.map Prod.fst = h.do_make_heap := by
  unfold do_make_heap_swaps do_make_heap
  split_ifs
  · exact do_make_heap_loop_count_fst _ h
  · rfl

theorem make_heap_swaps_fst (h : binary_heap T) (n : Nat) :
    (h.make_heap_swaps n).map Prod.fst = h.make_heap n := by
  unfold make_heap_swaps make_heap
  rw [map_bind_comm]
  congr 1
  funext a
  exact do_make_heap_swaps_fst a

theorem log_half_term {m u : Nat} (hu : u < m / 2) :
    Nat.log 2 (m / (u + 1)) = 1 + Nat.log 2 (m / 2 / (u + 1)) := by
  have h2 : 2 ≤ m / (u + 1) := by
    rw [Nat.le_div_iff_mul_le (Nat.succ_pos u)]
    have := Nat.div_mul_le_self m 2
    nlinarith
  have e : m / 2 / (u + 1) = m / (u + 1) / 2 := by
    rw [Nat.div_div_eq_div_mul, Nat.div_div_eq_div_mul, Nat.mul_comm]
  rw [e, Nat.log_div_base]
  have : 1 ≤ Nat.log 2 (m / (u + 1)) := Nat.log_pos (by decide) h2
  omega

theorem log_tail_term {m u : Nat} (hu : m / 2 ≤ u) : Nat.log 2 (m / (u + 1)) = 0 := by
  apply Nat.log_of_lt
  rw [Nat.div_lt_iff_lt_mul (Nat.succ_pos u)]
  omega

theorem log_sum_self_le : ∀ m : Nat,
    (∑ u in Finset.range m, Nat.log 2 (m / (u + 1))) ≤ m := by
  intro m
  induction m using Nat.strong_induction_on with
  | _ m ih =>
    rcases Nat.eq_zero_or_pos m with h0 | hpos
    · subst h0; simp
    have hsub : Finset.range (m / 2) ⊆ Finset.range m :=
      Finset.range_subset.2 (Nat.div_le_self m 2)
    have e1 : (∑ u in Finset.range m, Nat.log 2 (m / (u + 1))) =
        ∑ u in Finset.range (m / 2), Nat.log 2 (m / (u + 1)) := by
      symm
      apply Finset.sum_subset hsub
      intro x _ hx
      exact log_tail_term (by simpa using hx)
    have e2 : (∑ u in Finset.range (m / 2), Nat.log 2 (m / (u + 1))) =
        ∑ u in Finset.range (m / 2), (1 + Nat.log 2 (m / 2 / (u + 1))) :=
      Finset.sum_congr rfl fun x hx => log_half_term (by simpa using hx)
    rw [e1, e2, Finset.sum_add_distrib]
    have := ih (m / 2) (Nat.div_lt_self hpos (by decide))
    simp only [Finset.sum_const, Finset.card_range, smul_eq_mul, mul_one]
    omega

theorem log_sum_half_le (n : Nat) :
    (∑ u in Finset.range (n / 2), Nat.log 2 (n / (u + 1))) ≤ n := by
  have e2 : (∑ u in Finset.range (n / 2), Nat.log 2 (n / (u + 1))) =
      ∑ u in Finset.range (n / 2), (1 + Nat.log 2 (n / 2 / (u + 1))) :=
    Finset.sum_congr rfl fun x hx => log_half_term (by simpa using hx)
  rw [e2, Finset.sum_add_distrib]
  have := log_sum_self_le (n / 2)
  simp only [Finset.sum_const, Finset.card_range, smul_eq_mul, mul_one]
  omega

theorem do_make_heap_loop_count_spec : ∀ (id : Nat) (h : binary_heap T), WF h →
    id ≤ h.size / 2 →
    ∃ h' ps, do_make_heap_loop_count id h = some (h', ps) ∧
      do_make_heap_loop id h = some h' ∧ WF h' ∧ Same h h' ∧ ps.length = id ∧
      ps.sum ≤ ∑ u in Finset.range id, Nat.log 2 (h.size / (u + 1)) := by
  intro id
  induction id with
  | zero =>
    intro h w _
    exact ⟨h, [], rfl, rfl, w, Same.refl h, rfl, by simp⟩
  | succ id ih =>
    intro h w hid
    have hs : id + 1 ≤ h.size := le_trans hid (Nat.div_le_self _ _)
    obtain ⟨e, he⟩ := w.key_some (s := id + 1) (by omega) hs
    have he' : h.get_by_node ⟨id + 1⟩ = some e := he
    obtain ⟨h1, c, a1, a2, w1, s1, hc⟩ := bubble_down_swaps_spec w e (u := id + 1) (by omega) hs
    have hz : h1.size = h.size := s1.size
    obtain ⟨h', ps, b1, b2, w', s', hl, hsum⟩ := ih h1 w1 (by rw [hz]; omega)
    refine ⟨h', c :: ps, ?_, ?_, w', s1.trans s', by simp [hl], ?_⟩
    · simp only [do_make_heap_loop_count, he', a1, b1, Option.some_bind, Option.map_some']
    · simp only [do_make_heap_loop, he', a2, b2, Option.some_bind]
    · rw [List.sum_cons, Finset.sum_range_succ]
      rw [hz] at hsum
      omega

theorem do_make_heap_swaps_spec {h : binary_heap T} (w : WF h) :
    ∃ h' ps, h.do_make_heap_swaps = some (h', ps) ∧ h.do_make_heap = some h' ∧
      ps.length = h.size / 2 ∧ ps.sum ≤ h.size := by
  by_cases h1 : h.m_btree.size > 1
  · obtain ⟨h', ps, a1, a2, _, _, hl, hsum⟩ :=
      do_make_heap_loop_count_spec (h.size / 2) h w le_rfl
    refine ⟨h', ps, ?_, ?_, hl, hsum.trans (log_sum_half_le _)⟩
    · simp only [do_make_heap_swaps, if_pos h1]
      exact a1
    · simp only [do_make_heap, if_pos h1]
      exact a2
  · refine ⟨h, [], ?_, ?_, ?_, by simp⟩
    · simp only [do_make_heap_swaps, if_neg h1]
    · simp only [do_make_heap, if_neg h1]
    · have : h.size ≤ 1 := not_lt.1 h1
      simp only [List.length_nil]
      omega

/-- C31. Linear bulk build, for any comparator: `make_heap(n)` on a fresh heap over at least
`n` elements first appends the `n` ids `0, ..., n - 1`, then `do_make_heap()` runs one
`bubble_down` pass per handle from `last_parent()` down to 1, and the passes make at most `n`
swaps in total. -/
theorem linear_bulk_build (elements : List T) (cmp : T → T → Bool)
    (hN : elements.length < SIZE_MOD) (n : Nat) (hn : n ≤ elements.length) :
    ∃ hp h' ps, (List.range n).foldlM push_node (new elements cmp) = some hp ∧
      hp.m_btree.m_nodes = List.range n ∧ hp.size = n ∧
      (new elements cmp).make_heap_swaps n = some (h', ps) ∧
      (new elements cmp).make_heap n = some h' ∧
      ps.length = hp.m_btree.last_parent.id ∧ ps.sum ≤ n := by
  obtain ⟨hp, a1, wp, a2, _, _⟩ := push_all_spec (List.range n) (new elements cmp)
    (new_wf elements cmp hN) (fun i hi => lt_of_lt_of_le (List.mem_range.1 hi) hn)
    (List.nodup_range n) (fun i _ hx => by simp [new] at hx)
  have hnodes : hp.m_btree.m_nodes = List.range n := by
    rw [a2]; simp [new]
  have hsize : hp.size = n := by
    show hp.m_btree.m_nodes.length = n
    rw [hnodes, List.length_range]
  obtain ⟨h', ps, b1, b2, hl, hsum⟩ := do_make_heap_swaps_spec wp
  refine ⟨hp, h', ps, a1, hnodes, hsize, ?_, ?_, hl, by rw [← hsize]; exact hsum⟩
  · simp only [make_heap_swaps, a1, Option.some_bind]
    exact b1
  · simp only [make_heap, a1, Option.some_bind]
    exact b2

theorem linear_bulk_build_witness :
    ∃ hp h' ps, (List.range 5).foldlM push_node (new [5, 3, 8, 1, 9] less) = some hp ∧
      hp.m_btree.m_nodes = List.range 5 ∧ hp.size = 5 ∧
      (new [5, 3, 8, 1, 9] less).make_heap_swaps 5 = some (h', ps) ∧
      (new [5, 3, 8, 1, 9] less).make_heap 5 = some h' ∧
      ps.length = hp.m_btree.last_parent.id ∧ ps.sum ≤ 5 :=
  linear_bulk_build [5, 3, 8, 1, 9] less (by decide) 5 (by decide)

theorem bubble_up_loop_mono (e : T) : ∀ (fuel : Nat) (h : binary_heap T) (u : handle)
    (h' : binary_heap T), bubble_up_loop e fuel h u = some h' →
    bubble_up_loop e (fuel + 1) h u = some h' := by
  intro fuel
  induction fuel with
  | zero => intro h u h' hr; simp [bubble_up_loop] at hr
  | succ fuel ih =>
    intro h u h' hr
    rw [bubble_up_loop] at hr ⊢
    by_cases c1 : h.m_btree.is_non_root u = true
    · rw [if_pos c1] at hr ⊢
      cases hp : h.get_by_node (h.m_btree.parent u) with
      | none => simp [hp] at hr
      | some pe =>
        simp only [hp, Option.some_bind] at hr ⊢
        by_cases c2 : h.compare e pe = true
        · rw [if_pos c2] at hr ⊢
          cases hs : h.swap u (h.m_btree.parent u) with
          | none => simp [hs] at hr
          | some r =>
            simp only [hs, Option.some_bind] at hr ⊢
            exact ih r.1 r.2 h' hr
        · rw [if_neg c2] at hr ⊢
          exact hr
    · rw [if_neg c1] at hr ⊢
      exact hr

theorem bubble_up_loop_add (e : T) (k fuel : Nat) (h : binary_heap T) (u : handle)
    (h' : binary_heap T) (hr : bubble_up_loop e fuel h u = some h') :
    bubble_up_loop e (fuel + k) h u = some h' := by
  induction k with
  | zero => exact hr
  | succ k ih => exact bubble_up_loop_mono e (fuel + k) h u h' ih

theorem bubble_down_loop_mono (e : T) (l : handle) : ∀ (fuel : Nat) (h : binary_heap T)
    (u : handle) (h' : binary_heap T), bubble_down_loop e l fuel h u = some h' →
    bubble_down_loop e l (fuel + 1) h u = some h' := by
  intro fuel
  induction fuel with
  | zero => intro h u h' hr; simp [bubble_down_loop] at hr
  | succ fuel ih =>
    intro h u h' hr
    have step : ∀ v : handle,
        ((h.swap u v).bind fun r => bubble_down_loop e l fuel r.1 r.2) = some h' →
        ((h.swap u v).bind fun r => bubble_down_loop e l (fuel + 1) r.1 r.2) = some h' := by
      intro v hv
      cases hs : h.swap u v with
      | none => simp [hs] at hv
      | some r =>
        simp only [hs, Option.some_bind] at hv ⊢
        exact ih r.1 r.2 h' hv
    rw [bubble_down_loop] at hr ⊢
    by_cases c1 : u.id ≤ l.id
    · rw [if_pos c1] at hr ⊢
      simp only at hr ⊢
      by_cases c2 : (h.m_btree.get_children u).2.non_nil = true
      · rw [if_pos c2] at hr ⊢
        cases hl : h.get_by_node (h.m_btree.get_children u).1 with
        | none => simp [hl] at hr
        | some le =>
          cases hg : h.get_by_node (h.m_btree.get_children u).2 with
          | none => simp [hl, hg] at hr
          | some re =>
            simp only [hl, hg, Option.some_bind] at hr ⊢
            by_cases c3 : h.compare le re = true
            · rw [if_pos c3] at hr ⊢
              by_cases c4 : h.compare le e = true
              · rw [if_pos c4] at hr ⊢
                exact step _ hr
              · rw [if_neg c4] at hr ⊢
                exact hr
            · rw [if_neg c3] at hr ⊢
              by_cases c4 : h.compare re e = true
              · rw [if_pos c4] at hr ⊢
                exact step _ hr
              · rw [if_neg c4] at hr ⊢
                exact hr
      · rw [if_neg c2] at hr ⊢
        by_cases c3 : (h.m_btree.get_children u).1.non_nil = true
        · rw [if_pos c3] at hr ⊢
          cases hl : h.get_by_node (h.m_btree.get_children u).1 with
          | none => simp [hl] at hr
          | some le =>
            simp only [hl, Option.some_bind] at hr ⊢
            by_cases c4 : h.compare le e = true
            · rw [if_pos c4] at hr ⊢
              exact step _ hr
            · rw [if_neg c4] at hr ⊢
              exact hr
        · rw [if_neg c3] at hr ⊢
          exact hr
    · rw [if_neg c1] at hr ⊢
      exact hr

theorem bubble_down_loop_add (e : T) (l : handle) (k fuel : Nat) (h : binary_heap T)
    (u : handle) (h' : binary_heap T) (hr : bubble_down_loop e l fuel h u = some h') :
    bubble_down_loop e l (fuel + k) h u = some h' := by
  induction k with
  | zero => exact hr
  | succ k ih => exact bubble_down_loop_mono e l (fuel + k) h u h' ih

/-- C32. Termination without ordering assumptions: on a well-formed state with any
comparator and a valid handle `u`, `bubble_up(u, e)`, `bubble_down(u, e)` and
`do_make_heap()` return; `bubble_up` needs at most `u.id` rounds and `bubble_down` at most
`size - u.id + 1` rounds whatever the budget, because `swap` returns its second argument,
the parent handle is strictly below `u`, and a child handle is strictly above `u` and at
most the size; the loop of `do_make_heap()` counts down to 0. -/
theorem termination_any_comparator (h : binary_heap T) (w : WF h) (u : handle)
    (hu1 : 1 ≤ u.id) (hu : u.id ≤ h.size) (e : T) :
    (∃ h', h.bubble_up u e = some h' ∧
      ∀ fuel, u.id < fuel → bubble_up_loop e fuel h u = some h') ∧
    (∃ h', h.bubble_down u e = some h' ∧
      ∀ fuel, h.size < fuel + u.id →
        bubble_down_loop e h.m_btree.last_parent fuel h u = some h') ∧
    (∃ h', h.do_make_heap = some h') ∧
    (∀ id, id ≤ h.m_btree.last_parent.id → ∃ h', do_make_heap_loop id h = some h') ∧
    (∀ v r, h.swap u v = some r → r.2 = v ∧ r.1.size = h.size) ∧
    (h.m_btree.is_non_root u = true → (h.m_btree.parent u).id < u.id) ∧
    (u.id ≤ h.m_btree.last_parent.id →
      ((h.m_btree.get_children u).1.non_nil = true →
        u.id < (h.m_btree.get_children u).1.id ∧ (h.m_btree.get_children u).1.id ≤ h.size) ∧
      ((h.m_btree.get_children u).2.non_nil = true →
        u.id < (h.m_btree.get_children u).2.id ∧
        (h.m_btree.get_children u).2.id ≤ h.size)) := by
  obtain ⟨u⟩ := u
  simp only at hu1 hu
  refine ⟨?_, ?_, ?_, ?_, ?_, ?_, ?_⟩
  · obtain ⟨h', a, _⟩ := bubble_up_loop_spec e (u + 1) h u w (Nat.lt_succ_self u) hu
    have all : ∀ fuel, u < fuel → bubble_up_loop e fuel h ⟨u⟩ = some h' := by
      intro fuel hf
      have := bubble_up_loop_add e (fuel - (u + 1)) (u + 1) h ⟨u⟩ h' a
      rwa [Nat.add_sub_cancel' hf] at this
    exact ⟨h', all (h.size + 1) (by omega), all⟩
  · obtain ⟨h', a, _⟩ := bubble_down_loop_spec e (h.size + 1 - u) h u (h.size / 2) w hu1 hu
      (by omega) rfl
    have all : ∀ fuel, h.size < fuel + u →
        bubble_down_loop e ⟨h.size / 2⟩ fuel h ⟨u⟩ = some h' := by
      intro fuel hf
      have := bubble_down_loop_add e ⟨h.size / 2⟩ (fuel - (h.size + 1 - u)) (h.size + 1 - u)
        h ⟨u⟩ h' a
      rwa [Nat.add_sub_cancel' (by omega)] at this
    exact ⟨h', all (h.size + 1) (by omega), all⟩
  · obtain ⟨h', a, _⟩ := do_make_heap_spec w
    exact ⟨h', a⟩
  · intro id hid
    obtain ⟨h', a, _⟩ := do_make_heap_loop_spec id h w hid
    exact ⟨h', a⟩
  · intro v r hr
    exact swap_result hr
  · intro hnr
    simp only [consecutive_binary_tree.is_non_root, decide_eq_true_eq] at hnr
    simp only [consecutive_binary_tree.parent]
    omega
  · intro hlp
    have hlp' : u ≤ h.m_btree.size / 2 := hlp
    have hsz : h.m_btree.size < SIZE_MOD := w.size_lt
    have hsize : h.size = h.m_btree.size := rfl
    rw [get_children_eq _ hlp' hsz]
    split_ifs with c
    · simp only [handle.non_nil, decide_eq_true_eq]
      omega
    · simp only [handle.non_nil, decide_eq_true_eq]
      omega

theorem termination_any_comparator_witness :
    (∃ h', example_heap.bubble_up ⟨3⟩ 0 = some h' ∧
      ∀ fuel, 3 < fuel → bubble_up_loop 0 fuel example_heap ⟨3⟩ = some h') ∧
    (∃ h', example_heap.bubble_down ⟨3⟩ 0 = some h' ∧
      ∀ fuel, example_heap.size < fuel + 3 →
        bubble_down_loop 0 example_heap.m_btree.last_parent fuel example_heap ⟨3⟩ =
          some h') ∧
    (∃ h', example_heap.do_make_heap = some h') ∧
    (∀ id, id ≤ example_heap.m_btree.last_parent.id →
      ∃ h', do_make_heap_loop id example_heap = some h') ∧
    (∀ v r, example_heap.swap ⟨3⟩ v = some r → r.2 = v ∧ r.1.size = example_heap.size) ∧
    (example_heap.m_btree.is_non_root ⟨3⟩ = true →
      (example_heap.m_btree.parent ⟨3⟩).id < 3) ∧
    (3 ≤ example_heap.m_btree.last_parent.id →
      ((example_heap.m_btree.get_children ⟨3⟩).1.non_nil = true →
        3 < (example_heap.m_btree.get_children ⟨3⟩).1.id ∧
        (example_heap.m_btree.get_children ⟨3⟩).1.id ≤ example_heap.size) ∧
      ((example_heap.m_btree.get_children ⟨3⟩).2.non_nil = true →
        3 < (example_heap.m_btree.get_children ⟨3⟩).2.id ∧
        (example_heap.m_btree.get_children ⟨3⟩).2.id ≤ example_heap.size)) :=
  termination_any_comparator example_heap example_heap_wf ⟨3⟩ (by decide) (by decide) 0

theorem bijection.size_bound {h : binary_heap T} (b : bijection h)
    (h2 : h.m_elements.length < SIZE_MOD)
    (hslot : ∀ e ∈ h.m_btree.m_nodes, e < h.m_elements.length) : h.size < SIZE_MOD := by
  have hnd : (h.m_btree.m_nodes.take SIZE_MOD).Nodup := by
    rw [List.nodup_iff_getElem?_ne_getElem?]
    intro i j hij hj heq
    rw [List.length_take] at hj
    have hjS : j < SIZE_MOD := lt_of_lt_of_le hj (min_le_left _ _)
    have hjl : j < h.m_btree.m_nodes.length := lt_of_lt_of_le hj (min_le_right _ _)
    rw [List.getElem?_take_of_lt (by omega), List.getElem?_take_of_lt hjS] at heq
    have hj' : h.m_btree.m_nodes[j]? = some (h.m_btree.m_nodes[j]) :=
      List.getElem?_eq_getElem hjl
    have s1 : slot_holds h (i + 1) (h.m_btree.m_nodes[j]) := by
      refine ⟨by omega, by simp only [size, consecutive_binary_tree.size]; omega, ?_⟩
      rw [tree_get_eq_le _ (by omega) (by omega)]
      simpa using heq.trans hj'
    have s2 : slot_holds h (j + 1) (h.m_btree.m_nodes[j]) := by
      refine ⟨by omega, by simp only [size, consecutive_binary_tree.size]; omega, ?_⟩
      rw [tree_get_eq_le _ (by omega) (by omega)]
      simp
    have := b.slot_unique _ _ _ s1 s2
    omega
  have hsub : h.m_btree.m_nodes.take SIZE_MOD ⊆ List.range h.m_elements.length := by
    intro e he
    exact List.mem_range.2 (hslot e (List.mem_of_mem_take he))
  have hle := (List.subperm_of_subset hnd hsub).length_le
  rw [List.length_take, List.length_range] at hle
  have hsz : h.size = h.m_btree.m_nodes.length := rfl
  rw [hsz]
  rcases le_total SIZE_MOD h.m_btree.m_nodes.length with c | c
  · rw [min_eq_left c] at hle
    omega
  · rw [min_eq_right c] at hle
    omega

/-- A state in which the node map and the element sequence have the same length `N`, every
slot holds an id below `N` and the bijection holds is well formed. -/
theorem bijection.well_formed {h : binary_heap T} (b : bijection h)
    (h1 : h.m_node_map.length = h.m_elements.length)
    (h2 : h.m_elements.length < SIZE_MOD)
    (hslot : ∀ e ∈ h.m_btree.m_nodes, e < h.m_elements.length) : WF h := by
  have hs : h.m_btree.m_nodes.length < SIZE_MOD := b.size_bound h2 hslot
  refine ⟨h1, h2, ?_, ?_⟩
  · intro i e hi
    have hil := (List.getElem?_eq_some.1 hi).1
    have s1 : slot_holds h (i + 1) e := by
      refine ⟨by omega, by simp only [size, consecutive_binary_tree.size]; omega, ?_⟩
      rw [tree_get_eq _ (by omega) (by omega)]
      simpa using hi
    exact b.slot_node _ _ s1
  · intro e he hn
    apply b.absent_nil e he
    intro s hs'
    obtain ⟨_, _, hg⟩ := hs'
    exact hn (List.mem_iff_getElem?.2 ⟨_, hg⟩)

theorem get_nil_none {A : Type} (t : consecutive_binary_tree A) (hs : t.size < SIZE_MOD) :
    t.get handle.nil = none ∧ ∀ x, t.set handle.nil x = none := by
  have hi : handle.nil.index = SIZE_MOD - 1 := by
    simp [handle.index, handle.nil, SIZE_MOD]
  have hl : t.m_nodes.length ≤ SIZE_MOD - 1 := by
    have : t.m_nodes.length < SIZE_MOD := hs
    omega
  constructor
  · simp only [consecutive_binary_tree.get, hi]
    exact List.getElem?_eq_none hl
  · intro x
    simp only [consecutive_binary_tree.set, vec_set, hi, if_neg (not_lt.2 hl), Option.map_none']

/-- C33. In-bounds access under the preconditions: in a state where the node map and the
element sequence both have length `N`, every slot holds an id below `N` and the bijection
holds, the calls `enroll(id)` for an absent `id < N`, `pop_root()`, `update_up(id)` and
`update_down(id)` for an id in the heap, `root()` on a non-empty heap, `get_by_node(u)` on a
valid handle and `make_heap(n)` for `n <= N` on an empty heap all return, that is, none of
their slot, node-map and element accesses is out of range; and a slot access through the nil
handle, whose `index()` is `2^64 - 1`, is out of range, so `index()` is evaluated on the nil
handle in none of these calls. -/
theorem accesses_in_bounds (h : binary_heap T)
    (hlen : h.m_node_map.length = h.m_elements.length)
    (hN : h.m_elements.length < SIZE_MOD)
    (hslot : ∀ e ∈ h.m_btree.m_nodes, e < h.m_elements.length)
    (b : bijection h) :
    (∀ id, id < h.m_elements.length → h.in_heap id = some false →
      ∃ h', h.enroll id = some h') ∧
    (∃ h', h.pop_root = some h') ∧
    (∀ id, h.in_heap id = some true →
      (∃ h', h.update_up id = some h') ∧ (∃ h', h.update_down id = some h')) ∧
    (0 < h.size → ∃ x, h.root = some x) ∧
    (∀ u : handle, 1 ≤ u.id → u.id ≤ h.size → ∃ x, h.get_by_node u = some x) ∧
    (∀ n, n ≤ h.m_elements.length → h.size = 0 → ∃ h', h.make_heap n = some h') ∧
    (∀ t : consecutive_binary_tree Nat, t.size < SIZE_MOD →
      t.get handle.nil = none ∧ ∀ x, t.set handle.nil x = none) := by
  have w : WF h := b.well_formed hlen hN hslot
  refine ⟨?_, ?_, ?_, ?_, ?_, ?_, fun t ht => get_nil_none t ht⟩
  · intro id hid hf
    have hn : id ∉ h.m_btree.m_nodes := by
      intro hm
      rw [(w.in_heap_iff_mem id).2 hm] at hf
      simp at hf
    obtain ⟨h', a, _⟩ := enroll_spec w hid hn
    exact ⟨h', a⟩
  · obtain ⟨h', a, _⟩ := pop_root_spec w
    exact ⟨h', a⟩
  · intro id hin
    obtain ⟨h', a, _⟩ := update_up_spec w hin
    obtain ⟨h'', a', _⟩ := update_down_spec w hin
    exact ⟨⟨h', a⟩, ⟨h'', a'⟩⟩
  · intro hpos
    obtain ⟨_, r, _, _, hr⟩ := w.root_some hpos
    exact ⟨r, hr⟩
  · intro u hu1 hu
    obtain ⟨u⟩ := u
    exact w.key_some hu1 hu
  · intro n hn hz
    have hnil : h.m_btree.m_nodes = [] := List.length_eq_zero.1 hz
    obtain ⟨h', a, _⟩ := make_heap_range_spec w
      (fun i hi => lt_of_lt_of_le (List.mem_range.1 hi) hn) (List.nodup_range n)
      (fun i _ hm => by rw [hnil] at hm; simp at hm)
    exact ⟨h', a⟩

theorem accesses_in_bounds_witness :
    (∀ id, id < example_heap.m_elements.length → example_heap.in_heap id = some false →
      ∃ h', example_heap.enroll id = some h') ∧
    (∃ h', example_heap.pop_root = some h') ∧
    (∀ id, example_heap.in_heap id = some true →
      (∃ h', example_heap.update_up id = some h') ∧
      (∃ h', example_heap.update_down id = some h')) ∧
    (0 < example_heap.size → ∃ x, example_heap.root = some x) ∧
    (∀ u : handle, 1 ≤ u.id → u.id ≤ example_heap.size →
      ∃ x, example_heap.get_by_node u = some x) ∧
    (∀ n, n ≤ example_heap.m_elements.length → example_heap.size = 0 →
      ∃ h', example_heap.make_heap n = some h') ∧
    (∀ t : consecutive_binary_tree Nat, t.size < SIZE_MOD →
      t.get handle.nil = none ∧ ∀ x, t.set handle.nil x = none) :=
  accesses_in_bounds example_heap (by decide) (by decide) (by decide)
    example_heap_wf.bijection

theorem bubble_up_count_ordered {h : binary_heap T} (w : WF h) (ord : OrdAll h) {e : T}
    {u : Nat} (hu : u ≤ h.size) (he : key h u = some e) (fuel : Nat) :
    bubble_up_count e (fuel + 1) h ⟨u⟩ = some (h, 0) := by
  rw [bubble_up_count]
  by_cases c1 : h.m_btree.is_non_root ⟨u⟩ = true
  · rw [if_pos c1]
    have hu2 : 2 ≤ u := by
      simpa [consecutive_binary_tree.is_non_root] using c1
    obtain ⟨pe, hpe⟩ := w.key_some (s := u / 2) (by omega) (by omega)
    have hpe' : h.get_by_node (h.m_btree.parent ⟨u⟩) = some pe := hpe
    have hc : h.compare e pe = false := ord u hu2 hu e pe he hpe
    simp only [hpe', Option.some_bind, hc, Bool.false_eq_true, if_false]
  · rw [if_neg c1]

theorem bubble_down_count_ordered {h : binary_heap T} (w : WF h) (ord : OrdAll h) {e : T}
    {u : Nat} (hu1 : 1 ≤ u) (he : key h u = some e) (fuel : Nat) :
    bubble_down_count e ⟨h.size / 2⟩ (fuel + 1) h ⟨u⟩ = some (h, 0) := by
  have hsz := w.size_lt
  rw [bubble_down_count]
  by_cases c1 : u ≤ h.size / 2
  · rw [if_pos c1, get_children_eq _ c1 hsz]
    obtain ⟨le, hle⟩ := w.key_some (s := 2 * u) (by omega) (by omega)
    have hle2 : h.get_by_node ⟨2 * u⟩ = some le := hle
    have ol : h.compare le e = false :=
      ord (2 * u) (by omega) (by omega) le e hle
        (by rw [Nat.mul_div_cancel_left u (by decide)]; exact he)
    have n1 : ¬ (0 : Nat) > 0 := by omega
    have n2 : 2 * u > 0 := by omega
    by_cases h2 : 2 * u = h.m_btree.size
    · simp only [if_pos h2, handle.non_nil, hle2, Option.some_bind, n1, n2, decide_False,
        decide_True, if_true, if_false, Bool.false_eq_true, ol]
    · have h2' : 2 * u ≠ h.size := h2
      obtain ⟨re, hre⟩ := w.key_some (s := 2 * u + 1) (by omega) (by omega)
      have hre2 : h.get_by_node ⟨2 * u + 1⟩ = some re := hre
      have hdiv : (2 * u + 1) / 2 = u := by omega
      have orr : h.compare re e = false :=
        ord (2 * u + 1) (by omega) (by omega) re e hre (by rw [hdiv]; exact he)
      have n3 : 2 * u + 1 > 0 := by omega
      cases hlr : h.compare le re <;>
        simp only [if_neg h2, handle.non_nil, hle2, hre2, Option.some_bind, n3, decide_True,
          if_true, hlr, Bool.false_eq_true, if_false, ol, orr]
  · rw [if_neg c1]

theorem some_of_count {α : Type} {x : Option (α × Nat)} {y : Option α} {a : α} {c : Nat}
    (hx : x = some (a, c)) (hy : x.map Prod.fst = y) : y = some a := by
  rw [← hy, hx]; rfl

/-- C34. On a heap in heap order with the bijection, whose element values have not changed,
`update_up(id)` and `update_down(id)` for an id in the heap make no swap and return the
state itself, so the slot sequence and the node map are unchanged, and calling either of
them twice gives the same state as calling it once. -/
theorem update_identity (h : binary_heap T) (w : WF h) (ord : heap_order h) (id : Nat)
    (hin : h.in_heap id = some true) :
    h.update_up id = some h ∧ h.update_down id = some h ∧
    h.update_up_swaps id = some (h, 0) ∧ h.update_down_swaps id = some (h, 0) ∧
    ((h.update_up id).bind fun h1 => h1.update_up id) = h.update_up id ∧
    ((h.update_down id).bind fun h1 => h1.update_down id) = h.update_down id ∧
    (∀ h', h.update_up id = some h' →
      h'.m_btree.m_nodes = h.m_btree.m_nodes ∧ h'.m_node_map = h.m_node_map) ∧
    (∀ h', h.update_down id = some h' →
      h'.m_btree.m_nodes = h.m_btree.m_nodes ∧ h'.m_node_map = h.m_node_map) := by
  have o : OrdAll h := (heap_order_iff w).1 ord
  obtain ⟨k, hk, hks⟩ := in_heap_slot w hin
  have hi : id < h.m_elements.length := w.slot_lt hks
  have hkl : k + 1 ≤ h.size := (List.getElem?_eq_some.1 hks).1
  have he : key h (k + 1) = some (h.m_elements[id]) := by
    rw [key_of_slot w hks]; exact List.getElem?_eq_getElem hi
  have cu : h.update_up_swaps id = some (h, 0) := by
    simp only [update_up_swaps, hk, List.getElem?_eq_getElem hi, Option.some_bind]
    exact bubble_up_count_ordered w o hkl he h.size
  have cd : h.update_down_swaps id = some (h, 0) := by
    simp only [update_down_swaps, hk, List.getElem?_eq_getElem hi, Option.some_bind]
    exact bubble_down_count_ordered w o (by omega) he h.size
  have uu : h.update_up id = some h := some_of_count cu (update_up_swaps_fst h id)
  have ud : h.update_down id = some h := some_of_count cd (update_down_swaps_fst h id)
  refine ⟨uu, ud, cu, cd, ?_, ?_, ?_, ?_⟩
  · rw [uu, Option.some_bind, uu]
  · rw [ud, Option.some_bind, ud]
  · intro h' hh
    rw [uu] at hh
    cases hh
    exact ⟨rfl, rfl⟩
  · intro h' hh
    rw [ud] at hh
    cases hh
    exact ⟨rfl, rfl⟩

theorem update_identity_witness :
    example_heap.update_up 0 = some example_heap ∧
    example_heap.update_down 0 = some example_heap ∧
    example_heap.update_up_swaps 0 = some (example_heap, 0) ∧
    example_heap.update_down_swaps 0 = some (example_heap, 0) ∧
    ((example_heap.update_up 0).bind fun h1 => h1.update_up 0) = example_heap.update_up 0 ∧
    ((example_heap.update_down 0).bind fun h1 => h1.update_down 0) =
      example_heap.update_down 0 ∧
    (∀ h', example_heap.update_up 0 = some h' →
      h'.m_btree.m_nodes = example_heap.m_btree.m_nodes ∧
      h'.m_node_map = example_heap.m_node_map) ∧
    (∀ h', example_heap.update_down 0 = some h' →
      h'.m_btree.m_nodes = example_heap.m_btree.m_nodes ∧
      h'.m_node_map = example_heap.m_node_map) :=
  update_identity example_heap example_heap_wf example_heap_order 0 (by decide)

/-- C35. The call `update_up` on an absent id is a silent no-op: for an id below `N` with
`in_heap(id)` false, the node-map entry is the nil handle, which is not non-root, so
`update_up(id)` returns the state itself after no swap; the slot sequence and the node map
are unchanged. -/
theorem update_up_absent (h : binary_heap T) (id : Nat) (hid : id < h.m_elements.length)
    (hout : h.in_heap id = some false) :
    h.node id = some handle.nil ∧ h.m_btree.is_non_root handle.nil = false ∧
    h.update_up_swaps id = some (h, 0) ∧ h.update_up id = some h ∧
    (∀ h', h.update_up id = some h' →
      h'.m_btree.m_nodes = h.m_btree.m_nodes ∧ h'.m_node_map = h.m_node_map) := by
  have hn : h.m_node_map[id]? = some handle.nil := by
    simp only [in_heap, Option.map_eq_some'] at hout
    obtain ⟨u, hu, hnn⟩ := hout
    obtain ⟨u⟩ := u
    simp only [handle.non_nil, decide_eq_false_iff_not, not_lt, Nat.le_zero] at hnn
    subst hnn
    exact hu
  have cu : h.update_up_swaps id = some (h, 0) := by
    simp only [update_up_swaps, hn, List.getElem?_eq_getElem hid, Option.some_bind,
      bubble_up_swaps]
    rfl
  have uu : h.update_up id = some h := some_of_count cu (update_up_swaps_fst h id)
  refine ⟨hn, rfl, cu, uu, ?_⟩
  intro h' hh
  rw [uu] at hh
  cases hh
  exact ⟨rfl, rfl⟩

theorem update_up_absent_witness :
    example_heap.node 2 = some handle.nil ∧
    example_heap.m_btree.is_non_root handle.nil = false ∧
    example_heap.update_up_swaps 2 = some (example_heap, 0) ∧
    example_heap.update_up 2 = some example_heap ∧
    (∀ h', example_heap.update_up 2 = some h' →
      h'.m_btree.m_nodes = example_heap.m_btree.m_nodes ∧
      h'.m_node_map = example_heap.m_node_map) :=
  update_up_absent example_heap 2 (by decide) (by decide)

theorem pair_less_irrefl (a : Nat × Nat) : pair_less a a = false := by
  simp [pair_less]

theorem pair_less_trans (a b c : Nat × Nat) (h1 : pair_less a b = true)
    (h2 : pair_less b c = true) : pair_less a c = true := by
  simp only [pair_less, decide_eq_true_eq] at *
  omega

theorem pair_less_not_swo : ¬ StrictWeakOrder pair_less := by
  intro o
  have h := (o.incomp_trans (0, 0) (0, 2) (1, 1) (by decide) (by decide) (by decide)
    (by decide)).1
  revert h
  decide

theorem pair_elements_make_heap :
    (new pair_elements pair_less).make_heap 3 =
      some { m_elements := pair_elements
             m_btree := ⟨[0, 1, 2]⟩
             m_node_map := [⟨1⟩, ⟨2⟩, ⟨3⟩]
             m_compare := pair_less } := rfl

/-- C36. A strict weak ordering is necessary for the bulk build: `pair_less` is irreflexive
and transitive but not a strict weak ordering, and `make_heap(3)` on a fresh heap over the
three elements `pair_elements` returns a state that is not in heap order.  The left child of
the root is strictly better than the root: the one pass of `bubble_down` found
`compare(left, right)` false, so it compared the root only with the right child, which is
not better than the root, and made no swap. -/
theorem strict_weak_order_needed :
    (∀ a, pair_less a a = false) ∧
    (∀ a b c, pair_less a b = true → pair_less b c = true → pair_less a c = true) ∧
    ¬ StrictWeakOrder pair_less ∧ pair_elements.length = 3 ∧
    ∃ h', (new pair_elements pair_less).make_heap 3 = some h' ∧
      h'.m_btree.m_nodes = [0, 1, 2] ∧ ¬ heap_order h' ∧
      ∃ p l r, h'.get_by_node ⟨1⟩ = some p ∧ h'.get_by_node ⟨2⟩ = some l ∧
        h'.get_by_node ⟨3⟩ = some r ∧ h'.compare l p = true ∧ h'.compare l r = false ∧
        h'.compare r p = false := by
  refine ⟨pair_less_irrefl, pair_less_trans, pair_less_not_swo, rfl, _,
    pair_elements_make_heap, rfl, ?_, (1, 1), (0, 0), (0, 2), by decide, by decide, by decide,
    by decide, by decide, by decide⟩
  intro ho
  obtain ⟨x, y, hx, hy, hc⟩ := ho 2 (by decide) (by decide)
  have ex : x = (0, 0) := by
    have : some x = some ((0, 0) : Nat × Nat) := hx.symm.trans (by decide)
    exact Option.some.inj this
  have ey : y = (1, 1) := by
    have : some y = some ((1, 1) : Nat × Nat) := hy.symm.trans (by decide)
    exact Option.some.inj this
  subst ex ey
  revert hc
  decide

/-- The handle `2^63 + 1` in a tree of two slots: `v.id << 1` wraps to 2, so `left_child`
returns the handle 2, whose parent is the handle 1. -/
theorem parent_wraps :
    (1 : Nat) ≤ (handle.mk 9223372036854775809).id ∧
    (consecutive_binary_tree.mk [0, 1]).left_child ⟨9223372036854775809⟩ = ⟨2⟩ ∧
    (consecutive_binary_tree.mk [0, 1]).parent ⟨2⟩ = ⟨1⟩ ∧
    ¬ parent_inverts (consecutive_binary_tree.mk [0, 1]) ⟨9223372036854775809⟩ := by
  refine ⟨by decide, by decide, by decide, ?_⟩
  intro hp
  have h := (hp ⟨2⟩ (Or.inl (by decide)) (by decide)).1
  revert h
  decide

/-- C37, as amended. The map `parent` inverts the child maps for the handles whose doubled
id is a `size_type` value: for every tree and every handle `h` with `1 <= h.id < 2^63`,
every non-nil handle `c` returned by `left_child(h)`, `right_child(h)` or `get_children(h)`
satisfies `parent(c) == h` and `is_non_root(c)`; conversely for every handle `c` with
`2 <= c.id <= size`, `parent(c)` is a valid handle in `1..last_parent()` and `c` is one of
its two children. -/
theorem parent_inverts_children {A : Type} (t : consecutive_binary_tree A)
    (hs : t.size < SIZE_MOD) :
    (∀ h : handle, 1 ≤ h.id → h.id < SIZE_MOD / 2 → parent_inverts t h) ∧
    (∀ c : handle, 2 ≤ c.id → c.id ≤ t.size → child_of_parent t c) := by
  constructor
  · rintro ⟨a⟩ h1 hb ⟨c⟩ hc hnn
    clear hs
    simp only [SIZE_MOD] at hb
    simp only at h1
    have e : a * 2 % SIZE_MOD = a * 2 := Nat.mod_eq_of_lt (by simp only [SIZE_MOD]; omega)
    have e1 : (a * 2 + 1) % SIZE_MOD = a * 2 + 1 :=
      Nat.mod_eq_of_lt (by simp only [SIZE_MOD]; omega)
    simp only [handle.non_nil, decide_eq_true_eq] at hnn
    simp only [consecutive_binary_tree.left_child, consecutive_binary_tree.right_child,
      consecutive_binary_tree.get_children, e, e1] at hc
    simp only [consecutive_binary_tree.parent, consecutive_binary_tree.is_non_root,
      handle.mk.injEq, decide_eq_true_eq]
    rcases hc with hc | hc | hc | hc
    all_goals
      split_ifs at hc
      all_goals
        simp only [handle.mk.injEq] at hc
        omega
  · rintro ⟨c⟩ c2 cs
    simp only at c2 cs
    have hS : t.size < 18446744073709551616 := hs
    have e : c / 2 * 2 % SIZE_MOD = c / 2 * 2 :=
      Nat.mod_eq_of_lt (by simp only [SIZE_MOD]; omega)
    have e1 : (c / 2 * 2 + 1) % SIZE_MOD = c / 2 * 2 + 1 :=
      Nat.mod_eq_of_lt (by simp only [SIZE_MOD]; omega)
    simp only [child_of_parent, consecutive_binary_tree.parent,
      consecutive_binary_tree.last_parent, consecutive_binary_tree.left_child,
      consecutive_binary_tree.right_child, consecutive_binary_tree.get_children, e, e1]
    refine ⟨by omega, Nat.div_le_div_right cs, ?_, ?_⟩
    · rcases Nat.mod_two_eq_zero_or_one c with hc | hc
      · left
        rw [if_pos (by omega)]
        simp only [handle.mk.injEq]
        omega
      · right
        rw [if_pos (by omega)]
        simp only [handle.mk.injEq]
        omega
    · rcases Nat.mod_two_eq_zero_or_one c with hc | hc
      · left
        split_ifs <;> simp only [handle.mk.injEq] <;> omega
      · right
        split_ifs <;> simp only [handle.mk.injEq] <;> omega

theorem parent_inverts_children_witness :
    (∀ h : handle, 1 ≤ h.id → h.id < SIZE_MOD / 2 →
      parent_inverts (consecutive_binary_tree.mk [3, 0, 1]) h) ∧
    (∀ c : handle, 2 ≤ c.id → c.id ≤ (consecutive_binary_tree.mk [3, 0, 1]).size →
      child_of_parent (consecutive_binary_tree.mk [3, 0, 1]) c) :=
  parent_inverts_children (consecutive_binary_tree.mk [3, 0, 1]) (by decide)

theorem pair_elements_range_heap :
    (new pair_elements pair_less).make_heap_range [0, 1, 2] =
      some { m_elements := pair_elements
             m_btree := ⟨[0, 1, 2]⟩
             m_node_map := [⟨1⟩, ⟨2⟩, ⟨3⟩]
             m_compare := pair_less } := rfl

theorem pair_elements_not_ordered (h' : binary_heap (Nat × Nat))
    (hr : (new pair_elements pair_less).make_heap_range [0, 1, 2] = some h') :
    h'.m_btree.m_nodes = [0, 1, 2] ∧ h'.size = 3 ∧
    h'.get_by_node ⟨1⟩ = some (1, 1) ∧ h'.get_by_node ⟨2⟩ = some (0, 0) ∧
    h'.compare (0, 0) (1, 1) = true ∧ ¬ heap_order h' := by
  rw [pair_elements_range_heap] at hr
  cases hr
  refine ⟨rfl, rfl, by decide, by decide, by decide, ?_⟩
  intro ho
  obtain ⟨x, y, hx, hy, hc⟩ := ho 2 (by decide) (by decide)
  have ex : x = (0, 0) := by
    have : some x = some ((0, 0) : Nat × Nat) := hx.symm.trans (by decide)
    exact Option.some.inj this
  have ey : y = (1, 1) := by
    have : some y = some ((1, 1) : Nat × Nat) := hy.symm.trans (by decide)
    exact Option.some.inj this
  subst ex ey
  revert hc
  decide

/-- The ids 0, 1, 2 are pairwise distinct and below `N = 3`, and `make_heap(first, last)`
over them on a fresh heap over `pair_elements` with the comparator `pair_less`, which is not
a strict weak ordering, returns a state of size 3 with the slots `[0, 1, 2]` that is not in
heap order: the left child `(0, 0)` of the root is strictly better than the root `(1, 1)`.
So no result of the call has the stated size and presence together with heap order and the
bijection. -/
theorem make_heap_range_pair_example :
    [0, 1, 2].Nodup ∧ (∀ i ∈ [0, 1, 2], i < pair_elements.length) ∧
    (∃ h', (new pair_elements pair_less).make_heap_range [0, 1, 2] = some h' ∧
      h'.m_btree.m_nodes = [0, 1, 2] ∧ h'.size = 3 ∧
      h'.get_by_node ⟨1⟩ = some (1, 1) ∧ h'.get_by_node ⟨2⟩ = some (0, 0) ∧
      h'.compare (0, 0) (1, 1) = true ∧ ¬ heap_order h') ∧
    ¬ ∃ h', (new pair_elements pair_less).make_heap_range [0, 1, 2] = some h' ∧
      h'.size = [0, 1, 2].length ∧
      (∀ i, h'.in_heap i = some true ↔ i ∈ [0, 1, 2]) ∧ heap_order h' ∧ bijection h' := by
  refine ⟨by decide, by decide, ⟨_, pair_elements_range_heap,
    pair_elements_not_ordered _ pair_elements_range_heap⟩, ?_⟩
  rintro ⟨h', hr, _, _, ho, _⟩
  exact (pair_elements_not_ordered h' hr).2.2.2.2.2 ho

end binary_heap

end bcs
